import Mathlib

/-!
# Verification of the camp-engine rules-evaluation core

A shallow embedding, in Lean 4, of the rules-evaluation engine of the
`camp-engine` repository:

* the property-expression / requirement language of
  `src/camp/engine/rules/base_models.py` (`PropExpression.parse`,
  `PropExpression.unparse`, `parse_req`, the `BoolExpr` AST and its
  evaluators, `Decision`),
* the property aggregator of `src/camp/engine/aggregator.py`,
* the feature-controller reconciliation / grant-propagation protocol of
  `src/camp/engine/rules/tempest/controllers/feature_controller.py` and
  `.../_costs_cp_controller.py`,
* the purchase guard surface of `src/camp/engine/rules/geas5/models.py` and
  `.../tempest/controllers/character_controller.py`.

Python strings are modelled as Lean `String`/`List Char` (ASCII fragment:
the whitespace class of the regex and `int()` parsing are modelled for the
ASCII characters that can actually occur in ruleset identifiers).  Python
integers are modelled as `Int`.  Python dicts used as association containers
are modelled as association lists in insertion order.  Exceptions are
modelled with `Option`/`Except`.  The unbounded recursion of the propagation
cascade is modelled with explicit fuel; all theorems about it hold for every
sufficient fuel value.
-/

namespace Camp

/-! ## Decision (`rules/decision.py`)

`Decision` is a frozen pydantic model; its truthiness is its `success`
field.  `need_currency` is carried for structural fidelity.
-/

structure Decision where
  success : Bool := false
  needs_option : Bool := false
  reason : Option String := none
  amount : Option Int := none
  need_currency : Option (List (String × Int)) := none
deriving DecidableEq, Repr

/-- `Decision.UNSUPPORTED = Decision(success=False, reason="Unsupported")`. -/
def Decision.UNSUPPORTED : Decision := { success := false, reason := some "Unsupported" }

/-- `Decision.SUCCESS = Decision(success=True)`. -/
def Decision.SUCCESS : Decision := { success := true }

/-- `Decision.UNKNOWN_FAILURE = Decision(success=False, reason="Unknown failure.")`. -/
def Decision.UNKNOWN_FAILURE : Decision :=
  { success := false, reason := some "Unknown failure." }

/-- Modelled from the spec: `Decision.OK`, the success constant returned by
`Always.evaluate` in `base_models.py`.  The `decision.py` snapshot under
`src/` defines only `UNSUPPORTED`/`SUCCESS`/`UNKNOWN_FAILURE`, so the `OK`
class variable referenced throughout the rules code is missing from the
sources; the spec describes `Always` as "trivially true", so `OK` is the
plain success decision. -/
def Decision.OK : Decision := { success := true }

/-! ## The property-expression grammar (`rules/base_models.py`)

The regex `_REQ_SYNTAX` (applied with `fullmatch` to the substring after the
last `.`-split):

```
(?P<prop>[^\s.@+:$<]+)
(?:\.(?P<attribute>[^\s.@+:$<.]+))?
(?:@(?P<slot>-?[^\s.@+:$<.]+))?
(?:\+(?P<option>[^\s.@+:$<.]+))?
(?::(?P<value>-?\d+))?
(?:\$(?P<single>-?\d+))?
(?:<(?P<less_than>-?\d+))?
```

Every character class excludes every delimiter character, so the regex is
deterministic: greedy matching without backtracking agrees with the regex
engine, and we model it by a sequential parser over `List Char`.
-/

/-- ASCII fragment of the Python regex `\s` class. -/
def isSpaceChar (c : Char) : Bool :=
  c = ' ' || c = '\t' || c = '\n' || c = '\r' || c = '\x0b' || c = '\x0c'

/-- Membership in the character classes of `_REQ_SYNTAX` (the `prop` class
`[^\s.@+:$<]` and the suffix classes `[^\s.@+:$<.]` denote the same set). -/
def allowedChar (c : Char) : Bool :=
  !(isSpaceChar c || c = '.' || c = '@' || c = '+' || c = ':' || c = '$' || c = '<')

/-- The numeric value of a (already validated) nonempty digit run, as for
`int(m)` applied to a `\d+` regex group. -/
def digitsToNat (ds : List Char) : Nat :=
  ds.foldl (fun a c => a * 10 + (c.toNat - 48)) 0

/-- Python `int(s)` on an ASCII base-10 literal: optional sign, then digits
with single underscores allowed between digits (no leading, trailing or
doubled underscore).  Returns `none` where Python raises `ValueError`. -/
def pyDigitsAux (acc : Nat) : List Char → Option Nat
  | [] => some acc
  | c :: cs =>
    if c = '_' then
      match cs with
      | [] => none
      | c' :: cs' =>
        if c'.isDigit then pyDigitsAux (acc * 10 + (c'.toNat - 48)) cs' else none
    else if c.isDigit then pyDigitsAux (acc * 10 + (c.toNat - 48)) cs else none

/-- Digit run with Python underscore rules; the first character must be a
digit. -/
def pyNat : List Char → Option Nat
  | [] => none
  | c :: cs => if c.isDigit then pyDigitsAux (c.toNat - 48) cs else none

/-- Python `int(s)` (ASCII, base 10). -/
def pyIntOfChars (l : List Char) : Option Int :=
  match l with
  | [] => none
  | c :: cs =>
    if c = '-' then
      match pyNat cs with
      | some n => some (-(n : Int))
      | none => none
    else if c = '+' then
      match pyNat cs with
      | some n => some ((n : Int))
      | none => none
    else
      match pyNat (c :: cs) with
      | some n => some ((n : Int))
      | none => none

/-- The `slot` field of a `PropExpression` is `str | int | None` in the
source; `PropExpression.parse` converts the raw group to `int` when
`int(slot)` succeeds. -/
inductive SlotVal where
  | int (n : Int)
  | str (s : String)
deriving DecidableEq, Repr

/-- The fields of `PropExpression` (pydantic model, `base_models.py`).
`attribute` is declared in the source but can never be populated by
`parse` (the input is split on `.` first, so the expression component
contains no dot) and is ignored by `unparse`; it is carried for fidelity. -/
structure PropExpr where
  prop : String
  /-- The source field is named `attribute`, a reserved word in Lean. -/
  attrField : Option String := none
  slot : Option SlotVal := none
  option : Option String := none
  value : Int := 1
  single : Option Int := none
  lessThan : Option Int := none
  prefixes : List String := []
deriving DecidableEq, Repr

/-- Python `str.split('.')` on a character list. -/
def splitOnDot : List Char → List (List Char)
  | [] => [[]]
  | c :: rest =>
    if c = '.' then [] :: splitOnDot rest
    else
      match splitOnDot rest with
      | h :: t => (c :: h) :: t
      | [] => [[c]]

/-- One optional text group of `_REQ_SYNTAX`: if the input starts with the
lead character, consume it and a nonempty run of `allowedChar`s (the group
content); with the lead present but no run the whole match fails, because no
later group can consume the lead.  Returns the group content (if any) and
the remaining input. -/
def takeGroup (lead : Char) (l : List Char) : Option (Option (List Char) × List Char) :=
  match l with
  | [] => some (none, [])
  | c :: rest =>
    if c = lead then
      let g := rest.takeWhile allowedChar
      if g.isEmpty then none else some (some g, rest.dropWhile allowedChar)
    else some (none, l)

/-- One optional numeric group (`-?\d+`) of `_REQ_SYNTAX`. -/
def takeNumGroup (lead : Char) (l : List Char) : Option (Option Int × List Char) :=
  match l with
  | [] => some (none, [])
  | c :: rest =>
    if c = lead then
      let signed : Bool × List Char :=
        match rest with
        | c' :: r => if c' = '-' then (true, r) else (false, rest)
        | [] => (false, rest)
      let ds := signed.2.takeWhile Char.isDigit
      if ds.isEmpty then none
      else
        let n : Int := digitsToNat ds
        some (some (if signed.1 then -n else n), signed.2.dropWhile Char.isDigit)
    else some (none, l)

/-- The raw groups of an `_REQ_SYNTAX` full match. -/
structure RawMatch where
  prop : List Char
  attrRaw : Option (List Char) := none
  slotRaw : Option (List Char) := none
  optionRaw : Option (List Char) := none
  valueNum : Option Int := none
  singleNum : Option Int := none
  lessNum : Option Int := none
deriving DecidableEq, Repr

/-- `_REQ_SYNTAX.fullmatch` on the expression component (the substring after
the last dot).  `none` models a failed match (`ValueError` in `parse`). -/
def reqFullmatch (cs : List Char) : Option RawMatch := do
  let prop := cs.takeWhile allowedChar
  if prop.isEmpty then none
  else
    let r0 := cs.dropWhile allowedChar
    let (attrRaw, r1) ← takeGroup '.' r0
    let (slotRaw, r2) ← takeGroup '@' r1
    let (optionRaw, r3) ← takeGroup '+' r2
    let (valueNum, r4) ← takeNumGroup ':' r3
    let (singleNum, r5) ← takeNumGroup '$' r4
    let (lessNum, r6) ← takeNumGroup '<' r5
    if r6.isEmpty then
      some { prop, attrRaw, slotRaw, optionRaw, valueNum, singleNum, lessNum }
    else none

/-- `option.replace('_', ' ')` (and, with the arguments swapped, the
rendering direction `option.replace(' ', '_')`). -/
def replaceChar (a b : Char) (s : String) : String :=
  String.mk (s.data.map (fun c => if c = a then b else c))

/-- `PropExpression.parse` (`base_models.py`): split off the dotted prefix
chain, regex-match the final component, convert the slot to `int` when
possible, replace underscores in the option, default the value to 1. -/
def PropExpr.parse (s : String) : Option PropExpr :=
  let pieces := splitOnDot s.data
  match pieces.getLast? with
  | none => none
  | some expr =>
    let prefixes := (pieces.dropLast).map String.mk
    match reqFullmatch expr with
    | none => none
    | some m =>
      let slot : Option SlotVal := m.slotRaw.map (fun raw =>
        match pyIntOfChars raw with
        | some n => SlotVal.int n
        | none => SlotVal.str (String.mk raw))
      -- Python: `if slot := groups.get("slot")`: an *empty* group string is
      -- falsy and would be left as-is, but a matched group is never empty.
      some
        { prop := String.mk m.prop
          attrField := m.attrRaw.map String.mk
          slot := slot
          option := m.optionRaw.map (fun o => replaceChar '_' ' ' (String.mk o))
          value := m.valueNum.getD 1
          single := m.singleNum
          lessThan := m.lessNum
          prefixes := prefixes }

/-- Decimal digits of a natural number (auxiliary, fuel-driven so that it
reduces definitionally). -/
def natDecAux : Nat → Nat → List Char
  | 0, _ => []
  | fuel + 1, n =>
    if n < 10 then [Char.ofNat (n + 48)]
    else natDecAux fuel (n / 10) ++ [Char.ofNat (n % 10 + 48)]

/-- Decimal rendering of a natural number, as Python `str`. -/
def natDecChars (n : Nat) : List Char := natDecAux (n + 1) n

/-- Decimal rendering of an integer, as Python `str(int)` / f-string
interpolation of an `int`. -/
def intDecChars (i : Int) : List Char :=
  if i < 0 then '-' :: natDecChars (-i).toNat else natDecChars i.toNat

/-- Python truthiness of the `slot` field (`str | int | None`): `None`,
`0` and the empty string are falsy. -/
def slotTruthy : Option SlotVal → Bool
  | none => false
  | some (SlotVal.int n) => n ≠ 0
  | some (SlotVal.str s) => s ≠ ""

/-- Rendering of the slot in `unparse` (`f"@{slot}"`). -/
def slotChars : SlotVal → List Char
  | SlotVal.int n => intDecChars n
  | SlotVal.str s => s.data

/-- Python `".".join(prefixes)`. -/
def joinDots : List String → String
  | [] => ""
  | [p] => p
  | p :: rest => p ++ "." ++ joinDots rest

/-- The `@slot` segment step of `unparse`: appended only when the slot is
truthy (not `None`, not `0`, not the empty string). -/
def unparseSlot (req : String) (slot : Option SlotVal) : String :=
  if slotTruthy slot then
    match slot with
    | some sv => req ++ "@" ++ String.mk (slotChars sv)
    | none => req
  else req

/-- The `+option` segment step of `unparse`: appended when the option is a
nonempty string, with spaces written as underscores. -/
def unparseOpt (req : String) (option : Option String) : String :=
  match option with
  | some o => if o ≠ "" then req ++ "+" ++ replaceChar ' ' '_' o else req
  | none => req

/-- The `:value` segment step of `unparse`: appended when the value is not 1. -/
def unparseVal (req : String) (value : Int) : String :=
  if value ≠ 1 then req ++ ":" ++ String.mk (intDecChars value) else req

/-- A numeric segment step of `unparse` (`$n` for `single`, `<n` for
`less_than`): appended when present and nonzero. -/
def unparseNum (req : String) (lead : String) (o : Option Int) : String :=
  match o with
  | some n => if n ≠ 0 then req ++ lead ++ String.mk (intDecChars n) else req
  | none => req

/-- `PropExpression.unparse` (`base_models.py`): the canonical string form.
Every suffix is emitted only when its field is truthy (so `value == 1`,
`slot == 0`, `single == 0`, `less_than == 0` are all omitted); `prop` falls
back to `"unknown"` when empty. -/
def PropExpr.unparse (prop : String) (slot : Option SlotVal := none)
    (option : Option String := none) (value : Int := 1)
    (single : Option Int := none) (lessThan : Option Int := none)
    (prefixes : List String := []) : String :=
  let req := if prop = "" then "unknown" else prop
  let req := if prefixes.isEmpty then req
    else joinDots prefixes ++ "." ++ req
  unparseNum
    (unparseNum (unparseVal (unparseOpt (unparseSlot req slot) option) value)
      "$" single)
    "<" lessThan

/-- `PropExpression.__repr__`: `unparse` applied to every field. -/
def PropExpr.repr (e : PropExpr) : String :=
  PropExpr.unparse e.prop e.slot e.option e.value e.single e.lessThan e.prefixes

/-- `PropExpression.full_id`: `unparse` of the identifying fields only
(`prop`, `slot`, `option`, `prefixes`). -/
def PropExpr.fullId (e : PropExpr) : String :=
  PropExpr.unparse e.prop e.slot e.option 1 none none e.prefixes

/-! ## The requirement AST and its evaluators (`rules/base_models.py`)

`BoolExpr` with subclasses `Always`, `AnyOf`, `AllOf`, `NoneOf` and the
`PropExpression` leaf.  Evaluation reads the character only through its
property lookup (`char.get`), which we model as a function
`String → Int` from unparsed expression strings to ranks.
-/

inductive BoolExpr where
  | always
  | anyOf (any : List BoolExpr)
  | allOf (all : List BoolExpr)
  | noneOf (noneL : List BoolExpr)
  | prop (e : PropExpr)

/-- The character's read-only property lookup capability (`char.get`). -/
def CharLookup := String → Int

/-- Python dict lookup (`d.get(k)`) on an insertion-ordered association
list. -/
def lookupAssoc {α : Type} (k : String) : List (String × α) → Option α
  | [] => none
  | (k', v) :: rest => if k' = k then some v else lookupAssoc k rest

/-- `PropExpression.evaluate`: resolve the ranks of the identified property
(honouring `overrides`), then check `less_than`, else `single` (which reads
the `$0` form of the expression), else `value`. -/
def PropExpr.evaluate (e : PropExpr) (char : CharLookup)
    (overrides : List (String × Int) := []) : Decision :=
  let expr := PropExpr.unparse e.prop e.slot e.option 1 none none e.prefixes
  let ranks := (lookupAssoc expr overrides).getD (char expr)
  match e.lessThan with
  | some lt =>
    if ranks ≥ lt then
      { success := false,
        reason := some (e.repr ++ " [" ++ String.mk (intDecChars ranks) ++ " ≥ "
          ++ String.mk (intDecChars lt) ++ "]") }
    else { success := true }
  | none =>
    match e.single with
    | some s =>
      let maxRanks := char (expr ++ "$0")
      if maxRanks < s then
        { success := false,
          reason := some (e.repr ++ " [" ++ String.mk (intDecChars maxRanks) ++ " < "
            ++ String.mk (intDecChars s) ++ "]") }
      else { success := true }
    | none =>
      if ranks < e.value then
        { success := false,
          reason := some (e.repr ++ " [" ++ String.mk (intDecChars ranks) ++ " < "
            ++ String.mk (intDecChars e.value) ++ "]") }
      else { success := true }

/-- Stand-in for the Python string interpolation `f"Not({expr})"` in
`NoneOf.evaluate` (pydantic's default `__str__` of the sub-expression is not
modelled character-for-character; no claim depends on this text). -/
def boolExprText : BoolExpr → String
  | .always => "Always()"
  | .anyOf _ => "AnyOf(...)"
  | .allOf _ => "AllOf(...)"
  | .noneOf _ => "NoneOf(...)"
  | .prop e => e.repr

mutual

/-- `BoolExpr.evaluate` and friends: `Always` returns `Decision.OK`;
`AnyOf` returns the first success, collecting each failure reason;
`AllOf`/`NoneOf` return on the first determining branch. -/
def evalBool (char : CharLookup) (overrides : List (String × Int)) :
    BoolExpr → Decision
  | .always => Decision.OK
  | .anyOf xs => evalAny char overrides xs []
  | .allOf xs => evalAll char overrides xs
  | .noneOf xs => evalNone char overrides xs
  | .prop e => e.evaluate char overrides

/-- `AnyOf.evaluate`: `messages` accumulates the reasons (in reverse). -/
def evalAny (char : CharLookup) (overrides : List (String × Int)) :
    List BoolExpr → List String → Decision
  | [], msgs =>
    { success := false,
      reason := some ("AnyOf(" ++ String.intercalate "; " msgs.reverse ++ ")") }
  | x :: xs, msgs =>
    let rd := evalBool char overrides x
    if rd.success then rd
    else evalAny char overrides xs ((rd.reason.getD "[unspecified failure reason]") :: msgs)

/-- `AllOf.evaluate`. -/
def evalAll (char : CharLookup) (overrides : List (String × Int)) :
    List BoolExpr → Decision
  | [] => { success := true }
  | x :: xs =>
    let rd := evalBool char overrides x
    if rd.success then evalAll char overrides xs else rd

/-- `NoneOf.evaluate`. -/
def evalNone (char : CharLookup) (overrides : List (String × Int)) :
    List BoolExpr → Decision
  | [] => { success := true }
  | x :: xs =>
    let rd := evalBool char overrides x
    if rd.success then
      { success := false, reason := some ("Not(" ++ boolExprText x ++ ")") }
    else evalNone char overrides xs

end

/-- The dynamic argument of `parse_req` (`base_models.py`): a string, a
bare list, an `all`/`any`/`none` mapping, or `None`/the empty mapping. -/
inductive ReqInput where
  | str (s : String)
  | list (xs : List ReqInput)
  | allD (xs : List ReqInput)
  | anyD (xs : List ReqInput)
  | noneD (xs : List ReqInput)
  | nothing
deriving Repr

mutual

/-- `parse_req` (`base_models.py`).  A bare list and an `all` mapping become
`AllOf`; `any`/`none` mappings become `AnyOf`/`NoneOf`; a string with a
leading `-` becomes a `NoneOf` wrapping the parse of the rest; any other
string is a `PropExpression` leaf; `None` and the empty mapping are
`ALWAYS`.  Parse failures (Python `ValueError`) are `none`. -/
def parseReq : ReqInput → Option BoolExpr
  | .list xs => (parseReqList xs).map BoolExpr.allOf
  | .allD xs => (parseReqList xs).map BoolExpr.allOf
  | .anyD xs => (parseReqList xs).map BoolExpr.anyOf
  | .noneD xs => (parseReqList xs).map BoolExpr.noneOf
  | .str s =>
    match s.data with
    | '-' :: rest => (PropExpr.parse (String.mk rest)).map
        (fun e => BoolExpr.noneOf [BoolExpr.prop e])
    | _ => (PropExpr.parse s).map BoolExpr.prop
  | .nothing => some BoolExpr.always

def parseReqList : List ReqInput → Option (List BoolExpr)
  | [] => some []
  | x :: xs => do
    let e ← parseReq x
    let es ← parseReqList xs
    pure (e :: es)

end

/-! ## Feature controllers and grant propagation
(`rules/tempest/controllers/feature_controller.py`)

A controller's mutable fields are `purchased_ranks` (player-controlled),
`_granted_ranks`, `_discount` and the `_effective_ranks` cache; we model a
character as total maps from full feature ids to these fields.  A feature
definition supplies `max_ranks` (with `"unlimited"` already resolved to the
arbitrary large value 101, as in `base_engine.FeatureController.max_ranks`),
the `grants` declarations and the `discounts` mapping.

`Grantable` mirrors `defs.Grantable` restricted to the alternatives
`_gather_grants` actually implements (`str`/`list`/`dict`; the remaining
alternatives raise `NotImplementedError`).  A string declaration is carried
in parsed form: ruleset loading parses and validates every grant string, and
a string that fails to parse is a load-time error, so only parseable
declarations reach a live controller.
-/

inductive Grantable where
  | nothing
  | expr (e : PropExpr)
  | glist (gs : List Grantable)
  | gdict (entries : List (String × Int))

/-- `base_engine.PropagationData`: the delta record pushed from one
controller to another.  Its Python truthiness is `grants or discount`. -/
structure PData where
  grants : Int := 0
  discount : Int := 0
deriving DecidableEq, Repr

/-- A feature definition, as consumed by the propagation machinery. -/
structure FeatureDefn where
  maxRanks : Int
  grants : Grantable := .nothing
  discounts : List (String × Int) := []

/-- The ruleset feature catalogue (`ruleset.features`), an
insertion-ordered dict. -/
def Ruleset := List (String × FeatureDefn)

mutual

/-- `FeatureController._gather_grants`: a parsed string declaration grants
`expr.value or 1` ranks of `expr.full_id` (negated when deactivating); a
list is flattened; a dict grants its mapped values (negated when
deactivating from a previously active state). -/
def gatherGrants : Grantable → Int → Int → List (String × Int)
  | .nothing, _, _ => []
  | .expr e, _, toRanks =>
    let v := if e.value = 0 then 1 else e.value
    let v := if toRanks ≤ 0 then -v else v
    [(e.fullId, v)]
  | .glist gs, fromRanks, toRanks => gatherGrantsList gs fromRanks toRanks
  | .gdict entries, fromRanks, toRanks =>
    entries.map (fun kv => (kv.1, if toRanks ≤ 0 ∧ fromRanks > 0 then -kv.2 else kv.2))

def gatherGrantsList : List Grantable → Int → Int → List (String × Int)
  | [], _, _ => []
  | g :: gs, fromRanks, toRanks =>
    gatherGrants g fromRanks toRanks ++ gatherGrantsList gs fromRanks toRanks

end

/-- `FeatureController._gather_discounts` (dict form only; other shapes
raise `NotImplementedError`). -/
def gatherDiscounts (discounts : List (String × Int)) (_fromRanks toRanks : Int) :
    List (String × Int) :=
  discounts.map (fun kv => (kv.1, if toRanks ≤ 0 then -kv.2 else kv.2))

/-- Insertion into a Python dict: a repeated key overwrites in place, a new
key is appended. -/
def dictInsert : List (String × Int) → String → Int → List (String × Int)
  | [], k, v => [(k, v)]
  | (k', v') :: rest, k, v =>
    if k' = k then (k', v) :: rest else (k', v') :: dictInsert rest k v

/-- `dict(pairs)` built from an iterable of key/value pairs. -/
def dictOf (l : List (String × Int)) : List (String × Int) :=
  l.foldl (fun acc kv => dictInsert acc kv.1 kv.2) []

/-- `d.get(k)` defaulted to `0` (the walrus guards
`if g := grants.get(id)` / `if d := discounts.get(id)` leave the
`PropagationData` field at `0` exactly when `get` returns `None` or `0`). -/
def lookupZ (k : String) (l : List (String × Int)) : Int :=
  (lookupAssoc k l).getD 0

/-- The merge step of `_gather_propagation`: one `PropagationData` per key
of the union of the grant and discount dicts.  Python iterates that union
as a `set` (unspecified order); we fix the order "grant keys first, then
new discount keys".  No claim depends on the order. -/
def combinePData (grants discounts : List (String × Int)) : List (String × PData) :=
  let gKeys := grants.map Prod.fst
  let keys := gKeys ++ (discounts.map Prod.fst).filter (fun k => ¬ gKeys.contains k)
  keys.map (fun k => (k, { grants := lookupZ k grants, discount := lookupZ k discounts }))

/-- `FeatureController._gather_propagation`: nothing is gathered unless the
effective rank crosses the zero boundary (`from == 0` or `to == 0`, and
`from ≠ to`); otherwise the grant and discount dicts are merged over the
union of their keys. -/
def gatherPropagation (dfn : FeatureDefn) (fromRanks toRanks : Int) :
    List (String × PData) :=
  if ¬(fromRanks = 0 ∨ toRanks = 0) ∨ fromRanks = toRanks then []
  else
    combinePData (dictOf (gatherGrants dfn.grants fromRanks toRanks))
      (dictOf (gatherDiscounts dfn.discounts fromRanks toRanks))

mutual

/-- The positive (activation) form of the grant declarations: what
`_gather_grants` yields for any activation (`from = 0`, `to > 0`). -/
def declGrants : Grantable → List (String × Int)
  | .nothing => []
  | .expr e => [(e.fullId, if e.value = 0 then 1 else e.value)]
  | .glist gs => declGrantsList gs
  | .gdict entries => entries

def declGrantsList : List Grantable → List (String × Int)
  | [] => []
  | g :: gs => declGrants g ++ declGrantsList gs

end

/-- The activation payload of a feature: the merged grant/discount deltas
it sends to its targets when its effective rank rises from zero. -/
def activationProps (dfn : FeatureDefn) : List (String × PData) :=
  combinePData (dictOf (declGrants dfn.grants)) (dictOf dfn.discounts)

/-- The per-character controller state: the mutable fields of every feature
controller, keyed by full feature id. -/
structure CharState where
  purchased : String → Int
  granted : String → Int
  discount : String → Int
  effCache : String → Option Int

/-- Pointwise update of a field map. -/
def updF {α : Type} (f : String → α) (k : String) (v : α) : String → α :=
  fun x => if x = k then v else f x

/-- `self._effective_ranks or 0`: the cached effective rank, `0` when the
cache has never been written (and when it holds `0`). -/
def cval (s : CharState) (f : String) : Int :=
  (s.effCache f).getD 0

/-- The depth-first propagation cascade.  A pending list entry `(t, d)`
stands for the call `controller.propagate(d)` on the controller resolved by
`_controller_for_property(t)`, which tries the feature catalogue first and
the attribute map second.  A feature target's `propagate` adds the delta to
its granted ranks/discount and calls `reconcile()` on it, whose own
gathered propagation is performed (depth-first) before the remaining
pending deltas — exactly the call order of
`_perform_propagation`/`propagate`/`reconcile`; a falsy delta is dropped
(`FeatureController.propagate`: `if not data: return`).  An attribute
target (`A` lists the attribute ids whose `get_attribute` resolves to an
`AttributeController` instance, not a plain value) runs
`AttributeController.propagate`, which only performs
`_granted_ranks += data.grants` — no discount, no truthiness guard, no
further reconcile.  Any other target is skipped
(`_controller_for_property` returned `None`).  Fuel makes the unbounded
recursion total: `none` means the fuel ran out (the Python recursion would
still be running, or would exhaust the stack on a cyclic grant graph). -/
def cascade (R : Ruleset) (A : List String) :
    Nat → List (String × PData) → CharState → Option CharState
  | 0, _, _ => none
  | _ + 1, [], s => some s
  | fuel + 1, (t, d) :: pend, s =>
    match lookupAssoc t R with
    | none =>
      if A.contains t then
        cascade R A fuel pend
          { s with granted := updF s.granted t (s.granted t + d.grants) }
      else cascade R A fuel pend s
    | some dfn =>
      if d.grants = 0 ∧ d.discount = 0 then cascade R A fuel pend s
      else
        let s1 : CharState :=
          { s with granted := updF s.granted t (s.granted t + d.grants),
                   discount := updF s.discount t (s.discount t + d.discount) }
        let prev := cval s1 t
        let eff := min (s1.granted t + s1.purchased t) dfn.maxRanks
        let s2 := { s1 with effCache := updF s1.effCache t (some eff) }
        cascade R A fuel (gatherPropagation dfn prev eff ++ pend) s2

/-- `FeatureController.reconcile`: snapshot the previous effective ranks,
recompute `effective_ranks = min(granted + purchased, max_ranks)`, store it,
then gather and perform propagation.  (`_link_to_character`, the idempotent
registry write, has no effect on any rank field and is not modelled.)
`none` models a missing definition (`KeyError` at controller construction)
or fuel exhaustion. -/
def reconcile (R : Ruleset) (A : List String) (fuel : Nat) (f : String) (s : CharState) :
    Option CharState :=
  match lookupAssoc f R with
  | none => none
  | some dfn =>
    let prev := cval s f
    let eff := min (s.granted f + s.purchased f) dfn.maxRanks
    let s1 := { s with effCache := updF s.effCache f (some eff) }
    cascade R A fuel (gatherPropagation dfn prev eff) s1

/-- The mutation performed by `CostsCharacterPointsController.increase`
once its guards have passed: `purchased_ranks += value`, then
`reconcile()`. -/
def increaseOp (R : Ruleset) (A : List String) (fuel : Nat) (f : String) (v : Int)
    (s : CharState) : Option CharState :=
  reconcile R A fuel f { s with purchased := updF s.purchased f (s.purchased f + v) }

/-- The mutation performed by `CostsCharacterPointsController.decrease`
once its guards have passed: `purchased_ranks -= value`, then
`reconcile()`. -/
def decreaseOp (R : Ruleset) (A : List String) (fuel : Nat) (f : String) (v : Int)
    (s : CharState) : Option CharState :=
  reconcile R A fuel f { s with purchased := updF s.purchased f (s.purchased f - v) }

/-- `FeatureController.paid_ranks`: the purchased ranks that still have to
be paid for.  Purchases pushed past the rank cap by grants stop being
charged but stay on the sheet. -/
def paidRanks (purchased granted maxRanks : Int) : Int :=
  if purchased + granted ≤ maxRanks then purchased
  else if granted < maxRanks then maxRanks - granted
  else 0

/-! ## Cost computation
(`rules/tempest/controllers/_costs_cp_controller.py`)

A cost definition (`defs.CostDef`) is either a flat per-rank integer or a
`CostByRank` step table.  The `CostByRank` class itself is referenced by
`_costs_cp_controller.py` but absent from the sources (the `defs.py`
snapshot carries the older `CostByValue` instead), so its semantics are
modelled from the spec.
-/

inductive CostDef where
  | flat (cd : Int)
  | byRank (table : List (Nat × Int))

/-- Modelled from the spec: the floor-search lookup of a step table — "the
cost for rank *r* is the table's value at the greatest key ≤ *r*"
(`CostByRank`, missing from `src/`; the table maps "rank-at-or-above" to
"per-rank cost").  A rank below every key has no table entry; `0` is
returned, matching the spec's silence (no such rank is ever summed for the
tables used, whose least key is 1). -/
def tableFloorLookup (table : List (Nat × Int)) (r : Nat) : Int :=
  ((table.foldl
    (fun best kv =>
      if kv.1 ≤ r then
        match best with
        | none => some kv
        | some b => if b.1 ≤ kv.1 then some kv else best
      else best)
    none).map Prod.snd).getD 0

/-- Modelled from the spec: `CostByRank.total_cost(ranks, discount)` — "the
sum of per-rank costs across 1..n, adjusted by any accumulated `discount`
with a floor of 1 cost unit per rank". -/
def totalCost (table : List (Nat × Int)) (ranks : Int) (discount : Int) : Int :=
  ((List.range ranks.toNat).map
    (fun i => max (tableFloorLookup table (i + 1) - discount) 1)).sum

/-- `CostsCharacterPointsController.cost_for(ranks)`: flat costs are
discounted (floor 1) and multiplied; step tables delegate to
`total_cost`. -/
def costFor (cd : CostDef) (discount : Int) (ranks : Int) : Int :=
  match cd with
  | .flat c => max (c - discount) 1 * ranks
  | .byRank t => totalCost t ranks discount

/-- The decreasing linear search of `max_rank_increase` (`while
available_ranks > 0: ...`): the first (largest) rank count whose
incremental cost fits the budget, else 0. -/
def searchDown (cd : CostDef) (discount paid availableCP currentCost : Int) :
    Nat → Int
  | 0 => 0
  | k + 1 =>
    if costFor cd discount (paid + (k + 1 : Int)) - currentCost ≤ availableCP then
      (k + 1 : Int)
    else searchDown cd discount paid availableCP currentCost k

/-- `CostsCharacterPointsController.max_rank_increase(available_cp)`, taken
after the negative-argument default has been resolved to the character's CP
pool.  `value` is the controller's current effective value, `paid` its
`paid_ranks`.  The flat case divides by the *undiscounted* cost
(`math.floor(available_cp / cd)`, floor division); a flat cost of `0` would
raise `ZeroDivisionError`, modelled as `none`. -/
def maxRankIncrease (cd : CostDef) (discount paid maxRanks value availableCP : Int) :
    Option Int :=
  let availableRanks := maxRanks - value
  let currentCost := costFor cd discount paid
  if availableRanks < 1 then some 0
  else
    match cd with
    | .flat c =>
      if c = 0 then none
      else some (min availableRanks (Int.fdiv availableCP c))
    | .byRank _ =>
      some (searchDown cd discount paid availableCP currentCost availableRanks.toNat)

/-! ## The property aggregator (`src/camp/engine/aggregator.py`)

Modifier and property values are floats in the source; the model covers the
integer fragment (every value fed through `Aggregator.apply_mod` is an
`int`, and `floor` rounding is the identity on integers).
-/

structure AggModifier where
  source : String
  value : Int
deriving DecidableEq, Repr

/-- `Property` (dataclass): definition fields plus the mutable modifier
list and the derived-value caches.  `_applied_modifiers` is carried for
fidelity. -/
structure AggProperty where
  id : String
  ptype : String
  base : Int := 0
  minValue : Option Int := some 0
  maxValue : Option Int := none
  minMaxEach : Bool := false
  coalesce : Bool := true
  isTag : Bool := false
  tags : Option (List String) := none
  modifiers : Option (List AggModifier) := none
  floatCache : Option Int := none
  roundedCache : Option Int := none
  maxCache : Option Int := none
  appliedModifiers : Option (List AggModifier) := none
deriving DecidableEq, Repr

/-- `Property.clear_caches`. -/
def AggProperty.clearCaches (p : AggProperty) : AggProperty :=
  { p with floatCache := none, roundedCache := none, maxCache := none,
           appliedModifiers := none }

/-- The in-place coalescing loop of `add_mod`: merge the new modifier into
the first existing modifier with the same source (`Modifier.coalesce`),
returning `none` when no modifier matches. -/
def coalesceInto : List AggModifier → AggModifier → Option (List AggModifier)
  | [], _ => none
  | m :: ms, mod' =>
    if m.source = mod'.source then
      some ({ source := m.source, value := m.value + mod'.value } :: ms)
    else (coalesceInto ms mod').map (m :: ·)

/-- `Property.add_mod(source=, value=)`: clear the caches, then install the
modifier (coalescing when enabled). -/
def AggProperty.addMod (p : AggProperty) (source : String) (value : Int) :
    AggProperty :=
  let mod' : AggModifier := { source, value }
  let p := p.clearCaches
  match p.modifiers with
  | none => { p with modifiers := some [mod'] }
  | some ms =>
    if p.coalesce then
      match coalesceInto ms mod' with
      | some ms' => { p with modifiers := some ms' }
      | none => { p with modifiers := some (ms ++ [mod']) }
    else { p with modifiers := some (ms ++ [mod']) }

/-- `Property._force_range`. -/
def AggProperty.forceRange (p : AggProperty) (value : Int) : Int :=
  let value := match p.minValue with
    | some mn => if value < mn then mn else value
    | none => value
  match p.maxValue with
  | some mx => if value > mx then mx else value
  | none => value

/-- The `source_values` defaultdict of `evaluate_float`: missing keys start
at `self.base or 0`. -/
def bumpSource (base : Int) (sv : List (String × Int)) (src : String) (v : Int) :
    List (String × Int) :=
  match lookupAssoc src sv with
  | some old => (sv.map (fun kv => if kv.1 = src then (kv.1, old + v) else kv))
  | none => sv ++ [(src, base + v)]

/-- The aggregator: the insertion-ordered `_props` dict. -/
structure Aggregator where
  props : List AggProperty
deriving DecidableEq, Repr

/-- The modifier list `evaluate_float` iterates: a tag property unions its
own modifiers with those of every property whose `tags` contain its id (in
aggregator insertion order, skipping properties with an empty or absent
modifier list); any other property uses its own modifiers. -/
def tagModifiers (agg : Aggregator) (p : AggProperty) : List AggModifier :=
  if p.isTag then
    (p.modifiers.getD []) ++
      (agg.props.foldl
        (fun acc q =>
          match q.tags, q.modifiers with
          | some ts, some ms =>
            if ¬ ts.isEmpty ∧ ¬ ms.isEmpty ∧ ts.contains p.id then acc ++ ms else acc
          | _, _ => acc)
        [])
  else p.modifiers.getD []

/-- The accumulation loop of `evaluate_float`: skip zero-valued modifiers,
add each value (clamping after every step when `min_max_each`), and track
per-source totals. -/
def evalLoop (p : AggProperty) :
    List AggModifier → Int → List (String × Int) → Int × List (String × Int)
  | [], value, sv => (value, sv)
  | m :: ms, value, sv =>
    let (value, sv) :=
      if m.value ≠ 0 then (value + m.value, bumpSource p.base sv m.source m.value)
      else (value, sv)
    let value := if p.minMaxEach then p.forceRange value else value
    evalLoop p ms value sv

/-- `Property.evaluate_float`: compute (and cache) the float value, the
rounded value and the largest single-source value.  Returns the updated
property.  With `floor` rounding on the integer fragment, rounding is the
identity. -/
def AggProperty.evaluateFloat (agg : Aggregator) (p : AggProperty) : AggProperty :=
  match p.floatCache with
  | some _ => p
  | none =>
    let mods := tagModifiers agg p
    let (value, sv) := evalLoop p mods p.base []
    let value := p.forceRange value
    let maxC := match (sv.map Prod.snd).max? with
      | some mx => mx
      | none => p.base
    { p with floatCache := some value, roundedCache := some value,
             maxCache := some maxC, appliedModifiers := some mods }

/-- `Property.evaluate`: compute if the cache is cold, then return the
rounded cache. -/
def AggProperty.evaluate (agg : Aggregator) (p : AggProperty) : Int × AggProperty :=
  let p := p.evaluateFloat agg
  ((p.roundedCache).getD 0, p)

/-- Replace a property (by id) in the aggregator: models the in-place
mutation of the `Property` object held in `_props`. -/
def Aggregator.setProp (agg : Aggregator) (p : AggProperty) : Aggregator :=
  { props := agg.props.map (fun q => if q.id = p.id then p else q) }

/-- `Aggregator.has_property`. -/
def Aggregator.hasProperty (agg : Aggregator) (id : String) : Bool :=
  agg.props.any (fun p => p.id = id)

/-- `Aggregator.define_property`: duplicate registration is a `ValueError`
(`none`). -/
def Aggregator.defineProperty (agg : Aggregator) (p : AggProperty) :
    Option Aggregator :=
  if agg.hasProperty p.id then none
  else some { props := agg.props ++ [p] }

/-- `Aggregator.apply_mod(prop, value, source=None)`: default the source to
the property id and `add_mod` on the property (a missing property is a
`KeyError`, `none`). -/
def Aggregator.applyMod (agg : Aggregator) (prop : String) (value : Int)
    (source : Option String := none) : Option Aggregator :=
  let src := source.getD prop
  match agg.props.find? (fun p => p.id = prop) with
  | none => none
  | some p => some (agg.setProp (p.addMod src value))

/-- `Aggregator.get_prop`: evaluate (computing and caching as needed) and
return the rounded value, together with the updated aggregator (the cache
write is a mutation of the stored property). -/
def Aggregator.getProp (agg : Aggregator) (prop : String) :
    Option (Int × Aggregator) :=
  match agg.props.find? (fun p => p.id = prop) with
  | none => none
  | some p =>
    let (v, p') := p.evaluate agg
    some (v, agg.setProp p')

/-- The value `get_prop` would return if the property's caches were cold:
the freshly recomputed value from the current modifier lists.  (This is the
reference value for the staleness claims.) -/
def Aggregator.freshValue (agg : Aggregator) (prop : String) : Option Int :=
  match agg.props.find? (fun p => p.id = prop) with
  | none => none
  | some p => some (((p.clearCaches).evaluateFloat agg).roundedCache.getD 0)

/-! ## The purchase guard surface

### geas5 (`rules/geas5/models.py`, `Character.can_purchase`)

The character's collaborator capabilities (option catalogues, requirement
evaluation) are taken as parameters of the environment; the decision chain
itself is embedded as written.
-/

/-- `feature.ranks` in geas5: `True` (unlimited), `False` (no ranks), or an
integer cap. -/
inductive GeasRanks where
  | yes
  | no
  | upTo (n : Int)
deriving DecidableEq, Repr

structure GeasFeature where
  hasOption : Bool := false
  optionFreeform : Bool := false
  multiple : Bool := false
  ranks : GeasRanks := .no

/-- A purchase entry already on the sheet (`self.features[id]` holds a list
of these). -/
structure GeasEntry where
  option : Option String := none
deriving DecidableEq, Repr

structure GeasEnv where
  features : List (String × GeasFeature)
  sheet : List (String × List GeasEntry)
  /-- Truthiness of `options_values_for_feature(id, exclude_taken=True)`. -/
  optionsAvailable : String → Bool
  /-- `option_satisfies_definition(id, option, exclude_taken=True)`. -/
  optionSatisfies : String → Option String → Bool
  /-- `meets_requirements(feature.requires)` for the feature. -/
  meetsRequirements : String → Decision

/-- `Character.can_purchase` (geas5): an id absent from the ruleset
catalogue fails with "Feature not defined"; otherwise the duplicate, rank
count, option and requirement checks run in source order. -/
def geasCanPurchase (env : GeasEnv) (id : String) (option : Option String)
    (ranks : Int) : Decision :=
  match lookupAssoc id env.features with
  | none => { success := false, reason := some "Feature not defined" }
  | some feature =>
    let entries := (lookupAssoc id env.sheet).getD []
    if ¬ entries.isEmpty ∧ feature.hasOption ∧ ¬ feature.multiple then
      { success := false, reason := some "Already have this feature" }
    else if ¬ entries.isEmpty ∧ entries.any (fun e => e.option = option) then
      { success := false, reason := some "Already have this feature with this option" }
    else if ¬ entries.isEmpty ∧ ¬ feature.hasOption then
      { success := false, reason := some "Already have this feature." }
    else if ranks < 1 then
      { success := false,
        reason := some ("Positive number of ranks required, but "
          ++ String.mk (intDecChars ranks) ++ " ranks given.") }
    else
      let rankFailure : Option Decision :=
        match feature.ranks with
        | .no =>
          if ranks ≠ 1 then
            some { success := false,
                   reason := some ("Ranks not allowed here, but "
                     ++ String.mk (intDecChars ranks) ++ " ranks given.") }
          else none
        | .upTo n =>
          if ranks > n then
            some { success := false,
                   reason := some ("At most " ++ String.mk (intDecChars n)
                     ++ " ranks allowed, but " ++ String.mk (intDecChars ranks)
                     ++ " ranks given.") }
          else none
        | .yes => none
      match rankFailure with
      | some d => d
      | none =>
        if feature.hasOption ∧ option = none
            ∧ (feature.optionFreeform ∨ env.optionsAvailable id) then
          { success := true, needs_option := true }
        else if ¬ env.optionSatisfies id option then
          { success := false, reason := some "Option does not satisfy requirements" }
        else if ¬ (env.meetsRequirements id).success then env.meetsRequirements id
        else { success := true }

/-! ### tempest (`rules/tempest/controllers/character_controller.py`)

`TempestCharacter.can_purchase` resolves a feature controller for the
requested expression and dispatches to its `can_increase`/`can_decrease`
guard.  `_new_controller` on an id whose base is absent from the ruleset
builds an `UndefinedFeatureController` — whose module is missing from the
`src/` snapshot, so its behavior is modelled from the spec — and **raises**
`ValueError("No such feature")` if that controller carries no purchased
ranks.  Exceptions are modelled with `Except String`.
-/

/-- The controller variants relevant to resolution: a controller of the
feature's declared type, or the degraded controller for a feature absent
from the ruleset. -/
inductive TempestController where
  | typed (ftype : String) (fullId : String)
  | undef (fullId : String)

structure TempestEnv where
  /-- `ruleset.features`, reduced to `id → type` (`_feature_type`). -/
  featureTypes : List (String × String)
  /-- The character's cached controller table (`self.features`). -/
  sheet : List (String × TempestController)
  /-- The persisted purchased ranks (read by the undefined controller). -/
  purchased : String → Int
  /-- `can_increase` of a controller of the given type (abstract: the claim
  only concerns ids absent from the catalogue). -/
  typedCanIncrease : String → String → Int → Decision
  /-- `can_decrease`, likewise. -/
  typedCanDecrease : String → String → Int → Decision

/-- `TempestCharacter._new_controller`: dispatch on `_feature_type`; the
`None` arm builds the undefined-feature controller for stale ids and raises
`ValueError("No such feature")` when it has no purchased ranks. -/
def tempestNewController (env : TempestEnv) (fullId : String) :
    Except String TempestController :=
  match PropExpr.parse fullId with
  | none => .error "Requirement parse failure"
  | some expr =>
    match lookupAssoc expr.prop env.featureTypes with
    | none =>
      -- Modelled from the spec: `UndefinedFeatureController.purchased_ranks`
      -- reads the persisted purchase record for the full id (the module
      -- `undefined_controller` is absent from `src/`).
      if env.purchased fullId ≠ 0 then .ok (.undef fullId)
      else .error "No such feature"
    | some t => .ok (.typed t fullId)

/-- `TempestCharacter.feature_controller`: a cached controller from the
sheet, else a freshly constructed one. -/
def tempestFeatureController (env : TempestEnv) (expr : PropExpr) :
    Except String TempestController :=
  match lookupAssoc expr.fullId env.sheet with
  | some c => .ok c
  | none => tempestNewController env expr.fullId

/-- Modelled from the spec: the operation guards of the degraded
`UndefinedFeatureController` report the structural inconsistency as a
failed Decision ("Feature not defined", spec §7) rather than crashing. -/
def tempestCanIncrease (env : TempestEnv) : TempestController → Int → Decision
  | .typed t id, v => env.typedCanIncrease t id v
  | .undef _, _ => { success := false, reason := some "Feature not defined" }

def tempestCanDecrease (env : TempestEnv) : TempestController → Int → Decision
  | .typed t id, v => env.typedCanDecrease t id v
  | .undef _, _ => { success := false, reason := some "Feature not defined" }

/-- `TempestCharacter.can_purchase` on a `RankMutation` with the given id,
option and rank delta: resolve the controller (exceptions propagate!) and
dispatch on the sign of the delta. -/
def tempestCanPurchase (env : TempestEnv) (id : String) (option : Option String)
    (ranks : Int) : Except String Decision :=
  let expr : PropExpr := { prop := id, option := option, value := ranks }
  match tempestFeatureController env expr with
  | .error e => .error e
  | .ok c =>
    if ranks > 0 then .ok (tempestCanIncrease env c ranks)
    else if ranks < 0 then .ok (tempestCanDecrease env c (-ranks))
    else .ok { success := false,
               reason := some ("Purchase not implemented: " ++ expr.repr) }

/-! ## Well-formed property expressions

`PropExpr.repr ∘ PropExpr.parse` cannot be the identity on every grammar
string (non-canonical strings such as `"x:1"` lose their redundant
suffixes), so the round-trip claim is settled against the expression side:
`parse (repr e) = some e` for every well-formed `e` — in particular for
every expression a canonical string parses to.  Well-formedness states
exactly the constraints the grammar imposes plus canonical renderability:
nonempty property from the regex character class, no `attribute` group (the
dot-split makes it unreachable), dot-free prefixes, truthy suffix values
(`unparse` drops falsy ones), and a slot that re-parses the way it is
stored (`int` slots are exactly the `int()`-parseable ones). -/

def strAllowed (s : String) : Prop := ∀ c ∈ s.data, allowedChar c = true

def slotWF : Option SlotVal → Prop
  | none => True
  | some (SlotVal.int n) => n ≠ 0
  | some (SlotVal.str s) => s ≠ "" ∧ strAllowed s ∧ pyIntOfChars s.data = none

def optionWF : Option String → Prop
  | none => True
  | some o => o ≠ "" ∧ '_' ∉ o.data ∧ ∀ c ∈ o.data, c = ' ' ∨ allowedChar c = true

def numWF : Option Int → Prop
  | none => True
  | some n => n ≠ 0

def PropExprWF (e : PropExpr) : Prop :=
  e.prop ≠ "" ∧ strAllowed e.prop ∧ e.attrField = none
  ∧ (∀ p ∈ e.prefixes, '.' ∉ p.data)
  ∧ slotWF e.slot ∧ optionWF e.option ∧ numWF e.single ∧ numWF e.lessThan

/-- The characters `unparse` emits for the slot suffix. -/
def slotPartChars : Option SlotVal → List Char
  | none => []
  | some sv => if slotTruthy (some sv) then '@' :: slotChars sv else []

/-- The characters `unparse` emits for the option suffix. -/
def optPartChars : Option String → List Char
  | none => []
  | some o => if o = "" then [] else '+' :: (replaceChar ' ' '_' o).data

/-- The characters `unparse` emits for the value suffix. -/
def valPartChars (v : Int) : List Char :=
  if v = 1 then [] else ':' :: intDecChars v

/-- The characters `unparse` emits for the `single`/`less_than` suffixes. -/
def numPartChars (lead : Char) : Option Int → List Char
  | none => []
  | some n => if n = 0 then [] else lead :: intDecChars n

/-- The expression component (after the scope prefixes) of the canonical
rendering, as characters. -/
def corePartChars (e : PropExpr) : List Char :=
  e.prop.data ++ (slotPartChars e.slot ++ (optPartChars e.option
    ++ (valPartChars e.value ++ (numPartChars '$' e.single
    ++ numPartChars '<' e.lessThan))))

/-- "The head of `l`, if any, is drawn from `leads`." -/
def restHeadOK (leads : List Char) (l : List Char) : Prop :=
  ∀ c, l.head? = some c → c ∈ leads

/-! ## Propagation-conservation infrastructure

The machinery for the "sequence of increases followed by the inverse
sequence of decreases" claim.  A state is *consistent* when every feature's
granted ranks/discount equal the summed payloads of its currently active
granting features; `reconcile` maintains this invariant, the worklist form
(`Ledger`) holds mid-cascade, and on a grant DAG a consistent state is
determined by the purchased ranks, which is what forces the final state
back to the initial one.
-/

/-- Recomputed effective rank of `v` (`min(granted + purchased, max_ranks)`,
`0` for an id with no definition). -/
def effOf (R : Ruleset) (s : CharState) (v : String) : Int :=
  match lookupAssoc v R with
  | some dfn => min (s.granted v + s.purchased v) dfn.maxRanks
  | none => 0

/-- The activation payload a feature sends to one target (`{}` when the
target is not among its declarations). -/
def pPayload (dfn : FeatureDefn) (u : String) : PData :=
  (lookupAssoc u (activationProps dfn)).getD {}

/-- `Σ_v actF(v) · sel (payload of v towards u)` over a feature list. -/
def sumPay (actF : String → Int) (sel : PData → Int) (u : String) :
    List (String × FeatureDefn) → Int
  | [] => 0
  | vd :: rest => actF vd.1 * sel (pPayload vd.2 u) + sumPay actF sel u rest

/-- Whether a feature is active (`effective_ranks > 0`), as a 0/1 weight. -/
def actW (R : Ruleset) (s : CharState) (v : String) : Int :=
  if 0 < effOf R s v then 1 else 0

/-- The total payload currently sent to `u` by the active features. -/
def actSum (R : Ruleset) (sel : PData → Int) (s : CharState) (u : String) : Int :=
  sumPay (actW R s) sel u R

/-- The pending deltas addressed to `u` in a cascade worklist. -/
def wsum (sel : PData → Int) (u : String) : List (String × PData) → Int
  | [] => 0
  | td :: rest => (if td.1 = u then sel td.2 else 0) + wsum sel u rest

/-- Every effective-rank cache holds the value `reconcile` would recompute
from the current state. -/
def CacheAccurate (R : Ruleset) (s : CharState) : Prop :=
  ∀ g dfn, lookupAssoc g R = some dfn →
    cval s g = min (s.granted g + s.purchased g) dfn.maxRanks

/-- Every defined feature's granted ranks and discount equal the summed
payloads of the currently active granting features; every attribute
controller's granted ranks equal the summed `grants` components addressed
to it (its discount is never written — `AttributeController.propagate`
ignores `data.discount`).  Feature ids shadow attribute ids, as in
`_controller_for_property`. -/
def Consistent (R : Ruleset) (A : List String) (s : CharState) : Prop :=
  ∀ u, ((lookupAssoc u R).isSome →
      s.granted u = actSum R PData.grants s u
      ∧ s.discount u = actSum R PData.discount s u)
    ∧ (lookupAssoc u R = none → A.contains u = true →
      s.granted u = actSum R PData.grants s u)

/-- Mid-cascade form of `Consistent`: the pending worklist deltas complete
the granted/discount totals. -/
def Ledger (R : Ruleset) (A : List String) (s : CharState)
    (W : List (String × PData)) : Prop :=
  ∀ u, ((lookupAssoc u R).isSome →
      s.granted u + wsum PData.grants u W = actSum R PData.grants s u
      ∧ s.discount u + wsum PData.discount u W = actSum R PData.discount s u)
    ∧ (lookupAssoc u R = none → A.contains u = true →
      s.granted u + wsum PData.grants u W = actSum R PData.grants s u)

/-- Sign discipline of a worklist: all deltas nonnegative during the
increase phase, all nonpositive during the decrease phase. -/
def WSign (up : Bool) (W : List (String × PData)) : Prop :=
  ∀ td ∈ W, if up then 0 ≤ td.2.grants ∧ 0 ≤ td.2.discount
            else td.2.grants ≤ 0 ∧ td.2.discount ≤ 0

/-- A well-formed ruleset: unique feature ids, nonnegative rank caps and
nonnegative declared grant/discount values. -/
def RulesetWF (R : List (String × FeatureDefn)) : Prop :=
  (List.map Prod.fst R).Nodup
  ∧ ∀ vd ∈ R, 0 ≤ vd.2.maxRanks
    ∧ (∀ kv ∈ declGrants vd.2.grants, 0 ≤ kv.2)
    ∧ (∀ kv ∈ vd.2.discounts, 0 ≤ kv.2)

/-- The grant graph is a DAG, witnessed by a rank function every payload
edge strictly increases. -/
def RankedDAG (R : List (String × FeatureDefn)) (rank : String → Nat) : Prop :=
  ∀ vd ∈ R, ∀ ku ∈ activationProps vd.2, rank vd.1 < rank ku.1

/-- A sequence of `increase(v)` calls on one feature. -/
def runIncs (R : Ruleset) (A : List String) (fuel : Nat) (f : String) :
    List Int → CharState → Option CharState
  | [], s => some s
  | v :: vs, s =>
    match increaseOp R A fuel f v s with
    | none => none
    | some s1 => runIncs R A fuel f vs s1

/-- A sequence of `decrease(v)` calls on one feature. -/
def runDecs (R : Ruleset) (A : List String) (fuel : Nat) (f : String) :
    List Int → CharState → Option CharState
  | [], s => some s
  | v :: vs, s =>
    match decreaseOp R A fuel f v s with
    | none => none
    | some s1 => runDecs R A fuel f vs s1

/-- The ruleset of the conservation witness: `f` grants a rank of feature
`a` and 2 ranks of the attribute `lp`, and discounts `b` by 1. -/
def c1R : List (String × FeatureDefn) :=
  [("f", { maxRanks := 5, grants := Grantable.gdict [("a", 1), ("lp", 2)],
           discounts := [("b", 1)] }),
   ("a", { maxRanks := 5 }),
   ("b", { maxRanks := 5 })]

/-- The attribute ids of the conservation witness that resolve to an
`AttributeController`. -/
def c1A : List String := ["lp"]

/-- A rank function witnessing that `c1R`'s grant graph is a DAG. -/
def c1Rank : String → Nat := fun x => if x = "f" then 0 else 1

/-- The pristine character: nothing purchased, granted or cached. -/
def c1S0 : CharState :=
  { purchased := fun _ => 0, granted := fun _ => 0, discount := fun _ => 0,
    effCache := fun _ => none }

/-- The state after buying 2 then 1 ranks of `f`. -/
def c1S1 : CharState := (runIncs c1R c1A 10 "f" [2, 1] c1S0).getD c1S0

/-- The state after selling those ranks back in inverse order. -/
def c1S2 : CharState := (runDecs c1R c1A 10 "f" [1, 2] c1S1).getD c1S0

/-! ## Lemmas: the gathered propagation payload

The deltas gathered at an activation (`0 → t`, `t > 0`) do not depend on
the magnitude `t` and are exactly the declared payload; the deltas gathered
at a deactivation (`f → 0`, `f > 0`) are their exact negation.
-/

/-- Negation of a delta record. -/
def PData.neg (d : PData) : PData := { grants := -d.grants, discount := -d.discount }

/-- Negation of every value of a grant/discount dict. -/
def negSnd (kv : String × Int) : String × Int := (kv.1, -kv.2)

mutual

theorem gatherGrants_activation (g : Grantable) (f t : Int) (ht : 0 < t) :
    gatherGrants g f t = declGrants g := by
  cases g with
  | nothing => rfl
  | expr e =>
    simp only [gatherGrants, declGrants]
    rw [if_neg (by omega)]
  | glist gs => simpa only [gatherGrants, declGrants] using
      gatherGrantsList_activation gs f t ht
  | gdict entries =>
    simp only [gatherGrants, declGrants]
    refine List.map_congr_left (fun kv _ => ?_) |>.trans (List.map_id _)
    rw [if_neg (by omega)]
    rfl

theorem gatherGrantsList_activation (gs : List Grantable) (f t : Int) (ht : 0 < t) :
    gatherGrantsList gs f t = declGrantsList gs := by
  cases gs with
  | nil => rfl
  | cons g gs =>
    simp only [gatherGrantsList, declGrantsList]
    rw [gatherGrants_activation g f t ht, gatherGrantsList_activation gs f t ht]

end

mutual

theorem gatherGrants_deactivation (g : Grantable) (f : Int) (hf : 0 < f) :
    gatherGrants g f 0 = (declGrants g).map negSnd := by
  cases g with
  | nothing => rfl
  | expr e =>
    simp only [gatherGrants, declGrants, negSnd, List.map_cons, List.map_nil]
    rw [if_pos (by omega)]
  | glist gs => simpa only [gatherGrants, declGrants] using
      gatherGrantsList_deactivation gs f hf
  | gdict entries =>
    simp only [gatherGrants, declGrants]
    refine List.map_congr_left (fun kv _ => ?_)
    simp only [negSnd]
    rw [if_pos (by omega)]

theorem gatherGrantsList_deactivation (gs : List Grantable) (f : Int) (hf : 0 < f) :
    gatherGrantsList gs f 0 = (declGrantsList gs).map negSnd := by
  cases gs with
  | nil => rfl
  | cons g gs =>
    simp only [gatherGrantsList, declGrantsList, List.map_append]
    rw [gatherGrants_deactivation g f hf, gatherGrantsList_deactivation gs f hf]

end

theorem gatherDiscounts_activation (d : List (String × Int)) (f t : Int) (ht : 0 < t) :
    gatherDiscounts d f t = d := by
  simp only [gatherDiscounts]
  refine List.map_congr_left (fun kv _ => ?_) |>.trans (List.map_id _)
  rw [if_neg (by omega)]
  rfl

theorem gatherDiscounts_deactivation (d : List (String × Int)) (f : Int) :
    gatherDiscounts d f 0 = d.map negSnd := by
  simp only [gatherDiscounts]
  refine List.map_congr_left (fun kv _ => ?_)
  simp only [negSnd]
  rw [if_pos (by omega)]

theorem dictInsert_neg (l : List (String × Int)) (k : String) (v : Int) :
    dictInsert (l.map negSnd) k (-v) = (dictInsert l k v).map negSnd := by
  induction l with
  | nil => rfl
  | cons kv rest ih =>
    simp only [List.map_cons, dictInsert, negSnd]
    by_cases h : kv.1 = k
    · simp [h]
      rfl
    · simp [h, ih]
      rfl

theorem dictOf_neg (l : List (String × Int)) :
    dictOf (l.map negSnd) = (dictOf l).map negSnd := by
  have aux : ∀ (l : List (String × Int)) (acc : List (String × Int)),
      (l.map negSnd).foldl (fun acc kv => dictInsert acc kv.1 kv.2) (acc.map negSnd)
        = (l.foldl (fun acc kv => dictInsert acc kv.1 kv.2) acc).map negSnd := by
    intro l
    induction l with
    | nil => intro acc; rfl
    | cons kv rest ih =>
      intro acc
      simp only [List.map_cons, List.foldl_cons, negSnd]
      rw [dictInsert_neg, ih]
  simpa using aux l []

theorem lookupZ_neg (k : String) (l : List (String × Int)) :
    lookupZ k (l.map negSnd) = -lookupZ k l := by
  induction l with
  | nil => simp [lookupZ, lookupAssoc]
  | cons kv rest ih =>
    simp only [lookupZ, lookupAssoc, List.map_cons, negSnd] at *
    by_cases h : kv.1 = k
    · simp [h]
    · simp [h, ih]

theorem combinePData_neg (g d : List (String × Int)) :
    combinePData (g.map negSnd) (d.map negSnd)
      = (combinePData g d).map (fun kv => (kv.1, kv.2.neg)) := by
  have hg : (g.map negSnd).map Prod.fst = g.map Prod.fst := by
    simp [negSnd]
  have hd : (d.map negSnd).map Prod.fst = d.map Prod.fst := by
    simp [negSnd]
  simp only [combinePData, hg, hd, List.map_map]
  refine List.map_congr_left (fun k _ => ?_)
  simp [lookupZ_neg, PData.neg]

/-- Activation payload: `_gather_propagation` from effective rank `0` to
any positive rank yields the declared grants and discounts, independent of
the magnitude. -/
theorem gatherPropagation_activation (dfn : FeatureDefn) (t : Int) (ht : 0 < t) :
    gatherPropagation dfn 0 t = activationProps dfn := by
  simp only [gatherPropagation, activationProps]
  rw [if_neg (by push_neg; exact ⟨Or.inl trivial, by omega⟩)]
  rw [gatherGrants_activation _ _ _ ht, gatherDiscounts_activation _ _ _ ht]

/-- Deactivation payload: `_gather_propagation` from any positive effective
rank to `0` yields the exact negation of the activation payload. -/
theorem gatherPropagation_deactivation (dfn : FeatureDefn) (f : Int) (hf : 0 < f) :
    gatherPropagation dfn f 0
      = (activationProps dfn).map (fun kv => (kv.1, kv.2.neg)) := by
  simp only [gatherPropagation, activationProps]
  rw [if_neg (by push_neg; exact ⟨Or.inr trivial, by omega⟩)]
  rw [gatherGrants_deactivation _ _ hf, gatherDiscounts_deactivation]
  rw [dictOf_neg, dictOf_neg, combinePData_neg]

/-- In-range changes gather nothing. -/
theorem gatherPropagation_inRange (dfn : FeatureDefn) (f t : Int)
    (hf : f ≠ 0) (ht : t ≠ 0) : gatherPropagation dfn f t = [] := by
  simp only [gatherPropagation]
  rw [if_pos]
  left
  omega

/-! ## Claim theorems -/

/-- C2: grant propagation is boundary-only.  A `reconcile()` whose previous
and new effective ranks are both nonzero gathers no propagation deltas and
leaves every other controller's state untouched (the only write is the
focal controller's effective-rank cache); and whenever the effective rank
rises from 0 to any positive value, the gathered deltas are exactly the
feature's declared grants/discounts payload. -/
theorem boundary_only_propagation
    (R : Ruleset) (A : List String) (fuel : Nat) (f : String) (s : CharState)
    (dfn : FeatureDefn)
    (hf : lookupAssoc f R = some dfn)
    (hprev : cval s f ≠ 0)
    (hnew : min (s.granted f + s.purchased f) dfn.maxRanks ≠ 0) :
    reconcile R A (fuel + 1) f s
      = some { s with effCache :=
          (updF s.effCache f (some (min (s.granted f + s.purchased f) dfn.maxRanks))) }
    ∧ ∀ t : Int, 0 < t → gatherPropagation dfn 0 t = activationProps dfn := by
  constructor
  · simp only [reconcile, hf]
    rw [gatherPropagation_inRange dfn _ _ hprev hnew]
    rfl
  · exact fun t ht => gatherPropagation_activation dfn t ht

/-- Witness for `boundary_only_propagation`: a feature at effective rank 2
(cap 5) increased while already active, with an attribute `lp` present. -/
theorem boundary_only_propagation_witness :
    (lookupAssoc "f" [("f", FeatureDefn.mk 5 .nothing [])]
        = some (FeatureDefn.mk 5 .nothing []))
    ∧ (cval (CharState.mk (fun _ => 2) (fun _ => 0) (fun _ => 0)
        (fun _ => some 2)) "f" ≠ 0)
    ∧ (min ((0 : Int) + 2) 5 ≠ 0)
    ∧ reconcile [("f", FeatureDefn.mk 5 .nothing [])] ["lp"] 1 "f"
        (CharState.mk (fun _ => 2) (fun _ => 0) (fun _ => 0) (fun _ => some 2))
      = some (CharState.mk (fun _ => 2) (fun _ => 0) (fun _ => 0)
          (updF (fun _ => some 2) "f" (some (min ((0 : Int) + 2) 5)))) := by
  refine ⟨rfl, by decide, by decide, ?_⟩
  exact (boundary_only_propagation [("f", FeatureDefn.mk 5 .nothing [])] ["lp"] 0 "f"
    (CharState.mk (fun _ => 2) (fun _ => 0) (fun _ => 0) (fun _ => some 2))
    (FeatureDefn.mk 5 .nothing []) rfl (by decide) (by decide)).1

/-- C8: evaluating the `Always` requirement node returns `Decision.OK`,
whose `success` field is true, for every character lookup and every
overrides mapping. -/
theorem always_evaluates_true (char : CharLookup) (overrides : List (String × Int)) :
    evalBool char overrides BoolExpr.always = Decision.OK
    ∧ (evalBool char overrides BoolExpr.always).success = true := by
  exact ⟨by simp [evalBool], by simp [evalBool, Decision.OK]⟩

/-- C10: `paid_ranks` equals `purchased_ranks` while the total fits the
cap, then `max_ranks - granted_ranks` while grants stay under the cap, then
`0`; it is always between `0` and `purchased_ranks` (for a nonnegative
purchase count). -/
theorem paid_ranks_cases (p g m : Int) (hp : 0 ≤ p) :
    (p + g ≤ m → paidRanks p g m = p)
    ∧ (m < p + g → g < m → paidRanks p g m = m - g)
    ∧ (m < p + g → m ≤ g → paidRanks p g m = 0)
    ∧ 0 ≤ paidRanks p g m ∧ paidRanks p g m ≤ p := by
  unfold paidRanks
  split_ifs <;> refine ⟨by omega, by omega, by omega, by omega, by omega⟩

/-- C6 (counterexample): for the spec's own scenario — per-rank costs
1/1/2/2/3/3/… from the table `{1:1, 3:2, 5:3}`, 6 CP available, 0 current
ranks, cap 10 — `max_rank_increase()` returns 4 (ranks 1–4 cost
1+1+2+2 = 6 ≤ 6), not the 3 the claim requires. -/
theorem max_rank_increase_scenario :
    maxRankIncrease (.byRank [(1, 1), (3, 2), (5, 3)]) 0 0 10 0 6 = some 4
    ∧ (4 : Int) ≠ 3 := by
  exact ⟨rfl, by norm_num⟩

theorem searchDown_spec (cd : CostDef) (discount paid B cur : Int) :
    ∀ N : Nat,
      0 ≤ searchDown cd discount paid B cur N
      ∧ searchDown cd discount paid B cur N ≤ (N : Int)
      ∧ (0 < searchDown cd discount paid B cur N →
          costFor cd discount (paid + searchDown cd discount paid B cur N) - cur ≤ B)
      ∧ (∀ k : Int, 0 < k → k ≤ (N : Int) →
          costFor cd discount (paid + k) - cur ≤ B →
          k ≤ searchDown cd discount paid B cur N) := by
  intro N
  induction N with
  | zero =>
    simp only [searchDown, Nat.cast_zero]
    exact ⟨le_refl 0, le_refl 0, fun h => absurd h (by norm_num),
      fun k hk hk0 _ => by omega⟩
  | succ n ih =>
    by_cases hc : costFor cd discount (paid + ((n : Int) + 1)) - cur ≤ B
    · have hr : searchDown cd discount paid B cur (n + 1) = ((n : Int) + 1) := by
        simp only [searchDown]
        rw [if_pos (by exact_mod_cast hc)]
      refine ⟨by omega, by push_cast [hr]; omega, fun _ => ?_, ?_⟩
      · rw [hr]; exact hc
      · intro k hk hkn _
        rw [hr]
        exact_mod_cast hkn
    · have hr : searchDown cd discount paid B cur (n + 1)
          = searchDown cd discount paid B cur n := by
        simp only [searchDown]
        rw [if_neg (by exact_mod_cast hc)]
      rw [hr]
      obtain ⟨ih0, ihN, ihc, ihmax⟩ := ih
      refine ⟨ih0, by push_cast; omega, ihc, ?_⟩
      intro k hk hkn hkB
      have : k ≠ (n : Int) + 1 := by
        intro hEq
        exact hc (hEq ▸ hkB)
      exact ihmax k hk (by push_cast at hkn; omega) hkB

/-- C6 (amended): for a step-table cost definition with at least one rank
of head-room, `max_rank_increase(B)` returns the largest rank count, within
head-room, whose incremental cost from the current paid ranks does not
exceed `B` (with `≤`, not `<`, as the affordability comparison), and `0`
when no rank count is affordable. -/
theorem max_rank_increase_largest (table : List (Nat × Int))
    (discount paid maxRanks value B : Int) (h1 : 1 ≤ maxRanks - value) :
    ∃ r, maxRankIncrease (.byRank table) discount paid maxRanks value B = some r
      ∧ 0 ≤ r ∧ r ≤ maxRanks - value
      ∧ (0 < r → costFor (.byRank table) discount (paid + r)
          - costFor (.byRank table) discount paid ≤ B)
      ∧ (∀ k : Int, 0 < k → k ≤ maxRanks - value →
          costFor (.byRank table) discount (paid + k)
            - costFor (.byRank table) discount paid ≤ B → k ≤ r) := by
  refine ⟨searchDown (.byRank table) discount paid B
    (costFor (.byRank table) discount paid) (maxRanks - value).toNat, ?_, ?_⟩
  · simp only [maxRankIncrease]
    rw [if_neg (by omega)]
  · have hN : ((maxRanks - value).toNat : Int) = maxRanks - value :=
      Int.toNat_of_nonneg (by omega)
    obtain ⟨h0, hUp, hc, hmax⟩ := searchDown_spec (.byRank table) discount paid B
      (costFor (.byRank table) discount paid) (maxRanks - value).toNat
    exact ⟨h0, hN ▸ hUp, hc, fun k hk hkn => hmax k hk (by omega)⟩

/-- Witness for `max_rank_increase_largest`: the 1/1/2/2/3… table with
budget 6 from rank 0, cap 10. -/
theorem max_rank_increase_largest_witness :
    (1 : Int) ≤ 10 - 0
    ∧ ∃ r, maxRankIncrease (.byRank [(1, 1), (3, 2), (5, 3)]) 0 0 10 0 6 = some r
      ∧ 0 ≤ r ∧ r ≤ 10 - 0
      ∧ (0 < r → costFor (.byRank [(1, 1), (3, 2), (5, 3)]) 0 (0 + r)
          - costFor (.byRank [(1, 1), (3, 2), (5, 3)]) 0 0 ≤ 6)
      ∧ (∀ k : Int, 0 < k → k ≤ 10 - 0 →
          costFor (.byRank [(1, 1), (3, 2), (5, 3)]) 0 (0 + k)
            - costFor (.byRank [(1, 1), (3, 2), (5, 3)]) 0 0 ≤ 6 → k ≤ r) := by
  exact ⟨by norm_num,
    max_rank_increase_largest [(1, 1), (3, 2), (5, 3)] 0 0 10 0 6 (by norm_num)⟩

theorem string_mk_data (s : String) : String.mk s.data = s := by
  cases s
  rfl

/-- C9 (counterexample): a leading `!` is *not* negation syntax for
`parse_req` — `"!x"` parses as a `PropExpression` leaf whose property name
is literally `"!x"` (the `!` is absorbed by the regex's property character
class), not as a `NoneOf` wrapping the parse of `"x"`. -/
theorem bang_not_negation :
    parseReq (ReqInput.str "!x") = some (BoolExpr.prop { prop := "!x" })
    ∧ parseReq (ReqInput.str "!x")
        ≠ some (BoolExpr.noneOf [BoolExpr.prop { prop := "x" }]) := by
  have h1 : parseReq (ReqInput.str "!x") = some (BoolExpr.prop { prop := "!x" }) := by
    simp only [parseReq]
    rfl
  refine ⟨h1, ?_⟩
  intro h
  rw [h1] at h
  injection h with h'
  exact BoolExpr.noConfusion h'

/-- C9 (amended): only a leading `-` negates a whole requirement string —
`parse_req("-" + s)` is a `NoneOf` wrapping the parse of `s`, and that
`NoneOf` evaluates to the boolean negation of the inner expression's
evaluation (for every character lookup and overrides). -/
theorem dash_negation (s : String) (e : PropExpr)
    (h : PropExpr.parse s = some e) :
    parseReq (ReqInput.str ("-" ++ s)) = some (BoolExpr.noneOf [BoolExpr.prop e])
    ∧ ∀ (char : CharLookup) (overrides : List (String × Int)),
        (evalBool char overrides (BoolExpr.noneOf [BoolExpr.prop e])).success
          = !(evalBool char overrides (BoolExpr.prop e)).success := by
  constructor
  · simp only [parseReq]
    have hdata : ("-" ++ s).data = '-' :: s.data := by
      rw [String.data_append]
      rfl
    rw [hdata]
    simp only [string_mk_data, h, Option.map_some']
  · intro char overrides
    cases hrd : (PropExpr.evaluate e char overrides).success <;>
      simp [evalBool, evalNone, hrd]

/-- Witness for `dash_negation`: `s = "x"`. -/
theorem dash_negation_witness :
    PropExpr.parse "x" = some { prop := "x" }
    ∧ parseReq (ReqInput.str ("-" ++ "x"))
        = some (BoolExpr.noneOf [BoolExpr.prop { prop := "x" }])
    ∧ (evalBool (fun _ => 0) [] (BoolExpr.noneOf [BoolExpr.prop { prop := "x" }])).success
        = !(evalBool (fun _ => 0) [] (BoolExpr.prop { prop := "x" })).success := by
  refine ⟨by decide, ?_, ?_⟩
  · exact (dash_negation "x" { prop := "x" } (by decide)).1
  · exact (dash_negation "x" { prop := "x" } (by decide)).2 (fun _ => 0) []

/-- C7 (counterexample): the tempest `can_purchase` does *not* report an
unknown id as a failed Decision — for an id absent from the catalogue and
never purchased, `_new_controller` raises `ValueError("No such feature")`,
which propagates out of `can_purchase`: no `Decision` is returned at all. -/
theorem tempest_unknown_id_raises :
    tempestCanPurchase
        (TempestEnv.mk [("skill", "skill")] [] (fun _ => 0)
          (fun _ _ _ => Decision.SUCCESS) (fun _ _ _ => Decision.SUCCESS))
        "ghost" none 1
      = .error "No such feature"
    ∧ (tempestCanPurchase
        (TempestEnv.mk [("skill", "skill")] [] (fun _ => 0)
          (fun _ _ _ => Decision.SUCCESS) (fun _ _ _ => Decision.SUCCESS))
        "ghost" none 1).toOption = none := by
  exact ⟨rfl, rfl⟩

/-- C7 (amended): the geas5 `can_purchase` reports an id absent from the
catalogue as a failed Decision with reason "Feature not defined"; the
tempest `can_purchase` only avoids raising for an absent id when the
character still carries purchased ranks of it (stale persisted data), in
which case the degraded undefined-feature controller reports the failed
Decision. -/
theorem unknown_id_failed_decision
    (envG : GeasEnv) (envT : TempestEnv) (id idT : String) (option : Option String)
    (ranks ranksT : Int) (pe : PropExpr)
    (hG : lookupAssoc id envG.features = none)
    (hsheet : lookupAssoc (PropExpr.mk idT none none option ranksT none none []).fullId
      envT.sheet = none)
    (hparse : PropExpr.parse (PropExpr.mk idT none none option ranksT none none []).fullId
      = some pe)
    (htype : lookupAssoc pe.prop envT.featureTypes = none)
    (hpurch : envT.purchased (PropExpr.mk idT none none option ranksT none none []).fullId ≠ 0)
    (hpos : 0 < ranksT) :
    geasCanPurchase envG id option ranks
      = { success := false, reason := some "Feature not defined" }
    ∧ tempestCanPurchase envT idT option ranksT
      = .ok { success := false, reason := some "Feature not defined" } := by
  constructor
  · simp only [geasCanPurchase, hG]
  · simp only [tempestCanPurchase, tempestFeatureController, tempestNewController,
      hsheet, hparse, htype, if_pos hpurch]
    rw [if_pos (by omega)]
    rfl

/-- Witness for `unknown_id_failed_decision`: geas5 asked about `"ghost"`
(not in the catalogue); tempest asked about `"relic"` (removed from the
catalogue but still purchased at 1 rank on the sheet). -/
theorem unknown_id_failed_decision_witness :
    (lookupAssoc "ghost"
        (GeasEnv.mk [("skill", GeasFeature.mk false false false (.upTo 5))] []
          (fun _ => false) (fun _ _ => true) (fun _ => Decision.SUCCESS)).features = none)
    ∧ geasCanPurchase
        (GeasEnv.mk [("skill", GeasFeature.mk false false false (.upTo 5))] []
          (fun _ => false) (fun _ _ => true) (fun _ => Decision.SUCCESS))
        "ghost" none 1
      = { success := false, reason := some "Feature not defined" }
    ∧ tempestCanPurchase
        (TempestEnv.mk [("skill", "skill")] []
          (fun x => if x = "relic" then 1 else 0)
          (fun _ _ _ => Decision.SUCCESS) (fun _ _ _ => Decision.SUCCESS))
        "relic" none 1
      = .ok { success := false, reason := some "Feature not defined" } := by
  refine ⟨rfl, ?_, ?_⟩
  · exact (unknown_id_failed_decision
      (GeasEnv.mk [("skill", GeasFeature.mk false false false (.upTo 5))] []
        (fun _ => false) (fun _ _ => true) (fun _ => Decision.SUCCESS))
      (TempestEnv.mk [("skill", "skill")] []
        (fun x => if x = "relic" then 1 else 0)
        (fun _ _ _ => Decision.SUCCESS) (fun _ _ _ => Decision.SUCCESS))
      "ghost" "relic" none 1 1 { prop := "relic" }
      rfl rfl rfl rfl (by decide) (by decide)).1
  · exact (unknown_id_failed_decision
      (GeasEnv.mk [("skill", GeasFeature.mk false false false (.upTo 5))] []
        (fun _ => false) (fun _ _ => true) (fun _ => Decision.SUCCESS))
      (TempestEnv.mk [("skill", "skill")] []
        (fun x => if x = "relic" then 1 else 0)
        (fun _ _ _ => Decision.SUCCESS) (fun _ _ _ => Decision.SUCCESS))
      "ghost" "relic" none 1 1 { prop := "relic" }
      rfl rfl rfl rfl (by decide) (by decide)).2

/-- C4: the tag-property cache goes stale.  Define a tag property `T` and a
property `A` tagged `{T}`; give `A` a modifier of 3 and read `T` (caching 3);
then `apply_mod("A", 5)` — which clears only `A`'s caches — and read `T`
again.  The read returns the stale cached 3, while the value freshly
recomputed from the current modifier lists (which the claim requires every
read to return) is 8. -/
theorem aggregator_tag_cache_stale :
    (do
      let agg ← (Aggregator.mk []).defineProperty
        { id := "T", ptype := "attribute", isTag := true }
      let agg ← agg.defineProperty
        { id := "A", ptype := "feature", tags := some ["T"] }
      let agg ← agg.applyMod "A" 3
      let (v1, agg) ← agg.getProp "T"
      let agg ← agg.applyMod "A" 5
      let (v2, agg) ← agg.getProp "T"
      let freshV ← agg.freshValue "T"
      pure (v1, v2, freshV) : Option (Int × Int × Int))
      = some (3, 3, 8)
    ∧ (3 : Int) ≠ 8 := by
  exact ⟨rfl, by norm_num⟩

theorem updF_self {α : Type} (f : String → α) (k : String) (v : α) :
    updF f k v k = v := by
  simp [updF]

theorem updF_ne {α : Type} (f : String → α) (k x : String) (v : α) (h : x ≠ k) :
    updF f k v x = f x := by
  simp [updF, h]

/-- The cascade re-derives each cache it touches from the state it just
wrote, and an attribute write never feeds back into a feature's rank total,
so cache accuracy is preserved; purchased ranks are never touched. -/
theorem cascade_cacheAccurate (R : Ruleset) (A : List String) :
    ∀ (fuel : Nat) (pend : List (String × PData)) (s s' : CharState),
      cascade R A fuel pend s = some s' → CacheAccurate R s →
      CacheAccurate R s' ∧ s'.purchased = s.purchased := by
  intro fuel
  induction fuel with
  | zero => intro pend s s' h; exact absurd h (by simp [cascade])
  | succ n ih =>
    intro pend s s' h hacc
    match pend with
    | [] =>
      simp only [cascade, Option.some.injEq] at h
      exact h ▸ ⟨hacc, rfl⟩
    | (t, d) :: ps =>
      rw [show cascade R A (n + 1) ((t, d) :: ps) s =
          (match lookupAssoc t R with
           | none =>
             if A.contains t then
               cascade R A n ps
                 { s with granted := updF s.granted t (s.granted t + d.grants) }
             else cascade R A n ps s
           | some dfn =>
             if d.grants = 0 ∧ d.discount = 0 then cascade R A n ps s
             else
               let s1 : CharState :=
                 { s with granted := updF s.granted t (s.granted t + d.grants),
                          discount := updF s.discount t (s.discount t + d.discount) }
               let prev := cval s1 t
               let eff := min (s1.granted t + s1.purchased t) dfn.maxRanks
               let s2 := { s1 with effCache := updF s1.effCache t (some eff) }
               cascade R A n (gatherPropagation dfn prev eff ++ ps) s2) from rfl] at h
      split at h
      · rename_i hlt
        split at h
        · refine (ih _ _ s' h ?_).imp id id
          intro g dfn' hg
          have hgt : ¬(g = t) := by
            intro he
            rw [he, hlt] at hg
            exact absurd hg (by simp)
          simp only [cval, updF_ne _ _ _ _ hgt]
          have hc := hacc g dfn' hg
          simpa [cval] using hc
        · exact ih ps s s' h hacc
      · rename_i dfn hl
        split at h
        · exact ih ps s s' h hacc
        · rename_i hz
          refine (ih _ _ s' h ?_).imp id id
          intro g dfn' hg
          by_cases hgt : g = t
          · subst hgt
            rw [hl] at hg
            injection hg with hg
            subst hg
            simp [cval, updF_self, updF_ne]
          · simp only [cval, updF_ne _ _ _ _ hgt]
            exact hacc g dfn' hg

/-- C3 (amended): after any terminating `reconcile()`, every controller's
effective rank equals `min(purchased_ranks + granted_ranks, max_ranks)` of
the resulting state; consequently it never exceeds the feature's rank cap,
and it is nonnegative whenever the rank total is (in particular whenever
granted and purchased ranks are nonnegative).  The entry state may carry a
stale cache for the reconciled feature itself (that is exactly the state
`increase`/`decrease`/`propagate` produce before calling `reconcile`). -/
theorem effective_ranks_formula
    (R : Ruleset) (A : List String) (fuel : Nat) (f : String) (s s' : CharState)
    (hres : reconcile R A fuel f s = some s')
    (hacc : ∀ g dfn, lookupAssoc g R = some dfn → g ≠ f →
      cval s g = min (s.granted g + s.purchased g) dfn.maxRanks) :
    ∀ g dfn, lookupAssoc g R = some dfn →
      cval s' g = min (s'.granted g + s'.purchased g) dfn.maxRanks
      ∧ cval s' g ≤ dfn.maxRanks
      ∧ (0 ≤ s'.granted g + s'.purchased g → 0 ≤ dfn.maxRanks → 0 ≤ cval s' g) := by
  unfold reconcile at hres
  cases hf : lookupAssoc f R with
  | none => rw [hf] at hres; exact absurd hres (by simp)
  | some dfnf =>
    rw [hf] at hres
    simp only at hres
    have hacc1 : CacheAccurate R
        { s with effCache :=
            (updF s.effCache f (some (min (s.granted f + s.purchased f) dfnf.maxRanks))) } := by
      intro g dfn' hg
      by_cases hgf : g = f
      · subst hgf
        rw [hf] at hg
        injection hg with hg
        subst hg
        simp [cval, updF_self]
      · simp only [cval, updF_ne _ _ _ _ hgf]
        exact hacc g dfn' hg hgf
    have := cascade_cacheAccurate R A fuel _ _ s' hres hacc1
    intro g dfn hg
    have heq := this.1 g dfn hg
    refine ⟨heq, ?_, ?_⟩
    · rw [heq]; exact min_le_right _ _
    · intro h1 h2; rw [heq]; exact le_min h1 h2

/-- Witness for `effective_ranks_formula`: buying 2 ranks of a cap-5
feature on a fresh character. -/
theorem effective_ranks_formula_witness :
    (increaseOp [("f", FeatureDefn.mk 5 .nothing [])] ["lp"] 1 "f" 2
        (CharState.mk (fun _ => 0) (fun _ => 0) (fun _ => 0) (fun _ => none))
      = reconcile [("f", FeatureDefn.mk 5 .nothing [])] ["lp"] 1 "f"
        (CharState.mk (updF (fun _ => 0) "f" (0 + 2)) (fun _ => 0) (fun _ => 0)
          (fun _ => none)))
    ∧ ∀ g dfn, lookupAssoc g [("f", FeatureDefn.mk 5 .nothing [])] = some dfn →
        ∀ s', reconcile [("f", FeatureDefn.mk 5 .nothing [])] ["lp"] 1 "f"
            (CharState.mk (updF (fun _ => 0) "f" (0 + 2)) (fun _ => 0) (fun _ => 0)
              (fun _ => none)) = some s' →
          cval s' g = min (s'.granted g + s'.purchased g) dfn.maxRanks
          ∧ cval s' g ≤ dfn.maxRanks := by
  refine ⟨rfl, fun g dfn hg s' hs' => ?_⟩
  have := effective_ranks_formula [("f", FeatureDefn.mk 5 .nothing [])] ["lp"] 1 "f" _ s' hs'
    (fun g' dfn' hg' hne => by
      by_cases h : ("f" : String) = g'
      · exact absurd h.symm hne
      · simp [lookupAssoc, h] at hg')
    g dfn hg
  exact ⟨this.1, this.2.1⟩

/-- C3 (counterexample to the nonnegativity conjunct): a `propagate` of a
negative grant delta (the exact shape deactivation sends) onto a fresh
controller drives its reconciled effective rank to `-1`; `reconcile` never
clamps below zero. -/
theorem effective_ranks_negative_counterexample :
    (cascade [("f", FeatureDefn.mk 5 .nothing [])] ["lp"] 2 [("f", PData.mk (-1) 0)]
        (CharState.mk (fun _ => 0) (fun _ => 0) (fun _ => 0) (fun _ => none))).map
      (fun s' => cval s' "f") = some (-1)
    ∧ ((-1 : Int) < 0) := by
  exact ⟨rfl, by norm_num⟩

/-! ## Lemmas: decimal rendering and re-parsing -/

theorem digitsToNat_append (ds : List Char) (c : Char) :
    digitsToNat (ds ++ [c]) = digitsToNat ds * 10 + (c.toNat - 48) := by
  simp [digitsToNat, List.foldl_append]

theorem digitChar_spec (m : Nat) (hm : m < 10) :
    (Char.ofNat (m + 48)).isDigit = true ∧ (Char.ofNat (m + 48)).toNat - 48 = m
    ∧ (Char.ofNat (m + 48)) ≠ '-' ∧ (Char.ofNat (m + 48)) ≠ '+'
    ∧ (Char.ofNat (m + 48)) ≠ '_' ∧ allowedChar (Char.ofNat (m + 48)) = true := by
  interval_cases m <;> exact ⟨rfl, rfl, by decide, by decide, by decide, rfl⟩

theorem natDecAux_spec : ∀ (fuel n : Nat), n < fuel →
    (∀ c ∈ natDecAux fuel n,
      c.isDigit = true ∧ allowedChar c = true ∧ c ≠ '-' ∧ c ≠ '+')
    ∧ natDecAux fuel n ≠ []
    ∧ digitsToNat (natDecAux fuel n) = n := by
  intro fuel
  induction fuel with
  | zero => intro n h; omega
  | succ f ih =>
    intro n hn
    by_cases h10 : n < 10
    · simp only [natDecAux, if_pos h10]
      obtain ⟨hd, hv, hm, hp, hu, ha⟩ := digitChar_spec n h10
      refine ⟨?_, by simp, ?_⟩
      · intro c hc
        simp only [List.mem_singleton] at hc
        subst hc
        exact ⟨hd, ha, hm, hp⟩
      · simp only [digitsToNat, List.foldl_cons, List.foldl_nil]
        omega
    · simp only [natDecAux, if_neg h10]
      have hdiv : n / 10 < f := by
        have h1 : n / 10 < n := Nat.div_lt_self (by omega) (by norm_num)
        omega
      obtain ⟨ihc, ihne, ihv⟩ := ih (n / 10) hdiv
      obtain ⟨hd, hv, hm, hp, hu, ha⟩ := digitChar_spec (n % 10) (Nat.mod_lt n (by norm_num))
      refine ⟨?_, by simp, ?_⟩
      · intro c hc
        rcases List.mem_append.mp hc with h | h
        · exact ihc c h
        · simp only [List.mem_singleton] at h
          subst h
          exact ⟨hd, ha, hm, hp⟩
      · rw [digitsToNat_append, ihv, hv]
        omega

theorem natDecChars_spec (n : Nat) :
    (∀ c ∈ natDecChars n,
      c.isDigit = true ∧ allowedChar c = true ∧ c ≠ '-' ∧ c ≠ '+')
    ∧ natDecChars n ≠ []
    ∧ digitsToNat (natDecChars n) = n :=
  natDecAux_spec (n + 1) n (by omega)

theorem pyDigitsAux_digits :
    ∀ (ds : List Char) (acc : Nat), (∀ c ∈ ds, c.isDigit = true) →
      pyDigitsAux acc ds = some (ds.foldl (fun a c => a * 10 + (c.toNat - 48)) acc) := by
  intro ds
  induction ds with
  | nil => intro acc _; rfl
  | cons c cs ih =>
    intro acc h
    have hc := h c (List.mem_cons_self c cs)
    have hne : ¬(c = '_') := by
      intro he
      rw [he] at hc
      exact absurd hc (by decide)
    rw [pyDigitsAux.eq_def]
    simp only
    rw [if_neg hne, if_pos hc, List.foldl_cons]
    exact ih (acc * 10 + (c.toNat - 48)) (fun c' h' => h c' (List.mem_cons_of_mem _ h'))

theorem pyNat_digits (ds : List Char) (hne : ds ≠ [])
    (h : ∀ c ∈ ds, c.isDigit = true) : pyNat ds = some (digitsToNat ds) := by
  cases ds with
  | nil => exact absurd rfl hne
  | cons c cs =>
    rw [pyNat.eq_def]
    simp only
    rw [if_pos (h c (List.mem_cons_self c cs))]
    rw [pyDigitsAux_digits cs _ (fun c' h' => h c' (List.mem_cons_of_mem _ h'))]
    simp [digitsToNat]

theorem pyInt_intDec (v : Int) : pyIntOfChars (intDecChars v) = some v := by
  by_cases hv : v < 0
  · rw [show intDecChars v = '-' :: natDecChars (-v).toNat from if_pos hv]
    obtain ⟨hc, hne, hval⟩ := natDecChars_spec (-v).toNat
    rw [pyIntOfChars.eq_def]
    simp only
    rw [if_pos trivial]
    rw [pyNat_digits _ hne (fun c h => (hc c h).1), hval]
    simp only
    congr 1
    omega
  · rw [show intDecChars v = natDecChars v.toNat from if_neg hv]
    obtain ⟨hc, hne, hval⟩ := natDecChars_spec v.toNat
    cases hl : natDecChars v.toNat with
    | nil => exact absurd hl hne
    | cons c cs =>
      have hcprop := hc c (by rw [hl]; exact List.mem_cons_self c cs)
      rw [pyIntOfChars.eq_def]
      simp only
      rw [if_neg hcprop.2.2.1, if_neg hcprop.2.2.2]
      rw [← hl, pyNat_digits _ hne (fun c h => (hc c h).1), hval]
      simp only
      congr 1
      omega

/-! ## Lemmas: list splitting and scanning -/

theorem takeWhile_append_all {p : Char → Bool} :
    ∀ (xs ys : List Char), (∀ c ∈ xs, p c = true) →
      (∀ c, ys.head? = some c → p c = false) →
      (xs ++ ys).takeWhile p = xs ∧ (xs ++ ys).dropWhile p = ys := by
  intro xs
  induction xs with
  | nil =>
    intro ys _ hy
    cases ys with
    | nil => exact ⟨rfl, rfl⟩
    | cons c cs =>
      have := hy c rfl
      simp [List.takeWhile_cons, List.dropWhile_cons, this]
  | cons x xs ih =>
    intro ys hx hy
    have hpx := hx x (List.mem_cons_self x xs)
    obtain ⟨h1, h2⟩ := ih ys (fun c h => hx c (List.mem_cons_of_mem _ h)) hy
    simp [List.takeWhile_cons, List.dropWhile_cons, hpx, h1, h2]

theorem splitOnDot_ne (c : Char) (cs : List Char) (hc : ¬(c = '.')) :
    splitOnDot (c :: cs) =
      (match splitOnDot cs with
       | h :: t => (c :: h) :: t
       | [] => [[c]]) := by
  rw [splitOnDot.eq_def]
  simp only
  rw [if_neg hc]

theorem splitOnDot_no_dot : ∀ (l : List Char), '.' ∉ l → splitOnDot l = [l] := by
  intro l
  induction l with
  | nil => intro _; rfl
  | cons c cs ih =>
    intro h
    have hc : ¬(c = '.') := fun he => h (he ▸ List.mem_cons_self c cs)
    rw [splitOnDot_ne c cs hc, ih (fun hm => h (List.mem_cons_of_mem _ hm))]

theorem splitOnDot_piece :
    ∀ (piece rest : List Char), '.' ∉ piece →
      splitOnDot (piece ++ '.' :: rest) = piece :: splitOnDot rest := by
  intro piece
  induction piece with
  | nil =>
    intro rest _
    rw [List.nil_append, splitOnDot.eq_def]
    simp only
    rw [if_pos trivial]
  | cons c cs ih =>
    intro rest h
    have hc : ¬(c = '.') := fun he => h (he ▸ List.mem_cons_self c cs)
    rw [List.cons_append, splitOnDot_ne c _ hc,
      ih rest (fun hm => h (List.mem_cons_of_mem _ hm))]

theorem head?_append_cases (xs ys : List Char) (c : Char)
    (h : (xs ++ ys).head? = some c) :
    xs.head? = some c ∨ (xs = [] ∧ ys.head? = some c) := by
  cases xs with
  | nil => exact Or.inr ⟨rfl, h⟩
  | cons a as => exact Or.inl (by simpa using h)

theorem takeGroup_skip (lead : Char) (l : List Char)
    (h : ∀ c, l.head? = some c → ¬(c = lead)) :
    takeGroup lead l = some (none, l) := by
  cases l with
  | nil => rfl
  | cons c rest =>
    rw [takeGroup.eq_def]
    simp only
    rw [if_neg (h c rfl)]

theorem takeGroup_take (lead : Char) (content rest : List Char)
    (hne : content ≠ []) (hall : ∀ c ∈ content, allowedChar c = true)
    (hrest : ∀ c, rest.head? = some c → allowedChar c = false) :
    takeGroup lead (lead :: (content ++ rest)) = some (some content, rest) := by
  obtain ⟨ht, hd⟩ := takeWhile_append_all content rest hall hrest
  rw [takeGroup.eq_def]
  simp only [ht, hd, if_true]
  rw [if_neg (by simpa [List.isEmpty_iff] using hne)]

theorem takeNumGroup_skip (lead : Char) (l : List Char)
    (h : ∀ c, l.head? = some c → ¬(c = lead)) :
    takeNumGroup lead l = some (none, l) := by
  cases l with
  | nil => rfl
  | cons c rest =>
    rw [takeNumGroup.eq_def]
    simp only
    rw [if_neg (h c rfl)]

theorem takeNumGroup_take (lead : Char) (v : Int) (rest : List Char)
    (hrest : ∀ c, rest.head? = some c → c.isDigit = false) :
    takeNumGroup lead (lead :: (intDecChars v ++ rest)) = some (some v, rest) := by
  by_cases hv : v < 0
  · rw [show intDecChars v = '-' :: natDecChars (-v).toNat from if_pos hv]
    obtain ⟨hc, hne, hval⟩ := natDecChars_spec (-v).toNat
    obtain ⟨ht, hd⟩ := takeWhile_append_all (natDecChars (-v).toNat) rest
      (fun c h => (hc c h).1) hrest
    have hie : (natDecChars (-v).toNat).isEmpty = false := by
      simp [List.isEmpty_iff, hne]
    rw [takeNumGroup.eq_def]
    simp only [List.cons_append, if_true, ht, hd, hie, Bool.false_eq_true, if_false,
      hval]
    rw [Int.toNat_of_nonneg (by omega : (0 : Int) ≤ -v)]
    simp
  · rw [show intDecChars v = natDecChars v.toNat from if_neg hv]
    obtain ⟨hc, hne, hval⟩ := natDecChars_spec v.toNat
    obtain ⟨ht, hd⟩ := takeWhile_append_all (natDecChars v.toNat) rest
      (fun c h => (hc c h).1) hrest
    have hie : (natDecChars v.toNat).isEmpty = false := by
      simp [List.isEmpty_iff, hne]
    cases hl : natDecChars v.toNat with
    | nil => exact absurd hl hne
    | cons c0 cs0 =>
      have hc0 := hc c0 (by rw [hl]; exact List.mem_cons_self c0 cs0)
      rw [hl] at ht hd hval hie
      rw [takeNumGroup.eq_def]
      simp only [List.cons_append, if_true]
      rw [if_neg hc0.2.2.1]
      simp only [List.cons_append] at ht hd
      simp only [ht, hd, hie, Bool.false_eq_true, if_false, hval]
      rw [Int.toNat_of_nonneg (by omega : (0 : Int) ≤ v)]

theorem intDec_ne (v : Int) : intDecChars v ≠ [] := by
  unfold intDecChars
  split
  · simp
  · exact (natDecChars_spec v.toNat).2.1

theorem intDec_allowed (v : Int) : ∀ c ∈ intDecChars v, allowedChar c = true := by
  intro c hc
  unfold intDecChars at hc
  split at hc
  · rcases List.mem_cons.mp hc with h | h
    · subst h; rfl
    · exact ((natDecChars_spec (-v).toNat).1 c h).2.1
  · exact ((natDecChars_spec v.toNat).1 c hc).2.1

theorem string_data_ne (s : String) (h : s ≠ "") : s.data ≠ [] := by
  intro hd
  exact h (by rw [← string_mk_data s, hd])

theorem numPart_head (lead : Char) (o : Option Int) :
    ∀ c, (numPartChars lead o).head? = some c → c = lead := by
  intro c h
  cases o with
  | none => exact absurd h (by simp [numPartChars])
  | some n =>
    by_cases hn : n = 0
    · exact absurd h (by simp [numPartChars, hn])
    · rw [show numPartChars lead (some n) = lead :: intDecChars n from by
        simp [numPartChars, hn]] at h
      simp only [List.head?_cons, Option.some.injEq] at h
      exact h.symm

theorem valPart_head (v : Int) : ∀ c, (valPartChars v).head? = some c → c = ':' := by
  intro c h
  by_cases hv : v = 1
  · exact absurd h (by simp [valPartChars, hv])
  · rw [show valPartChars v = ':' :: intDecChars v from by simp [valPartChars, hv]] at h
    simp only [List.head?_cons, Option.some.injEq] at h
    exact h.symm

theorem optPart_head (o : Option String) :
    ∀ c, (optPartChars o).head? = some c → c = '+' := by
  intro c h
  cases o with
  | none => exact absurd h (by simp [optPartChars])
  | some s =>
    by_cases hs : s = ""
    · exact absurd h (by simp [optPartChars, hs])
    · rw [show optPartChars (some s) = '+' :: (replaceChar ' ' '_' s).data from by
        simp [optPartChars, hs]] at h
      simp only [List.head?_cons, Option.some.injEq] at h
      exact h.symm

theorem slotPart_head (sl : Option SlotVal) :
    ∀ c, (slotPartChars sl).head? = some c → c = '@' := by
  intro c h
  cases sl with
  | none => exact absurd h (by simp [slotPartChars])
  | some sv =>
    by_cases ht : slotTruthy (some sv)
    · rw [show slotPartChars (some sv) = '@' :: slotChars sv from by
        simp [slotPartChars, ht]] at h
      simp only [List.head?_cons, Option.some.injEq] at h
      exact h.symm
    · exact absurd h (by simp [slotPartChars, ht])

theorem tail4_head (sg lt : Option Int) :
    ∀ c, (numPartChars '$' sg ++ numPartChars '<' lt).head? = some c →
      c = '$' ∨ c = '<' := by
  intro c h
  rcases head?_append_cases _ _ _ h with h | ⟨_, h⟩
  · exact Or.inl (numPart_head _ _ _ h)
  · exact Or.inr (numPart_head _ _ _ h)

theorem tail3_head (v : Int) (sg lt : Option Int) :
    ∀ c, (valPartChars v ++ (numPartChars '$' sg ++ numPartChars '<' lt)).head?
        = some c → c = ':' ∨ c = '$' ∨ c = '<' := by
  intro c h
  rcases head?_append_cases _ _ _ h with h | ⟨_, h⟩
  · exact Or.inl (valPart_head _ _ h)
  · exact Or.inr (tail4_head _ _ _ h)

theorem tail2_head (o : Option String) (v : Int) (sg lt : Option Int) :
    ∀ c, (optPartChars o ++ (valPartChars v ++ (numPartChars '$' sg
        ++ numPartChars '<' lt))).head? = some c →
      c = '+' ∨ c = ':' ∨ c = '$' ∨ c = '<' := by
  intro c h
  rcases head?_append_cases _ _ _ h with h | ⟨_, h⟩
  · exact Or.inl (optPart_head _ _ h)
  · exact Or.inr (tail3_head _ _ _ _ h)

theorem tail1_head (sl : Option SlotVal) (o : Option String) (v : Int)
    (sg lt : Option Int) :
    ∀ c, (slotPartChars sl ++ (optPartChars o ++ (valPartChars v
        ++ (numPartChars '$' sg ++ numPartChars '<' lt)))).head? = some c →
      c = '@' ∨ c = '+' ∨ c = ':' ∨ c = '$' ∨ c = '<' := by
  intro c h
  rcases head?_append_cases _ _ _ h with h | ⟨_, h⟩
  · exact Or.inl (slotPart_head _ _ h)
  · exact Or.inr (tail2_head _ _ _ _ _ h)

/-- The regex full match recovers every component from the canonical
rendering of a well-formed expression. -/
theorem reqFullmatch_core (e : PropExpr) (hWF : PropExprWF e) :
    reqFullmatch (corePartChars e) = some
      { prop := e.prop.data
        attrRaw := none
        slotRaw := (match e.slot with
                    | none => none
                    | some (SlotVal.int n) => some (intDecChars n)
                    | some (SlotVal.str s) => some s.data)
        optionRaw := e.option.map (fun o => (replaceChar ' ' '_' o).data)
        valueNum := if e.value = 1 then none else some e.value
        singleNum := e.single
        lessNum := e.lessThan } := by
  obtain ⟨hpne, hpall, hattr, hpre, hslot, hopt, hsg, hlt⟩ := hWF
  -- head-failure facts for each stage's remaining input
  have hT5fail : ∀ c, (numPartChars '<' e.lessThan).head? = some c →
      c.isDigit = false ∧ ¬(c = '$') ∧ allowedChar c = false := by
    intro c h
    rw [numPart_head _ _ _ h]
    exact ⟨rfl, by decide, rfl⟩
  have hT4fail : ∀ c, (numPartChars '$' e.single ++ numPartChars '<' e.lessThan).head?
      = some c → c.isDigit = false ∧ ¬(c = ':') ∧ allowedChar c = false := by
    intro c h
    rcases tail4_head _ _ _ h with h | h <;> rw [h]
    · exact ⟨rfl, by decide, rfl⟩
    · exact ⟨rfl, by decide, rfl⟩
  have hT3fail : ∀ c, (valPartChars e.value ++ (numPartChars '$' e.single
      ++ numPartChars '<' e.lessThan)).head? = some c →
      ¬(c = '+') ∧ allowedChar c = false := by
    intro c h
    rcases tail3_head _ _ _ _ h with h | h | h <;> rw [h]
    · exact ⟨by decide, rfl⟩
    · exact ⟨by decide, rfl⟩
    · exact ⟨by decide, rfl⟩
  have hT2fail : ∀ c, (optPartChars e.option ++ (valPartChars e.value
      ++ (numPartChars '$' e.single ++ numPartChars '<' e.lessThan))).head? = some c →
      ¬(c = '@') ∧ allowedChar c = false := by
    intro c h
    rcases tail2_head _ _ _ _ _ h with h | h | h | h <;> rw [h]
    · exact ⟨by decide, rfl⟩
    · exact ⟨by decide, rfl⟩
    · exact ⟨by decide, rfl⟩
    · exact ⟨by decide, rfl⟩
  have hT1fail : ∀ c, (slotPartChars e.slot ++ (optPartChars e.option
      ++ (valPartChars e.value ++ (numPartChars '$' e.single
      ++ numPartChars '<' e.lessThan)))).head? = some c →
      ¬(c = '.') ∧ allowedChar c = false := by
    intro c h
    rcases tail1_head _ _ _ _ _ _ h with h | h | h | h | h <;> rw [h]
    · exact ⟨by decide, rfl⟩
    · exact ⟨by decide, rfl⟩
    · exact ⟨by decide, rfl⟩
    · exact ⟨by decide, rfl⟩
    · exact ⟨by decide, rfl⟩
  -- stage 0: the property name
  obtain ⟨hTake, hDrop⟩ := takeWhile_append_all e.prop.data _ hpall
    (fun c h => (hT1fail c h).2)
  have hPropNe : (e.prop.data).isEmpty = false := by
    simp [List.isEmpty_iff, string_data_ne e.prop hpne]
  -- stage 1: no attribute group
  have hAttr : takeGroup '.' (slotPartChars e.slot ++ (optPartChars e.option
      ++ (valPartChars e.value ++ (numPartChars '$' e.single
      ++ numPartChars '<' e.lessThan))))
      = some (none, slotPartChars e.slot ++ (optPartChars e.option
        ++ (valPartChars e.value ++ (numPartChars '$' e.single
        ++ numPartChars '<' e.lessThan)))) :=
    takeGroup_skip _ _ (fun c h => (hT1fail c h).1)
  -- stage 2: the slot group
  have hSlot : takeGroup '@' (slotPartChars e.slot ++ (optPartChars e.option
      ++ (valPartChars e.value ++ (numPartChars '$' e.single
      ++ numPartChars '<' e.lessThan))))
      = some ((match e.slot with
               | none => none
               | some (SlotVal.int n) => some (intDecChars n)
               | some (SlotVal.str s) => some s.data),
          optPartChars e.option ++ (valPartChars e.value
            ++ (numPartChars '$' e.single ++ numPartChars '<' e.lessThan))) := by
    cases hsl : e.slot with
    | none =>
      rw [show slotPartChars none = [] from rfl, List.nil_append]
      exact takeGroup_skip _ _ (fun c h => (hT2fail c h).1)
    | some sv =>
      cases sv with
      | int n =>
        rw [hsl] at hslot
        simp only [slotWF] at hslot
        rw [show slotPartChars (some (SlotVal.int n)) = '@' :: intDecChars n from by
          simp [slotPartChars, slotTruthy, slotChars, hslot]]
        rw [List.cons_append]
        exact takeGroup_take '@' _ _ (intDec_ne n) (intDec_allowed n)
          (fun c h => (hT2fail c h).2)
      | str s =>
        rw [hsl] at hslot
        simp only [slotWF] at hslot
        rw [show slotPartChars (some (SlotVal.str s)) = '@' :: s.data from by
          simp [slotPartChars, slotTruthy, slotChars, hslot.1]]
        rw [List.cons_append]
        exact takeGroup_take '@' _ _ (string_data_ne s hslot.1) hslot.2.1
          (fun c h => (hT2fail c h).2)
  -- stage 3: the option group
  have hOpt : takeGroup '+' (optPartChars e.option ++ (valPartChars e.value
      ++ (numPartChars '$' e.single ++ numPartChars '<' e.lessThan)))
      = some (e.option.map (fun o => (replaceChar ' ' '_' o).data),
          valPartChars e.value ++ (numPartChars '$' e.single
            ++ numPartChars '<' e.lessThan)) := by
    cases ho : e.option with
    | none =>
      rw [show optPartChars none = [] from rfl, List.nil_append]
      exact takeGroup_skip _ _ (fun c h => (hT3fail c h).1)
    | some o =>
      rw [ho] at hopt
      simp only [optionWF] at hopt
      rw [show optPartChars (some o) = '+' :: (replaceChar ' ' '_' o).data from by
        simp [optPartChars, hopt.1]]
      rw [List.cons_append]
      refine takeGroup_take '+' _ _ ?_ ?_ (fun c h => (hT3fail c h).2)
      · intro hnil
        have h2 : o.data.map (fun c => if c = ' ' then '_' else c) = [] := hnil
        exact string_data_ne o hopt.1 (List.map_eq_nil_iff.mp h2)
      · intro c hc
        have hc2 : c ∈ o.data.map (fun c => if c = ' ' then '_' else c) := hc
        obtain ⟨c0, hc0, hmap⟩ := List.mem_map.mp hc2
        rcases hopt.2.2 c0 hc0 with h | h
        · rw [← hmap, h]
          rfl
        · rw [← hmap]
          by_cases hsp : c0 = ' '
          · rw [hsp]; rfl
          · simpa [hsp] using h
  -- stage 4: the value group
  have hVal : takeNumGroup ':' (valPartChars e.value ++ (numPartChars '$' e.single
      ++ numPartChars '<' e.lessThan))
      = some ((if e.value = 1 then none else some e.value),
          numPartChars '$' e.single ++ numPartChars '<' e.lessThan) := by
    by_cases hv : e.value = 1
    · rw [show valPartChars e.value = [] from by simp [valPartChars, hv],
        List.nil_append, if_pos hv]
      exact takeNumGroup_skip _ _ (fun c h => (hT4fail c h).2.1)
    · rw [show valPartChars e.value = ':' :: intDecChars e.value from by
        simp [valPartChars, hv], List.cons_append, if_neg hv]
      exact takeNumGroup_take ':' _ _ (fun c h => (hT4fail c h).1)
  -- stage 5: the single group
  have hSg : takeNumGroup '$' (numPartChars '$' e.single
      ++ numPartChars '<' e.lessThan)
      = some (e.single, numPartChars '<' e.lessThan) := by
    cases hs : e.single with
    | none =>
      rw [show numPartChars '$' none = [] from rfl, List.nil_append]
      exact takeNumGroup_skip _ _ (fun c h => (hT5fail c h).2.1)
    | some n =>
      rw [hs] at hsg
      simp only [numWF] at hsg
      rw [show numPartChars '$' (some n) = '$' :: intDecChars n from by
        simp [numPartChars, hsg]]
      rw [List.cons_append]
      exact takeNumGroup_take '$' _ _ (fun c h => (hT5fail c h).1)
  -- stage 6: the less-than group
  have hLt : takeNumGroup '<' (numPartChars '<' e.lessThan)
      = some (e.lessThan, []) := by
    cases hl : e.lessThan with
    | none => rfl
    | some n =>
      rw [hl] at hlt
      simp only [numWF] at hlt
      rw [show numPartChars '<' (some n) = '<' :: intDecChars n from by
        simp [numPartChars, hlt]]
      rw [show ('<' :: intDecChars n : List Char) = '<' :: (intDecChars n ++ []) from by
        simp]
      exact takeNumGroup_take '<' _ _ (fun c h => by simp at h)
  -- assemble
  unfold reqFullmatch corePartChars
  rw [hTake, hDrop]
  simp only [hPropNe, Bool.false_eq_true, if_false, hAttr, hSlot, hOpt, hVal, hSg, hLt,
    Option.bind_eq_bind, Option.some_bind, List.isEmpty_nil, if_true]

theorem joinDots_data (core : String) :
    ∀ (pres : List String), pres ≠ [] →
      (joinDots pres ++ "." ++ core).data
        = pres.foldr (fun p acc => p.data ++ '.' :: acc) core.data := by
  intro pres
  induction pres with
  | nil => intro h; exact absurd rfl h
  | cons p rest ih =>
    intro _
    cases rest with
    | nil => simp [joinDots, String.data_append]
    | cons q rest' =>
      rw [show joinDots (p :: q :: rest') = p ++ "." ++ joinDots (q :: rest') from rfl]
      rw [List.foldr_cons, ← ih (by simp)]
      simp [String.data_append]

theorem data_step_slot (req : String) (sl : Option SlotVal) :
    (unparseSlot req sl).data = req.data ++ slotPartChars sl := by
  rcases sl with _ | sv
  · simp [unparseSlot, slotTruthy, slotPartChars]
  · by_cases h : slotTruthy (some sv)
    · simp only [unparseSlot, h, if_true, slotPartChars, String.data_append]
      simp
    · simp [unparseSlot, h, slotPartChars]

theorem data_step_opt (req : String) (o : Option String) :
    (unparseOpt req o).data = req.data ++ optPartChars o := by
  rcases o with _ | oo
  · simp [unparseOpt, optPartChars]
  · by_cases h : oo = ""
    · simp [unparseOpt, h, optPartChars]
    · simp only [unparseOpt, h, ne_eq, not_false_iff, if_true, String.data_append,
        optPartChars, if_neg h]
      simp

theorem data_step_val (req : String) (v : Int) :
    (unparseVal req v).data = req.data ++ valPartChars v := by
  by_cases h : v = 1
  · simp [unparseVal, h, valPartChars]
  · simp only [unparseVal, h, ne_eq, not_false_iff, if_true, String.data_append,
      valPartChars, if_neg h]
    simp

theorem data_step_num (req : String) (leadS : String) (leadC : Char)
    (hl : leadS.data = [leadC]) (o : Option Int) :
    (unparseNum req leadS o).data = req.data ++ numPartChars leadC o := by
  rcases o with _ | n
  · simp [unparseNum, numPartChars]
  · by_cases h : n = 0
    · simp [unparseNum, h, numPartChars]
    · simp only [unparseNum, h, ne_eq, not_false_iff, if_true, String.data_append,
        numPartChars, if_neg h, hl]
      simp

theorem unparse_data (prop : String) (sl : Option SlotVal) (o : Option String)
    (v : Int) (sg lt : Option Int) (pres : List String) (hp : prop ≠ "") :
    (PropExpr.unparse prop sl o v sg lt pres).data
      = pres.foldr (fun p acc => p.data ++ '.' :: acc)
          (prop.data ++ (slotPartChars sl ++ (optPartChars o
            ++ (valPartChars v ++ (numPartChars '$' sg ++ numPartChars '<' lt))))) := by
  have hfold : ∀ (X Y : List Char),
      (pres.foldr (fun p acc => p.data ++ '.' :: acc) X) ++ Y
        = pres.foldr (fun p acc => p.data ++ '.' :: acc) (X ++ Y) := by
    intro X Y
    induction pres with
    | nil => rfl
    | cons p rest ih => simp [List.foldr_cons, List.append_assoc, ih]
  have hpre : (if pres.isEmpty then prop else joinDots pres ++ "." ++ prop).data
      = pres.foldr (fun p acc => p.data ++ '.' :: acc) prop.data := by
    cases pres with
    | nil => simp
    | cons p rest =>
      rw [if_neg (by simp)]
      exact joinDots_data prop (p :: rest) (by simp)
  simp only [PropExpr.unparse, if_neg hp]
  rw [data_step_num _ "<" '<' rfl lt]
  rw [data_step_num _ "$" '$' rfl sg]
  rw [data_step_val]
  rw [data_step_opt]
  rw [data_step_slot]
  rw [hpre]
  rw [hfold, hfold, hfold, hfold, hfold]
  simp only [List.append_assoc]

theorem slotPart_mem (sl : Option SlotVal) (h : slotWF sl) :
    ∀ c ∈ slotPartChars sl, allowedChar c = true ∨ c = '@' := by
  intro c hc
  cases sl with
  | none => exact absurd hc (List.not_mem_nil c)
  | some sv =>
    cases sv with
    | int n =>
      simp only [slotPartChars] at hc
      split at hc
      · rcases List.mem_cons.mp hc with h1 | h1
        · exact Or.inr h1
        · exact Or.inl (intDec_allowed n c h1)
      · exact absurd hc (List.not_mem_nil c)
    | str s =>
      simp only [slotWF] at h
      simp only [slotPartChars] at hc
      split at hc
      · rcases List.mem_cons.mp hc with h1 | h1
        · exact Or.inr h1
        · exact Or.inl (h.2.1 c h1)
      · exact absurd hc (List.not_mem_nil c)

theorem optPart_mem (o : Option String) (h : optionWF o) :
    ∀ c ∈ optPartChars o, allowedChar c = true ∨ c = '+' := by
  intro c hc
  cases o with
  | none => exact absurd hc (List.not_mem_nil c)
  | some s =>
    simp only [optionWF] at h
    simp only [optPartChars] at hc
    rw [if_neg h.1] at hc
    rcases List.mem_cons.mp hc with h1 | h1
    · exact Or.inr h1
    · have h2 : c ∈ s.data.map (fun c => if c = ' ' then '_' else c) := h1
      obtain ⟨c0, hc0, hmap⟩ := List.mem_map.mp h2
      rcases h.2.2 c0 hc0 with hsp | hall
      · left
        rw [← hmap, hsp]
        decide
      · left
        by_cases hs : c0 = ' '
        · rw [← hmap, if_pos hs]
          decide
        · rw [← hmap, if_neg hs]
          exact hall

theorem valPart_mem (v : Int) : ∀ c ∈ valPartChars v, allowedChar c = true ∨ c = ':' := by
  intro c hc
  simp only [valPartChars] at hc
  split at hc
  · exact absurd hc (List.not_mem_nil c)
  · rcases List.mem_cons.mp hc with h1 | h1
    · exact Or.inr h1
    · exact Or.inl (intDec_allowed v c h1)

theorem numPart_mem (lead : Char) (o : Option Int) :
    ∀ c ∈ numPartChars lead o, allowedChar c = true ∨ c = lead := by
  intro c hc
  cases o with
  | none => exact absurd hc (List.not_mem_nil c)
  | some n =>
    simp only [numPartChars] at hc
    split at hc
    · exact absurd hc (List.not_mem_nil c)
    · rcases List.mem_cons.mp hc with h1 | h1
      · exact Or.inr h1
      · exact Or.inl (intDec_allowed n c h1)

/-- The expression component of the canonical rendering contains no dot, so
the `split('.')` in `parse` keeps it in one piece. -/
theorem corePart_no_dot (e : PropExpr) (hWF : PropExprWF e) : '.' ∉ corePartChars e := by
  obtain ⟨hpne, hpall, hattr, hpres, hslot, hopt, hsg, hlt⟩ := hWF
  intro hc
  simp only [corePartChars, List.mem_append] at hc
  rcases hc with hc | hc | hc | hc | hc | hc
  · exact absurd (hpall '.' hc) (by decide)
  · rcases slotPart_mem e.slot hslot '.' hc with h | h
    · exact absurd h (by decide)
    · exact absurd h (by decide)
  · rcases optPart_mem e.option hopt '.' hc with h | h
    · exact absurd h (by decide)
    · exact absurd h (by decide)
  · rcases valPart_mem e.value '.' hc with h | h
    · exact absurd h (by decide)
    · exact absurd h (by decide)
  · rcases numPart_mem '$' e.single '.' hc with h | h
    · exact absurd h (by decide)
    · exact absurd h (by decide)
  · rcases numPart_mem '<' e.lessThan '.' hc with h | h
    · exact absurd h (by decide)
    · exact absurd h (by decide)

/-- `split('.')` of the canonical rendering: one piece per prefix, then the
expression component. -/
theorem splitOnDot_foldr (core : List Char) (hcore : '.' ∉ core) :
    ∀ (pres : List String), (∀ p ∈ pres, '.' ∉ p.data) →
      splitOnDot (pres.foldr (fun p acc => p.data ++ '.' :: acc) core)
        = pres.map (fun p => p.data) ++ [core] := by
  intro pres
  induction pres with
  | nil =>
    intro _
    simp [splitOnDot_no_dot core hcore]
  | cons p rest ih =>
    intro h
    rw [List.foldr_cons, splitOnDot_piece _ _ (h p (List.mem_cons_self p rest)),
      ih (fun q hq => h q (List.mem_cons_of_mem _ hq))]
    rfl

/-- Undoing the space-to-underscore rewrite of `unparse` restores an option
with no underscore of its own. -/
theorem replace_roundtrip (o : String) (h : '_' ∉ o.data) :
    replaceChar '_' ' ' (replaceChar ' ' '_' o) = o := by
  have aux : ∀ (l : List Char), '_' ∉ l →
      (l.map (fun c => if c = ' ' then '_' else c)).map
          (fun c => if c = '_' then ' ' else c) = l := by
    intro l hl
    induction l with
    | nil => rfl
    | cons c cs ih =>
      simp only [List.map_cons]
      rw [ih (fun hm => hl (List.mem_cons_of_mem _ hm))]
      congr 1
      by_cases hs : c = ' '
      · rw [if_pos hs, if_pos rfl, hs]
      · rw [if_neg hs, if_neg (fun he => hl (by rw [← he]; exact List.mem_cons_self c cs))]
  show String.mk ((o.data.map _).map _) = o
  rw [aux o.data h, string_mk_data]

theorem map_mk_data (l : List String) : (l.map (fun p => p.data)).map String.mk = l := by
  induction l with
  | nil => rfl
  | cons p rest ih => simp only [List.map_cons, ih, string_mk_data]

/-- C5 (amended round-trip): `parse` is a left inverse of the canonical
rendering — for every well-formed `PropExpression`, parsing its `repr`
recovers the expression exactly.  (The string-level direction of the claim,
`repr(parse(s)) = s` for every grammar match, fails: see the
counterexample.) -/
theorem parse_unparse_roundtrip (e : PropExpr) (hWF : PropExprWF e) :
    PropExpr.parse (PropExpr.repr e) = some e := by
  obtain ⟨hpne, hpall, hattr, hpres, hslot, hopt, hsg, hlt⟩ := hWF
  have hWF2 : PropExprWF e := ⟨hpne, hpall, hattr, hpres, hslot, hopt, hsg, hlt⟩
  have hdata : (PropExpr.repr e).data
      = e.prefixes.foldr (fun p acc => p.data ++ '.' :: acc) (corePartChars e) :=
    unparse_data e.prop e.slot e.option e.value e.single e.lessThan e.prefixes hpne
  have hsplit : splitOnDot (PropExpr.repr e).data
      = e.prefixes.map (fun p => p.data) ++ [corePartChars e] := by
    rw [hdata]
    exact splitOnDot_foldr (corePartChars e) (corePart_no_dot e hWF2) e.prefixes hpres
  have hslotF : Option.map (fun raw =>
        match pyIntOfChars raw with
        | some n => SlotVal.int n
        | none => SlotVal.str (String.mk raw))
      (match e.slot with
       | none => none
       | some (SlotVal.int n) => some (intDecChars n)
       | some (SlotVal.str s) => some s.data) = e.slot := by
    cases hsl : e.slot with
    | none => rfl
    | some sv =>
      cases sv with
      | int n => simp [pyInt_intDec n]
      | str s =>
        rw [hsl] at hslot
        simp only [slotWF] at hslot
        simp [hslot.2.2, string_mk_data]
  have hoptF : Option.map (fun o => replaceChar '_' ' ' (String.mk o))
      (Option.map (fun o => (replaceChar ' ' '_' o).data) e.option) = e.option := by
    cases ho : e.option with
    | none => rfl
    | some o =>
      rw [ho] at hopt
      simp only [optionWF] at hopt
      simp only [Option.map_some']
      rw [string_mk_data, replace_roundtrip o hopt.2.1]
  have hvalF : ∀ (z : Int), Option.getD (if z = 1 then none else some z) 1 = z := by
    intro z
    by_cases hz : z = 1 <;> simp [hz]
  simp only [PropExpr.parse]
  rw [hsplit, List.getLast?_concat, List.dropLast_concat]
  simp only [reqFullmatch_core e hWF2, Option.map_none', string_mk_data, hslotF, hoptF,
    hvalF, map_mk_data]
  rw [← hattr]

/-- Witness for `parse_unparse_roundtrip`: a concrete well-formed expression
with every suffix populated round-trips through `parse ∘ repr`. -/
theorem parse_unparse_roundtrip_witness :
    PropExprWF { prop := "x", slot := some (SlotVal.int 5), option := some "My Option", value := 2, single := some 3, lessThan := some 4, prefixes := ["a", "b"] }
    ∧ PropExpr.parse (PropExpr.repr { prop := "x", slot := some (SlotVal.int 5), option := some "My Option", value := 2, single := some 3, lessThan := some 4, prefixes := ["a", "b"] })
      = some { prop := "x", slot := some (SlotVal.int 5), option := some "My Option", value := 2, single := some 3, lessThan := some 4, prefixes := ["a", "b"] } := by
  have hwf : PropExprWF { prop := "x", slot := some (SlotVal.int 5), option := some "My Option", value := 2, single := some 3, lessThan := some 4, prefixes := ["a", "b"] } := by
    refine ⟨by decide, ?_, rfl, ?_, ?_, ?_, ?_, ?_⟩
    · show ∀ c ∈ ("x" : String).data, allowedChar c = true
      decide
    · show ∀ p ∈ ["a", "b"], '.' ∉ String.data p
      decide
    · show (5 : Int) ≠ 0
      decide
    · show "My Option" ≠ "" ∧ '_' ∉ "My Option".data
        ∧ ∀ c ∈ "My Option".data, c = ' ' ∨ allowedChar c = true
      decide
    · show (3 : Int) ≠ 0
      decide
    · show (4 : Int) ≠ 0
      decide
  exact ⟨hwf, parse_unparse_roundtrip _ hwf⟩

/-- C5 (counterexample): the string-level round trip fails — `"x:1"` matches
the requirement grammar and parses, but renders back as `"x"` (the value 1
is the default and `unparse` drops it), not as `"x:1"`. -/
theorem string_roundtrip_counterexample :
    (PropExpr.parse "x:1").map PropExpr.repr = some "x" ∧ ("x" : String) ≠ "x:1" := by
  constructor
  · rfl
  · decide

/-- Witness for `paid_ranks_cases`: 3 purchased, 4 granted, cap 5 — only
1 rank is still paid for. -/
theorem paid_ranks_cases_witness :
    (0 : Int) ≤ 3
    ∧ paidRanks 3 4 5 = 5 - 4
    ∧ 0 ≤ paidRanks 3 4 5 ∧ paidRanks 3 4 5 ≤ 3 := by
  refine ⟨by norm_num, ?_, ?_, ?_⟩
  · exact (paid_ranks_cases 3 4 5 (by norm_num)).2.1 (by norm_num) (by norm_num)
  · exact (paid_ranks_cases 3 4 5 (by norm_num)).2.2.2.1
  · exact (paid_ranks_cases 3 4 5 (by norm_num)).2.2.2.2

/-! ## Lemmas: association lists and Python dicts -/

theorem lookupAssoc_mem {α : Type} (k : String) (v : α) :
    ∀ (l : List (String × α)), lookupAssoc k l = some v → (k, v) ∈ l := by
  intro l
  induction l with
  | nil => intro h; exact absurd h (by simp [lookupAssoc])
  | cons kv rest ih =>
    intro h
    rw [show lookupAssoc k (kv :: rest)
        = (if kv.1 = k then some kv.2 else lookupAssoc k rest) from rfl] at h
    by_cases hk : kv.1 = k
    · rw [if_pos hk] at h
      injection h with h
      rw [← hk, ← h]
      exact List.mem_cons_self kv rest
    · rw [if_neg hk] at h
      exact List.mem_cons_of_mem _ (ih h)

theorem isSome_of_mem {α : Type} (k : String) (v : α) :
    ∀ (l : List (String × α)), (k, v) ∈ l → (lookupAssoc k l).isSome = true := by
  intro l
  induction l with
  | nil => intro h; exact absurd h (List.not_mem_nil _)
  | cons kv rest ih =>
    intro h
    rw [show lookupAssoc k (kv :: rest)
        = (if kv.1 = k then some kv.2 else lookupAssoc k rest) from rfl]
    by_cases hk : kv.1 = k
    · rw [if_pos hk]; rfl
    · rw [if_neg hk]
      rcases List.mem_cons.mp h with h1 | h1
      · exact absurd (congrArg Prod.fst h1.symm) hk
      · exact ih h1

theorem lookup_of_mem_nodup {α : Type} (k : String) (v : α) :
    ∀ (l : List (String × α)), (List.map Prod.fst l).Nodup → (k, v) ∈ l →
      lookupAssoc k l = some v := by
  intro l
  induction l with
  | nil => intro _ h; exact absurd h (List.not_mem_nil _)
  | cons kv rest ih =>
    intro hnd h
    rw [List.map_cons, List.nodup_cons] at hnd
    rw [show lookupAssoc k (kv :: rest)
        = (if kv.1 = k then some kv.2 else lookupAssoc k rest) from rfl]
    rcases List.mem_cons.mp h with h1 | h1
    · rw [if_pos (congrArg Prod.fst h1.symm)]
      rw [← h1]
    · rw [if_neg ?_]
      · exact ih hnd.2 h1
      · intro he
        exact hnd.1 (he ▸ List.mem_map.mpr ⟨(k, v), h1, rfl⟩)

theorem dictInsert_keys (k : String) (v : Int) :
    ∀ (l : List (String × Int)),
      List.map Prod.fst (dictInsert l k v)
        = if k ∈ List.map Prod.fst l then List.map Prod.fst l
          else List.map Prod.fst l ++ [k] := by
  intro l
  induction l with
  | nil => rfl
  | cons kv rest ih =>
    rw [show dictInsert (kv :: rest) k v
        = (if kv.1 = k then (kv.1, v) :: rest else kv :: dictInsert rest k v) from by
      cases kv; rfl]
    by_cases hk : kv.1 = k
    · rw [if_pos hk, List.map_cons, List.map_cons,
        if_pos (by rw [hk]; exact List.mem_cons_self _ _)]
    · rw [if_neg hk, List.map_cons, List.map_cons, ih]
      by_cases hmem : k ∈ List.map Prod.fst rest
      · rw [if_pos hmem, if_pos (List.mem_cons_of_mem _ hmem)]
      · rw [if_neg hmem, if_neg ?_, List.cons_append]
        intro hc
        rcases List.mem_cons.mp hc with h1 | h1
        · exact hk h1.symm
        · exact hmem h1

theorem dictInsert_nodup (k : String) (v : Int) (l : List (String × Int))
    (h : (List.map Prod.fst l).Nodup) :
    (List.map Prod.fst (dictInsert l k v)).Nodup := by
  rw [dictInsert_keys]
  by_cases hmem : k ∈ List.map Prod.fst l
  · rw [if_pos hmem]; exact h
  · rw [if_neg hmem]
    simp only [List.nodup_append, List.nodup_cons]
    exact ⟨h, by simp, by simpa [List.disjoint_singleton] using hmem⟩

theorem dictInsert_vals (k : String) (v : Int) (hv : 0 ≤ v) :
    ∀ (l : List (String × Int)), (∀ kv ∈ l, 0 ≤ kv.2) →
      ∀ kv ∈ dictInsert l k v, 0 ≤ kv.2 := by
  intro l
  induction l with
  | nil =>
    intro _ kv h
    rcases List.mem_cons.mp h with h1 | h1
    · rw [h1]; exact hv
    · exact absurd h1 (List.not_mem_nil _)
  | cons kv0 rest ih =>
    intro hall kv h
    rw [show dictInsert (kv0 :: rest) k v
        = (if kv0.1 = k then (kv0.1, v) :: rest else kv0 :: dictInsert rest k v) from by
      cases kv0; rfl] at h
    by_cases hk : kv0.1 = k
    · rw [if_pos hk] at h
      rcases List.mem_cons.mp h with h1 | h1
      · rw [h1]; exact hv
      · exact hall kv (List.mem_cons_of_mem _ h1)
    · rw [if_neg hk] at h
      rcases List.mem_cons.mp h with h1 | h1
      · rw [h1]; exact hall kv0 (List.mem_cons_self _ _)
      · exact ih (fun x hx => hall x (List.mem_cons_of_mem _ hx)) kv h1

theorem dictOf_nodup_aux :
    ∀ (l acc : List (String × Int)), (List.map Prod.fst acc).Nodup →
      (List.map Prod.fst
        (l.foldl (fun a kv => dictInsert a kv.1 kv.2) acc)).Nodup := by
  intro l
  induction l with
  | nil => intro acc h; exact h
  | cons kv rest ih =>
    intro acc h
    exact ih _ (dictInsert_nodup kv.1 kv.2 acc h)

theorem dictOf_nodup (l : List (String × Int)) :
    (List.map Prod.fst (dictOf l)).Nodup :=
  dictOf_nodup_aux l [] (by simp)

theorem dictOf_vals_aux :
    ∀ (l acc : List (String × Int)), (∀ kv ∈ l, 0 ≤ kv.2) → (∀ kv ∈ acc, 0 ≤ kv.2) →
      ∀ kv ∈ l.foldl (fun a kv => dictInsert a kv.1 kv.2) acc, 0 ≤ kv.2 := by
  intro l
  induction l with
  | nil => intro acc _ hacc; exact hacc
  | cons kv0 rest ih =>
    intro acc hall hacc
    exact ih _ (fun x hx => hall x (List.mem_cons_of_mem _ hx))
      (dictInsert_vals kv0.1 kv0.2 (hall kv0 (List.mem_cons_self _ _)) acc hacc)

theorem dictOf_vals (l : List (String × Int)) (h : ∀ kv ∈ l, 0 ≤ kv.2) :
    ∀ kv ∈ dictOf l, 0 ≤ kv.2 :=
  dictOf_vals_aux l [] h (fun _ hx => absurd hx (List.not_mem_nil _))

theorem lookupZ_nonneg (k : String) (l : List (String × Int))
    (h : ∀ kv ∈ l, 0 ≤ kv.2) : 0 ≤ lookupZ k l := by
  unfold lookupZ
  cases hl : lookupAssoc k l with
  | none => simp
  | some v =>
    simp only [Option.getD_some]
    exact h (k, v) (lookupAssoc_mem k v l hl)

theorem combinePData_keys (g d : List (String × Int)) :
    List.map Prod.fst (combinePData g d)
      = List.map Prod.fst g
        ++ (List.map Prod.fst d).filter
            (fun k => ¬ (List.map Prod.fst g).contains k) := by
  have hid : ∀ (l : List String),
      List.map (Prod.fst ∘ fun k =>
        (k, ({ grants := lookupZ k g, discount := lookupZ k d } : PData))) l = l := by
    intro l
    trans List.map id l
    · exact List.map_congr_left (fun a _ => rfl)
    · exact List.map_id l
  unfold combinePData
  rw [List.map_map, List.map_append, hid, hid]

theorem combinePData_nodup (g d : List (String × Int))
    (hg : (List.map Prod.fst g).Nodup) (hd : (List.map Prod.fst d).Nodup) :
    (List.map Prod.fst (combinePData g d)).Nodup := by
  rw [combinePData_keys]
  rw [List.nodup_append]
  refine ⟨hg, hd.filter _, ?_⟩
  intro k hk hk2
  have h2 := (List.mem_filter.mp hk2).2
  exact (of_decide_eq_true h2) (by simpa using hk)

theorem combinePData_vals (g d : List (String × Int))
    (hg : ∀ kv ∈ g, 0 ≤ kv.2) (hd : ∀ kv ∈ d, 0 ≤ kv.2) :
    ∀ kp ∈ combinePData g d, 0 ≤ kp.2.grants ∧ 0 ≤ kp.2.discount := by
  intro kp h
  unfold combinePData at h
  obtain ⟨k, _, hform⟩ := List.mem_map.mp h
  rw [← hform]
  exact ⟨lookupZ_nonneg k g hg, lookupZ_nonneg k d hd⟩

theorem activationProps_nodup (dfn : FeatureDefn) :
    (List.map Prod.fst (activationProps dfn)).Nodup :=
  combinePData_nodup _ _ (dictOf_nodup _) (dictOf_nodup _)

theorem activationProps_vals (dfn : FeatureDefn)
    (hg : ∀ kv ∈ declGrants dfn.grants, 0 ≤ kv.2)
    (hd : ∀ kv ∈ dfn.discounts, 0 ≤ kv.2) :
    ∀ kp ∈ activationProps dfn, 0 ≤ kp.2.grants ∧ 0 ≤ kp.2.discount :=
  combinePData_vals _ _ (dictOf_vals _ hg) (dictOf_vals _ hd)

theorem pPayload_nonneg (dfn : FeatureDefn) (u : String)
    (hg : ∀ kv ∈ declGrants dfn.grants, 0 ≤ kv.2)
    (hd : ∀ kv ∈ dfn.discounts, 0 ≤ kv.2) :
    0 ≤ (pPayload dfn u).grants ∧ 0 ≤ (pPayload dfn u).discount := by
  unfold pPayload
  cases hl : lookupAssoc u (activationProps dfn) with
  | none => simp
  | some pd =>
    simp only [Option.getD_some]
    exact activationProps_vals dfn hg hd (u, pd) (lookupAssoc_mem _ _ _ hl)

/-! ## Lemmas: worklist sums and the gathered payload -/

theorem wsum_append (sel : PData → Int) (u : String) :
    ∀ (a b : List (String × PData)), wsum sel u (a ++ b) = wsum sel u a + wsum sel u b := by
  intro a b
  induction a with
  | nil => simp [wsum]
  | cons td rest ih => simp [wsum, ih]; ring

theorem wsum_zero_of_not_mem (sel : PData → Int) (u : String) :
    ∀ (l : List (String × PData)), u ∉ List.map Prod.fst l → wsum sel u l = 0 := by
  intro l
  induction l with
  | nil => intro _; rfl
  | cons td rest ih =>
    intro h
    rw [show wsum sel u (td :: rest)
        = (if td.1 = u then sel td.2 else 0) + wsum sel u rest from rfl]
    have hne : ¬(td.1 = u) := fun he => h (by
      rw [← he]
      exact List.mem_map.mpr ⟨td, List.mem_cons_self _ _, rfl⟩)
    rw [if_neg hne, ih (fun hm => h (List.mem_cons_of_mem _ hm))]
    ring

theorem wsum_eq_lookup (sel : PData → Int) (hz : sel {} = 0) (u : String) :
    ∀ (l : List (String × PData)), (List.map Prod.fst l).Nodup →
      wsum sel u l = sel ((lookupAssoc u l).getD {}) := by
  intro l
  induction l with
  | nil => simp [wsum, lookupAssoc, hz]
  | cons td rest ih =>
    intro hnd
    rw [List.map_cons, List.nodup_cons] at hnd
    rw [show wsum sel u (td :: rest)
        = (if td.1 = u then sel td.2 else 0) + wsum sel u rest from rfl]
    rw [show lookupAssoc u (td :: rest)
        = (if td.1 = u then some td.2 else lookupAssoc u rest) from rfl]
    by_cases ht : td.1 = u
    · rw [if_pos ht, if_pos ht, Option.getD_some,
        wsum_zero_of_not_mem sel u rest (ht ▸ hnd.1)]
      ring
    · rw [if_neg ht, if_neg ht, ih hnd.2]
      ring

theorem wsum_map_neg (sel : PData → Int) (hneg : ∀ d, sel (PData.neg d) = -sel d)
    (u : String) :
    ∀ (l : List (String × PData)),
      wsum sel u (l.map (fun kv => (kv.1, kv.2.neg))) = -wsum sel u l := by
  intro l
  induction l with
  | nil => simp [wsum]
  | cons td rest ih =>
    rw [List.map_cons]
    rw [show wsum sel u ((td.1, td.2.neg) :: List.map (fun kv => (kv.1, kv.2.neg)) rest)
        = (if td.1 = u then sel td.2.neg else 0)
          + wsum sel u (List.map (fun kv => (kv.1, kv.2.neg)) rest) from rfl]
    rw [show wsum sel u (td :: rest)
        = (if td.1 = u then sel td.2 else 0) + wsum sel u rest from rfl]
    rw [ih, hneg]
    by_cases ht : td.1 = u
    · rw [if_pos ht, if_pos ht]; ring
    · rw [if_neg ht, if_neg ht]; ring

theorem wsum_nonneg_of (sel : PData → Int) (u : String) :
    ∀ (l : List (String × PData)), (∀ td ∈ l, 0 ≤ sel td.2) → 0 ≤ wsum sel u l := by
  intro l
  induction l with
  | nil => intro _; exact le_refl 0
  | cons td rest ih =>
    intro h
    rw [show wsum sel u (td :: rest)
        = (if td.1 = u then sel td.2 else 0) + wsum sel u rest from rfl]
    have h1 := h td (List.mem_cons_self _ _)
    have h2 := ih (fun x hx => h x (List.mem_cons_of_mem _ hx))
    by_cases ht : td.1 = u
    · rw [if_pos ht]; omega
    · rw [if_neg ht]; omega

theorem wsum_nonpos_of (sel : PData → Int) (u : String) :
    ∀ (l : List (String × PData)), (∀ td ∈ l, sel td.2 ≤ 0) → wsum sel u l ≤ 0 := by
  intro l
  induction l with
  | nil => intro _; exact le_refl 0
  | cons td rest ih =>
    intro h
    rw [show wsum sel u (td :: rest)
        = (if td.1 = u then sel td.2 else 0) + wsum sel u rest from rfl]
    have h1 := h td (List.mem_cons_self _ _)
    have h2 := ih (fun x hx => h x (List.mem_cons_of_mem _ hx))
    by_cases ht : td.1 = u
    · rw [if_pos ht]; omega
    · rw [if_neg ht]; omega

theorem gather_self (dfn : FeatureDefn) (e : Int) : gatherPropagation dfn e e = [] := by
  unfold gatherPropagation
  rw [if_pos (Or.inr rfl)]

/-- The pending delta a gathered payload addresses to one target is exactly
the activation indicator difference times that target's payload. -/
theorem gather_wsum (dfn : FeatureDefn) (prev eff : Int)
    (hp : 0 ≤ prev) (he : 0 ≤ eff)
    (sel : PData → Int) (hz : sel {} = 0)
    (hneg : ∀ d, sel (PData.neg d) = -sel d) (u : String) :
    wsum sel u (gatherPropagation dfn prev eff)
      = ((if 0 < eff then 1 else 0) - (if 0 < prev then 1 else 0))
          * sel (pPayload dfn u) := by
  by_cases hpe : prev = eff
  · rw [hpe, gather_self, show wsum sel u [] = 0 from rfl]
    ring
  · by_cases hp0 : prev = 0
    · have heff : 0 < eff := by omega
      rw [hp0, gatherPropagation_activation dfn eff heff,
        wsum_eq_lookup sel hz u _ (activationProps_nodup dfn)]
      rw [if_pos heff, if_neg (by omega)]
      unfold pPayload
      ring
    · by_cases he0 : eff = 0
      · have hprev : 0 < prev := by omega
        rw [he0, gatherPropagation_deactivation dfn prev hprev, wsum_map_neg sel hneg,
          wsum_eq_lookup sel hz u _ (activationProps_nodup dfn)]
        rw [if_neg (by omega), if_pos hprev]
        unfold pPayload
        ring
      · rw [gatherPropagation_inRange dfn prev eff hp0 he0,
          show wsum sel u [] = 0 from rfl]
        rw [if_pos (by omega), if_pos (by omega)]
        ring

/-- During a monotone (increase-phase) step every gathered delta is an
activation-payload entry. -/
theorem gather_mem_up (dfn : FeatureDefn) (prev eff : Int)
    (hp : 0 ≤ prev) (hpe : prev ≤ eff) :
    ∀ td ∈ gatherPropagation dfn prev eff, td ∈ activationProps dfn := by
  intro td h
  by_cases hpe2 : prev = eff
  · rw [hpe2, gather_self] at h
    exact absurd h (List.not_mem_nil _)
  · by_cases hp0 : prev = 0
    · have heff : 0 < eff := by omega
      rw [hp0, gatherPropagation_activation dfn eff heff] at h
      exact h
    · by_cases he0 : eff = 0
      · exact absurd (by omega : prev = 0) hp0
      · rw [gatherPropagation_inRange dfn prev eff hp0 he0] at h
        exact absurd h (List.not_mem_nil _)

/-- During an antitone (decrease-phase) step every gathered delta is the
negation of an activation-payload entry. -/
theorem gather_mem_down (dfn : FeatureDefn) (prev eff : Int)
    (he : 0 ≤ eff) (hpe : eff ≤ prev) :
    ∀ td ∈ gatherPropagation dfn prev eff,
      td ∈ (activationProps dfn).map (fun kv => (kv.1, kv.2.neg)) := by
  intro td h
  by_cases hpe2 : prev = eff
  · rw [hpe2, gather_self] at h
    exact absurd h (List.not_mem_nil _)
  · by_cases he0 : eff = 0
    · have hprev : 0 < prev := by omega
      rw [he0, gatherPropagation_deactivation dfn prev hprev] at h
      exact h
    · by_cases hp0 : prev = 0
      · exact absurd (by omega : eff = 0) he0
      · rw [gatherPropagation_inRange dfn prev eff hp0 he0] at h
        exact absurd h (List.not_mem_nil _)

/-! ## Lemmas: payload sums over the ruleset -/

theorem sumPay_nonneg (actF : String → Int) (sel : PData → Int) (u : String)
    (hact : ∀ v, 0 ≤ actF v) :
    ∀ (L : List (String × FeatureDefn)), (∀ vd ∈ L, 0 ≤ sel (pPayload vd.2 u)) →
      0 ≤ sumPay actF sel u L := by
  intro L
  induction L with
  | nil => intro _; exact le_refl 0
  | cons vd rest ih =>
    intro h
    rw [show sumPay actF sel u (vd :: rest)
        = actF vd.1 * sel (pPayload vd.2 u) + sumPay actF sel u rest from rfl]
    have h1 := mul_nonneg (hact vd.1) (h vd (List.mem_cons_self _ _))
    have h2 := ih (fun x hx => h x (List.mem_cons_of_mem _ hx))
    omega

theorem sumPay_congr (actF1 actF2 : String → Int) (sel : PData → Int) (u : String) :
    ∀ (L : List (String × FeatureDefn)),
      (∀ vd ∈ L, actF1 vd.1 * sel (pPayload vd.2 u)
        = actF2 vd.1 * sel (pPayload vd.2 u)) →
      sumPay actF1 sel u L = sumPay actF2 sel u L := by
  intro L
  induction L with
  | nil => intro _; rfl
  | cons vd rest ih =>
    intro h
    rw [show sumPay actF1 sel u (vd :: rest)
        = actF1 vd.1 * sel (pPayload vd.2 u) + sumPay actF1 sel u rest from rfl]
    rw [show sumPay actF2 sel u (vd :: rest)
        = actF2 vd.1 * sel (pPayload vd.2 u) + sumPay actF2 sel u rest from rfl]
    rw [h vd (List.mem_cons_self _ _), ih (fun x hx => h x (List.mem_cons_of_mem _ hx))]

/-- Changing the activation weight at a single feature shifts a payload sum
by the weight difference times that feature's payload. -/
theorem sumPay_update (actF1 actF2 : String → Int) (sel : PData → Int) (u : String)
    (t : String) (dfn : FeatureDefn)
    (hagree : ∀ v, v ≠ t → actF2 v = actF1 v) :
    ∀ (L : List (String × FeatureDefn)), (List.map Prod.fst L).Nodup → (t, dfn) ∈ L →
      sumPay actF2 sel u L
        = sumPay actF1 sel u L + (actF2 t - actF1 t) * sel (pPayload dfn u) := by
  intro L
  induction L with
  | nil => intro _ hmem; exact absurd hmem (List.not_mem_nil _)
  | cons vd rest ih =>
    intro hnd hmem
    rw [List.map_cons, List.nodup_cons] at hnd
    rw [show sumPay actF2 sel u (vd :: rest)
        = actF2 vd.1 * sel (pPayload vd.2 u) + sumPay actF2 sel u rest from rfl]
    rw [show sumPay actF1 sel u (vd :: rest)
        = actF1 vd.1 * sel (pPayload vd.2 u) + sumPay actF1 sel u rest from rfl]
    rcases List.mem_cons.mp hmem with h1 | h1
    · have hv1 : vd.1 = t := congrArg Prod.fst h1.symm
      have hv2 : vd.2 = dfn := congrArg Prod.snd h1.symm
      have hrest : sumPay actF2 sel u rest = sumPay actF1 sel u rest := by
        refine (sumPay_congr actF2 actF1 sel u rest ?_)
        intro wd hwd
        have hwt : wd.1 ≠ t :=
          fun he => (hv1 ▸ hnd.1) (he ▸ List.mem_map.mpr ⟨wd, hwd, rfl⟩)
        rw [hagree wd.1 hwt]
      rw [hrest, hv1, hv2]
      ring
    · have hvt : vd.1 ≠ t := by
        intro he
        exact hnd.1 (he ▸ List.mem_map.mpr ⟨(t, dfn), h1, rfl⟩)
      rw [hagree vd.1 hvt, ih hnd.2 h1]
      ring

theorem actW_nonneg (R : Ruleset) (s : CharState) (v : String) : 0 ≤ actW R s v := by
  unfold actW
  by_cases h : 0 < effOf R s v
  · rw [if_pos h]; omega
  · rw [if_neg h]

theorem effOf_congr (R : Ruleset) (s s' : CharState) (v : String)
    (hg : s'.granted v = s.granted v) (hp : s'.purchased v = s.purchased v) :
    effOf R s' v = effOf R s v := by
  unfold effOf
  cases lookupAssoc v R with
  | none => rfl
  | some dfn => rw [hg, hp]

theorem effOf_nonneg (R : Ruleset) (s : CharState) (v : String)
    (hm : ∀ w dfn, lookupAssoc w R = some dfn → 0 ≤ dfn.maxRanks)
    (hg : 0 ≤ s.granted v) (hp : 0 ≤ s.purchased v) : 0 ≤ effOf R s v := by
  unfold effOf
  cases hl : lookupAssoc v R with
  | none => exact le_refl 0
  | some dfn => exact le_min (by omega) (hm v dfn hl)

/-! ## The cascade preserves the conservation ledger -/

/-- One feature-target propagation step rebalances the ledger for one field
(`granted` with the `grants` payload component, `_discount` with
`discount`), over any class of ledger indices `P` (defined features, or
attribute-controller ids): the delta moved out of the worklist lands in the
field, and the freshly gathered payload accounts exactly for the target's
activation change. -/
theorem ledger_step_sel (R : Ruleset) (hND : (List.map Prod.fst R).Nodup)
    (P : String → Prop)
    (t : String) (dfn : FeatureDefn) (hlt : lookupAssoc t R = some dfn)
    (d : PData) (ps : List (String × PData)) (s S2 : CharState)
    (sel : PData → Int) (fld : CharState → String → Int)
    (hz : sel {} = 0) (hneg : ∀ x, sel (PData.neg x) = -sel x)
    (prevv effv : Int)
    (hprev_eq : prevv = effOf R s t) (heff_eq : effv = effOf R S2 t)
    (hprev0 : 0 ≤ prevv) (heff0 : 0 ≤ effv)
    (hfld : ∀ u, fld S2 u = if u = t then fld s t + sel d else fld s u)
    (heffS2 : ∀ v, ¬(v = t) → effOf R S2 v = effOf R s v)
    (hold : ∀ u, P u →
      fld s u + wsum sel u ((t, d) :: ps) = actSum R sel s u) :
    ∀ u, P u →
      fld S2 u + wsum sel u (gatherPropagation dfn prevv effv ++ ps)
        = actSum R sel S2 u := by
  intro u hu
  have hG := gather_wsum dfn prevv effv hprev0 heff0 sel hz hneg u
  have hAct : actSum R sel S2 u
      = actSum R sel s u + (actW R S2 t - actW R s t) * sel (pPayload dfn u) := by
    unfold actSum
    exact sumPay_update (actW R s) (actW R S2) sel u t dfn
      (fun v hv => by unfold actW; rw [heffS2 v hv]) R hND (lookupAssoc_mem t dfn R hlt)
  have hW1 : actW R S2 t = (if 0 < effv then 1 else 0) := by
    unfold actW
    rw [heff_eq]
  have hW2 : actW R s t = (if 0 < prevv then 1 else 0) := by
    unfold actW
    rw [hprev_eq]
  have hold_u := hold u hu
  rw [show wsum sel u ((t, d) :: ps)
      = (if t = u then sel d else 0) + wsum sel u ps from rfl] at hold_u
  rw [hfld u, wsum_append, hG, hAct, hW1, hW2]
  by_cases hut : u = t
  · rw [if_pos hut]
    rw [if_pos hut.symm] at hold_u
    rw [hut] at hold_u ⊢
    linarith [hold_u]
  · rw [if_neg hut]
    rw [if_neg (fun he => hut he.symm)] at hold_u
    linarith [hold_u]

/-- A state change that leaves every defined feature's granted and
purchased ranks alone leaves every activation-weighted payload sum alone. -/
theorem actSum_congr_off (R : Ruleset) (sel : PData → Int) (s s' : CharState)
    (h : ∀ v, (lookupAssoc v R).isSome = true →
      s'.granted v = s.granted v ∧ s'.purchased v = s.purchased v) (u : String) :
    actSum R sel s' u = actSum R sel s u := by
  unfold actSum
  refine sumPay_congr (actW R s') (actW R s) sel u R ?_
  intro vd hvd
  have hs := h vd.1 (isSome_of_mem vd.1 vd.2 R hvd)
  unfold actW
  rw [effOf_congr R s s' vd.1 hs.1 hs.2]

/-- The feature-target branch of the cascade: all invariants survive one
truthy delta applied to a catalogued target. -/
theorem cascade_step_all (R : Ruleset) (A : List String)
    (hND : (List.map Prod.fst R).Nodup)
    (hMax : ∀ w dfn, lookupAssoc w R = some dfn → 0 ≤ dfn.maxRanks)
    (hPay : ∀ w dfn, lookupAssoc w R = some dfn →
      ∀ u, 0 ≤ (pPayload dfn u).grants ∧ 0 ≤ (pPayload dfn u).discount)
    (hPayE : ∀ w dfn, lookupAssoc w R = some dfn →
      ∀ kp ∈ activationProps dfn, 0 ≤ kp.2.grants ∧ 0 ≤ kp.2.discount)
    (up : Bool) (n : Nat)
    (ih : ∀ (W : List (String × PData)) (s s' : CharState),
      cascade R A n W s = some s' → CacheAccurate R s → Ledger R A s W → WSign up W →
      (∀ u, 0 ≤ s.purchased u) → (∀ u, 0 ≤ s.granted u) →
      CacheAccurate R s' ∧ Consistent R A s' ∧ (∀ u, 0 ≤ s'.granted u)
        ∧ s'.purchased = s.purchased
        ∧ (∀ u, lookupAssoc u R = none → s'.discount u = s.discount u)
        ∧ (∀ u, lookupAssoc u R = none → A.contains u = false →
            s'.granted u = s.granted u))
    (t : String) (d : PData) (dfn : FeatureDefn) (hlt : lookupAssoc t R = some dfn)
    (ps : List (String × PData)) (s s' : CharState)
    (prevv effv : Int)
    (hprevv : prevv = (s.effCache t).getD 0)
    (heffv : effv = min (s.granted t + d.grants + s.purchased t) dfn.maxRanks)
    (S2 : CharState) (W2 : List (String × PData))
    (hS2 : S2 = { purchased := s.purchased,
                  granted := updF s.granted t (s.granted t + d.grants),
                  discount := updF s.discount t (s.discount t + d.discount),
                  effCache := updF s.effCache t (some effv) })
    (hW2 : W2 = gatherPropagation dfn prevv effv ++ ps)
    (hacc : CacheAccurate R s) (hled : Ledger R A s ((t, d) :: ps))
    (hsign : WSign up ((t, d) :: ps))
    (hpn : ∀ u, 0 ≤ s.purchased u) (hgn : ∀ u, 0 ≤ s.granted u)
    (h : cascade R A n W2 S2 = some s') :
    CacheAccurate R s' ∧ Consistent R A s' ∧ (∀ u, 0 ≤ s'.granted u)
      ∧ s'.purchased = s.purchased
      ∧ (∀ u, lookupAssoc u R = none → s'.discount u = s.discount u)
      ∧ (∀ u, lookupAssoc u R = none → A.contains u = false →
          s'.granted u = s.granted u) := by
  have hS2p : ∀ u, S2.purchased u = s.purchased u := by
    intro u
    rw [hS2]
  have hS2g : ∀ u, S2.granted u = updF s.granted t (s.granted t + d.grants) u := by
    intro u
    rw [hS2]
  have hS2gt : S2.granted t = s.granted t + d.grants := by
    rw [hS2g t, updF_self]
  have hprev_eq : prevv = effOf R s t := by
    have hc := hacc t dfn hlt
    simp only [cval] at hc
    rw [hprevv, hc]
    unfold effOf
    rw [hlt]
  have heff_eq : effv = effOf R S2 t := by
    unfold effOf
    rw [hlt, hS2gt, hS2p t, heffv]
  have heffS2 : ∀ v, ¬(v = t) → effOf R S2 v = effOf R s v := by
    intro v hv
    exact effOf_congr R s S2 v (by rw [hS2g v, updF_ne _ _ _ _ hv]) (hS2p v)
  have hprev0 : 0 ≤ prevv := by
    rw [hprev_eq]
    exact effOf_nonneg R s t hMax (hgn t) (hpn t)
  have hefft : effOf R s t = min (s.granted t + s.purchased t) dfn.maxRanks := by
    unfold effOf
    rw [hlt]
  have htsome : (lookupAssoc t R).isSome = true := by
    rw [hlt]
    rfl
  have hacc2 : CacheAccurate R S2 := by
    intro g dfn' hg
    by_cases hgt : g = t
    · subst hgt
      rw [hlt] at hg
      injection hg with hg
      subst hg
      rw [hS2]
      simp [cval, updF_self, heffv]
    · rw [hS2]
      simp only [cval, updF_ne _ _ _ _ hgt]
      have hc := hacc g dfn' hg
      simpa [cval] using hc
  have hpn2 : ∀ u, 0 ≤ S2.purchased u := by
    intro u
    rw [hS2p u]
    exact hpn u
  have hActNonneg : ∀ (st : CharState) (sel : PData → Int)
      (hselp : ∀ w dfn2, lookupAssoc w R = some dfn2 → ∀ u, 0 ≤ sel (pPayload dfn2 u))
      (u : String), 0 ≤ actSum R sel st u := by
    intro st sel hselp u
    exact sumPay_nonneg (actW R st) sel u (actW_nonneg R st) R
      (fun vd hvd => hselp vd.1 vd.2 (lookup_of_mem_nodup vd.1 vd.2 R hND hvd) u)
  cases up with
  | true =>
    have hsign' : ∀ td ∈ (t, d) :: ps, 0 ≤ td.2.grants ∧ 0 ≤ td.2.discount := by
      intro td htd
      have hs := hsign td htd
      simpa using hs
    have hdg : 0 ≤ d.grants := (hsign' (t, d) (List.mem_cons_self _ _)).1
    have heff0 : 0 ≤ effv := by
      rw [heffv]
      refine le_min ?_ (hMax t dfn hlt)
      have h1 := hgn t
      have h2 := hpn t
      omega
    have hmono : prevv ≤ effv := by
      rw [hprev_eq, hefft, heffv]
      exact min_le_min (by omega) (le_refl _)
    have hgn2 : ∀ u, 0 ≤ S2.granted u := by
      intro u
      rw [hS2g u]
      by_cases hut : u = t
      · rw [hut, updF_self]
        have h1 := hgn t
        omega
      · rw [updF_ne _ _ _ _ hut]
        exact hgn u
    have hLg := ledger_step_sel R hND (fun u => (lookupAssoc u R).isSome = true)
      t dfn hlt d ps s S2 PData.grants
      (fun st => st.granted) rfl (fun x => rfl) prevv effv hprev_eq heff_eq hprev0 heff0
      (fun u => by show S2.granted u = _; rw [hS2]; rfl) heffS2
      (fun u hu => ((hled u).1 hu).1)
    have hLd := ledger_step_sel R hND (fun u => (lookupAssoc u R).isSome = true)
      t dfn hlt d ps s S2 PData.discount
      (fun st => st.discount) rfl (fun x => rfl) prevv effv hprev_eq heff_eq hprev0 heff0
      (fun u => by show S2.discount u = _; rw [hS2]; rfl) heffS2
      (fun u hu => ((hled u).1 hu).2)
    have hLa := ledger_step_sel R hND
      (fun u => lookupAssoc u R = none ∧ A.contains u = true)
      t dfn hlt d ps s S2 PData.grants
      (fun st => st.granted) rfl (fun x => rfl) prevv effv hprev_eq heff_eq hprev0 heff0
      (fun u => by show S2.granted u = _; rw [hS2]; rfl) heffS2
      (fun u hu => (hled u).2 hu.1 hu.2)
    have hled2 : Ledger R A S2 W2 := by
      rw [hW2]
      intro u
      exact ⟨fun hu => ⟨hLg u hu, hLd u hu⟩, fun h1 h2 => hLa u ⟨h1, h2⟩⟩
    have hsign2 : WSign true W2 := by
      rw [hW2]
      intro td htd
      rw [if_pos rfl]
      rcases List.mem_append.mp htd with hGm | hps
      · exact hPayE t dfn hlt td (gather_mem_up dfn prevv effv hprev0 hmono td hGm)
      · exact hsign' td (List.mem_cons_of_mem _ hps)
    obtain ⟨hacc', hcons', hg', hpur', houtd', houtg'⟩ :=
      ih W2 S2 s' h hacc2 hled2 hsign2 hpn2 hgn2
    refine ⟨hacc', hcons', hg', ?_, ?_, ?_⟩
    · rw [hpur', hS2]
    · intro u hu
      have hut : ¬(u = t) := by
        intro he
        rw [he, hlt] at hu
        exact absurd hu (by simp)
      rw [houtd' u hu, hS2]
      exact updF_ne _ _ _ _ hut
    · intro u hu huA
      have hut : ¬(u = t) := by
        intro he
        rw [he, hlt] at hu
        exact absurd hu (by simp)
      rw [houtg' u hu huA, hS2]
      exact updF_ne _ _ _ _ hut
  | false =>
    have hsign' : ∀ td ∈ (t, d) :: ps, td.2.grants ≤ 0 ∧ td.2.discount ≤ 0 := by
      intro td htd
      have hs := hsign td htd
      simpa using hs
    have hdg : d.grants ≤ 0 := (hsign' (t, d) (List.mem_cons_self _ _)).1
    have hgd : 0 ≤ s.granted t + d.grants := by
      have hLt := ((hled t).1 htsome).1
      rw [show wsum PData.grants t ((t, d) :: ps)
          = (if t = t then d.grants else 0) + wsum PData.grants t ps from rfl,
        if_pos rfl] at hLt
      have hA : 0 ≤ actSum R PData.grants s t :=
        hActNonneg s PData.grants (fun w dfn2 hw u => (hPay w dfn2 hw u).1) t
      have hW : wsum PData.grants t ps ≤ 0 :=
        wsum_nonpos_of _ _ ps (fun td htd => (hsign' td (List.mem_cons_of_mem _ htd)).1)
      omega
    have heff0 : 0 ≤ effv := by
      rw [heffv]
      refine le_min ?_ (hMax t dfn hlt)
      have h2 := hpn t
      omega
    have hmono : effv ≤ prevv := by
      rw [hprev_eq, hefft, heffv]
      exact min_le_min (by omega) (le_refl _)
    have hLg := ledger_step_sel R hND (fun u => (lookupAssoc u R).isSome = true)
      t dfn hlt d ps s S2 PData.grants
      (fun st => st.granted) rfl (fun x => rfl) prevv effv hprev_eq heff_eq hprev0 heff0
      (fun u => by show S2.granted u = _; rw [hS2]; rfl) heffS2
      (fun u hu => ((hled u).1 hu).1)
    have hLd := ledger_step_sel R hND (fun u => (lookupAssoc u R).isSome = true)
      t dfn hlt d ps s S2 PData.discount
      (fun st => st.discount) rfl (fun x => rfl) prevv effv hprev_eq heff_eq hprev0 heff0
      (fun u => by show S2.discount u = _; rw [hS2]; rfl) heffS2
      (fun u hu => ((hled u).1 hu).2)
    have hLa := ledger_step_sel R hND
      (fun u => lookupAssoc u R = none ∧ A.contains u = true)
      t dfn hlt d ps s S2 PData.grants
      (fun st => st.granted) rfl (fun x => rfl) prevv effv hprev_eq heff_eq hprev0 heff0
      (fun u => by show S2.granted u = _; rw [hS2]; rfl) heffS2
      (fun u hu => (hled u).2 hu.1 hu.2)
    have hled2 : Ledger R A S2 W2 := by
      rw [hW2]
      intro u
      exact ⟨fun hu => ⟨hLg u hu, hLd u hu⟩, fun h1 h2 => hLa u ⟨h1, h2⟩⟩
    have hsign2 : WSign false W2 := by
      rw [hW2]
      intro td htd
      rw [if_neg (by simp)]
      rcases List.mem_append.mp htd with hGm | hps
      · have hmem := gather_mem_down dfn prevv effv heff0 hmono td hGm
        obtain ⟨kv, hkv, heq⟩ := List.mem_map.mp hmem
        have hkp := hPayE t dfn hlt kv hkv
        rw [← heq]
        constructor
        · show -kv.2.grants ≤ 0
          omega
        · show -kv.2.discount ≤ 0
          omega
      · exact hsign' td (List.mem_cons_of_mem _ hps)
    have hgn2 : ∀ u, 0 ≤ S2.granted u := by
      intro u
      by_cases hres : lookupAssoc u R = none
      · have hut : ¬(u = t) := by
          intro he
          rw [he, hlt] at hres
          exact absurd hres (by simp)
        rw [hS2g u, updF_ne _ _ _ _ hut]
        exact hgn u
      · have hu : (lookupAssoc u R).isSome = true := by
          cases hx : lookupAssoc u R with
          | none => exact absurd hx hres
          | some _ => rfl
        have hLu := ((hled2 u).1 hu).1
        have hA : 0 ≤ actSum R PData.grants S2 u :=
          hActNonneg S2 PData.grants (fun w dfn2 hw u2 => (hPay w dfn2 hw u2).1) u
        have hWn : wsum PData.grants u W2 ≤ 0 :=
          wsum_nonpos_of _ _ W2 (fun td htd => (by simpa using hsign2 td htd : _ ∧ _).1)
        omega
    obtain ⟨hacc', hcons', hg', hpur', houtd', houtg'⟩ :=
      ih W2 S2 s' h hacc2 hled2 hsign2 hpn2 hgn2
    refine ⟨hacc', hcons', hg', ?_, ?_, ?_⟩
    · rw [hpur', hS2]
    · intro u hu
      have hut : ¬(u = t) := by
        intro he
        rw [he, hlt] at hu
        exact absurd hu (by simp)
      rw [houtd' u hu, hS2]
      exact updF_ne _ _ _ _ hut
    · intro u hu huA
      have hut : ¬(u = t) := by
        intro he
        rw [he, hlt] at hu
        exact absurd hu (by simp)
      rw [houtg' u hu huA, hS2]
      exact updF_ne _ _ _ _ hut

/-- The attribute-target branch of the cascade:
`AttributeController.propagate` only adds the `grants` component to the
attribute's granted ranks, which feeds back into no feature's rank total,
so all invariants survive. -/
theorem cascade_step_attr (R : Ruleset) (A : List String)
    (hND : (List.map Prod.fst R).Nodup)
    (hPay : ∀ w dfn, lookupAssoc w R = some dfn →
      ∀ u, 0 ≤ (pPayload dfn u).grants ∧ 0 ≤ (pPayload dfn u).discount)
    (up : Bool) (n : Nat)
    (ih : ∀ (W : List (String × PData)) (s s' : CharState),
      cascade R A n W s = some s' → CacheAccurate R s → Ledger R A s W → WSign up W →
      (∀ u, 0 ≤ s.purchased u) → (∀ u, 0 ≤ s.granted u) →
      CacheAccurate R s' ∧ Consistent R A s' ∧ (∀ u, 0 ≤ s'.granted u)
        ∧ s'.purchased = s.purchased
        ∧ (∀ u, lookupAssoc u R = none → s'.discount u = s.discount u)
        ∧ (∀ u, lookupAssoc u R = none → A.contains u = false →
            s'.granted u = s.granted u))
    (t : String) (d : PData) (hlt : lookupAssoc t R = none) (hAc : A.contains t = true)
    (ps : List (String × PData)) (s s' : CharState)
    (SA : CharState)
    (hSA : SA = { purchased := s.purchased,
                  granted := updF s.granted t (s.granted t + d.grants),
                  discount := s.discount, effCache := s.effCache })
    (hacc : CacheAccurate R s) (hled : Ledger R A s ((t, d) :: ps))
    (hsign : WSign up ((t, d) :: ps))
    (hpn : ∀ u, 0 ≤ s.purchased u) (hgn : ∀ u, 0 ≤ s.granted u)
    (h : cascade R A n ps SA = some s') :
    CacheAccurate R s' ∧ Consistent R A s' ∧ (∀ u, 0 ≤ s'.granted u)
      ∧ s'.purchased = s.purchased
      ∧ (∀ u, lookupAssoc u R = none → s'.discount u = s.discount u)
      ∧ (∀ u, lookupAssoc u R = none → A.contains u = false →
          s'.granted u = s.granted u) := by
  have hSAp : ∀ u, SA.purchased u = s.purchased u := by
    intro u
    rw [hSA]
  have hSAg : ∀ u, SA.granted u = updF s.granted t (s.granted t + d.grants) u := by
    intro u
    rw [hSA]
  have hSAd : ∀ u, SA.discount u = s.discount u := by
    intro u
    rw [hSA]
  have hSAc : ∀ u, SA.effCache u = s.effCache u := by
    intro u
    rw [hSA]
  have hne : ∀ u, (lookupAssoc u R).isSome = true → ¬(u = t) := by
    intro u hu he
    rw [he, hlt] at hu
    exact absurd hu (by simp)
  have hACongr : ∀ (sel : PData → Int) (u : String),
      actSum R sel SA u = actSum R sel s u := by
    intro sel u
    refine actSum_congr_off R sel s SA ?_ u
    intro v hv
    exact ⟨by rw [hSAg v, updF_ne _ _ _ _ (hne v hv)], hSAp v⟩
  have hacc2 : CacheAccurate R SA := by
    intro g dfn' hg
    have hgt := hne g (by rw [hg]; rfl)
    have h1 : cval SA g = cval s g := by
      unfold cval
      rw [hSAc g]
    rw [h1, hSAg g, updF_ne _ _ _ _ hgt, hSAp g]
    exact hacc g dfn' hg
  have hpn2 : ∀ u, 0 ≤ SA.purchased u := by
    intro u
    rw [hSAp u]
    exact hpn u
  have hled2 : Ledger R A SA ps := by
    intro u
    constructor
    · intro hu
      have hut := hne u hu
      have hfu := (hled u).1 hu
      constructor
      · have hh := hfu.1
        rw [show wsum PData.grants u ((t, d) :: ps)
            = (if t = u then PData.grants d else 0) + wsum PData.grants u ps from rfl,
          if_neg (fun he => hut he.symm)] at hh
        rw [hSAg u, updF_ne _ _ _ _ hut, hACongr PData.grants u]
        omega
      · have hh := hfu.2
        rw [show wsum PData.discount u ((t, d) :: ps)
            = (if t = u then PData.discount d else 0) + wsum PData.discount u ps from rfl,
          if_neg (fun he => hut he.symm)] at hh
        rw [hSAd u, hACongr PData.discount u]
        omega
    · intro h1 h2
      have hau := (hled u).2 h1 h2
      rw [show wsum PData.grants u ((t, d) :: ps)
          = (if t = u then PData.grants d else 0) + wsum PData.grants u ps from rfl] at hau
      rw [hSAg u, hACongr PData.grants u]
      by_cases hut : u = t
      · subst hut
        rw [updF_self]
        rw [if_pos rfl] at hau
        omega
      · rw [updF_ne _ _ _ _ hut]
        rw [if_neg (fun he => hut he.symm)] at hau
        omega
  have hsign2 : WSign up ps := fun td htd => hsign td (List.mem_cons_of_mem _ htd)
  have hgn2 : ∀ u, 0 ≤ SA.granted u := by
    intro u
    rw [hSAg u]
    by_cases hut : u = t
    · rw [hut, updF_self]
      cases up with
      | true =>
        have hs := hsign (t, d) (List.mem_cons_self _ _)
        simp only [if_pos rfl] at hs
        have hdg : 0 ≤ d.grants := by simpa using hs.1
        have h1 := hgn t
        omega
      | false =>
        have hau := (hled t).2 hlt hAc
        rw [show wsum PData.grants t ((t, d) :: ps)
            = (if t = t then PData.grants d else 0) + wsum PData.grants t ps from rfl,
          if_pos rfl] at hau
        have hA : 0 ≤ actSum R PData.grants s t :=
          sumPay_nonneg (actW R s) PData.grants t (actW_nonneg R s) R
            (fun vd hvd =>
              (hPay vd.1 vd.2 (lookup_of_mem_nodup vd.1 vd.2 R hND hvd) t).1)
        have hW : wsum PData.grants t ps ≤ 0 := by
          refine wsum_nonpos_of _ _ ps ?_
          intro td htd
          have hs := hsign td (List.mem_cons_of_mem _ htd)
          exact (by simpa using hs : _ ∧ _).1
        omega
    · rw [updF_ne _ _ _ _ hut]
      exact hgn u
  obtain ⟨hacc', hcons', hg', hpur', houtd', houtg'⟩ :=
    ih ps SA s' h hacc2 hled2 hsign2 hpn2 hgn2
  refine ⟨hacc', hcons', hg', ?_, ?_, ?_⟩
  · rw [hpur', hSA]
  · intro u hu
    rw [houtd' u hu, hSAd u]
  · intro u hu huA
    have hut : ¬(u = t) := by
      intro he
      rw [he] at huA
      rw [hAc] at huA
      exact Bool.noConfusion huA
    rw [houtg' u hu huA, hSAg u, updF_ne _ _ _ _ hut]

/-- The cascade preserves cache accuracy and the conservation ledger and
ends consistent: a terminating `_perform_propagation` worklist leaves every
feature's granted ranks and discount — and every attribute controller's
granted ranks — equal to the summed payloads of the active granting
features. -/
theorem cascade_conserve (R : Ruleset) (A : List String)
    (hND : (List.map Prod.fst R).Nodup)
    (hMax : ∀ w dfn, lookupAssoc w R = some dfn → 0 ≤ dfn.maxRanks)
    (hPay : ∀ w dfn, lookupAssoc w R = some dfn →
      ∀ u, 0 ≤ (pPayload dfn u).grants ∧ 0 ≤ (pPayload dfn u).discount)
    (hPayE : ∀ w dfn, lookupAssoc w R = some dfn →
      ∀ kp ∈ activationProps dfn, 0 ≤ kp.2.grants ∧ 0 ≤ kp.2.discount)
    (up : Bool) :
    ∀ (fuel : Nat) (W : List (String × PData)) (s s' : CharState),
      cascade R A fuel W s = some s' →
      CacheAccurate R s → Ledger R A s W → WSign up W →
      (∀ u, 0 ≤ s.purchased u) → (∀ u, 0 ≤ s.granted u) →
      CacheAccurate R s' ∧ Consistent R A s'
        ∧ (∀ u, 0 ≤ s'.granted u) ∧ s'.purchased = s.purchased
        ∧ (∀ u, lookupAssoc u R = none → s'.discount u = s.discount u)
        ∧ (∀ u, lookupAssoc u R = none → A.contains u = false →
            s'.granted u = s.granted u) := by
  intro fuel
  induction fuel with
  | zero => intro W s s' h _ _ _ _ _; exact absurd h (by simp [cascade])
  | succ n ih =>
    intro W s s' h hacc hled hsign hpn hgn
    match W with
    | [] =>
      simp only [cascade, Option.some.injEq] at h
      subst h
      refine ⟨hacc, ?_, hgn, rfl, fun u _ => rfl, fun u _ _ => rfl⟩
      intro u
      constructor
      · intro hu
        have h2 := (hled u).1 hu
        rw [show wsum PData.grants u [] = 0 from rfl,
          show wsum PData.discount u [] = 0 from rfl] at h2
        exact ⟨by omega, by omega⟩
      · intro h1 h2
        have h3 := (hled u).2 h1 h2
        rw [show wsum PData.grants u [] = 0 from rfl] at h3
        omega
    | (t, d) :: ps =>
      rw [show cascade R A (n + 1) ((t, d) :: ps) s =
          (match lookupAssoc t R with
           | none =>
             if A.contains t then
               cascade R A n ps
                 { s with granted := updF s.granted t (s.granted t + d.grants) }
             else cascade R A n ps s
           | some dfn =>
             if d.grants = 0 ∧ d.discount = 0 then cascade R A n ps s
             else
               let s1 : CharState :=
                 { s with granted := updF s.granted t (s.granted t + d.grants),
                          discount := updF s.discount t (s.discount t + d.discount) }
               let prev := cval s1 t
               let eff := min (s1.granted t + s1.purchased t) dfn.maxRanks
               let s2 := { s1 with effCache := updF s1.effCache t (some eff) }
               cascade R A n (gatherPropagation dfn prev eff ++ ps) s2) from rfl] at h
      split at h
      · rename_i hlt
        by_cases hAc : A.contains t = true
        · rw [if_pos hAc] at h
          exact cascade_step_attr R A hND hPay up n ih t d hlt hAc ps s s' _ rfl
            hacc hled hsign hpn hgn h
        · rw [if_neg hAc] at h
          have hAc2 : A.contains t = false := by
            cases hx : A.contains t with
            | false => rfl
            | true => exact absurd hx hAc
          refine ih ps s s' h hacc ?_
            (fun td htd => hsign td (List.mem_cons_of_mem _ htd)) hpn hgn
          intro u
          constructor
          · intro hu
            have htu : ¬(t = u) := by
              intro he
              rw [he] at hlt
              rw [hlt] at hu
              exact absurd hu (by simp)
            have h2 := (hled u).1 hu
            rw [show wsum PData.grants u ((t, d) :: ps)
                = (if t = u then PData.grants d else 0) + wsum PData.grants u ps from rfl,
              if_neg htu] at h2
            rw [show wsum PData.discount u ((t, d) :: ps)
                = (if t = u then PData.discount d else 0)
                  + wsum PData.discount u ps from rfl,
              if_neg htu] at h2
            exact ⟨by omega, by omega⟩
          · intro h1 h2c
            have htu : ¬(t = u) := by
              intro he
              rw [← he] at h2c
              exact Bool.noConfusion (h2c.symm.trans hAc2)
            have h3 := (hled u).2 h1 h2c
            rw [show wsum PData.grants u ((t, d) :: ps)
                = (if t = u then PData.grants d else 0) + wsum PData.grants u ps from rfl,
              if_neg htu] at h3
            omega
      · rename_i dfn hlt
        split at h
        · rename_i hz0
          refine ih ps s s' h hacc ?_
            (fun td htd => hsign td (List.mem_cons_of_mem _ htd)) hpn hgn
          intro u
          constructor
          · intro hu
            have h2 := (hled u).1 hu
            rw [show wsum PData.grants u ((t, d) :: ps)
                = (if t = u then PData.grants d else 0)
                  + wsum PData.grants u ps from rfl] at h2
            rw [show wsum PData.discount u ((t, d) :: ps)
                = (if t = u then PData.discount d else 0)
                  + wsum PData.discount u ps from rfl] at h2
            simp only [hz0.1, hz0.2, ite_self] at h2
            exact ⟨by omega, by omega⟩
          · intro h1 h2c
            have h3 := (hled u).2 h1 h2c
            rw [show wsum PData.grants u ((t, d) :: ps)
                = (if t = u then PData.grants d else 0)
                  + wsum PData.grants u ps from rfl] at h3
            simp only [hz0.1, ite_self] at h3
            omega
        · rename_i hz0
          simp only [cval, updF_self] at h
          exact cascade_step_all R A hND hMax hPay hPayE up n ih t d dfn hlt ps s s'
            ((s.effCache t).getD 0)
            (min (s.granted t + d.grants + s.purchased t) dfn.maxRanks)
            rfl rfl _ _ rfl rfl hacc hled hsign hpn hgn h

/-- Core of a purchase mutation: adjusting the focal feature's purchased
ranks by `δ` and reconciling keeps the state cache-accurate and consistent,
moves only that one purchased entry, and leaves discounts outside the
catalogue and granted ranks outside catalogue and attribute map
untouched. -/
theorem op_core (R : Ruleset) (A : List String)
    (hND : (List.map Prod.fst R).Nodup)
    (hMax : ∀ w dfn, lookupAssoc w R = some dfn → 0 ≤ dfn.maxRanks)
    (hPay : ∀ w dfn, lookupAssoc w R = some dfn →
      ∀ u, 0 ≤ (pPayload dfn u).grants ∧ 0 ≤ (pPayload dfn u).discount)
    (hPayE : ∀ w dfn, lookupAssoc w R = some dfn →
      ∀ kp ∈ activationProps dfn, 0 ≤ kp.2.grants ∧ 0 ≤ kp.2.discount)
    (fuel : Nat) (f : String) (δ : Int) (dfnf : FeatureDefn)
    (hf : lookupAssoc f R = some dfnf)
    (s s' : CharState) (prevv effv : Int)
    (hpv : prevv = (s.effCache f).getD 0)
    (hev : effv = min (s.granted f + (s.purchased f + δ)) dfnf.maxRanks)
    (S1 : CharState)
    (hS1 : S1 = { purchased := updF s.purchased f (s.purchased f + δ),
                  granted := s.granted, discount := s.discount,
                  effCache := updF s.effCache f (some effv) })
    (hrun : cascade R A fuel (gatherPropagation dfnf prevv effv) S1 = some s')
    (hacc : CacheAccurate R s) (hcons : Consistent R A s)
    (hpn : ∀ u, 0 ≤ s.purchased u) (hgn : ∀ u, 0 ≤ s.granted u)
    (hpd : 0 ≤ s.purchased f + δ) :
    CacheAccurate R s' ∧ Consistent R A s'
      ∧ (∀ u, 0 ≤ s'.granted u)
      ∧ (∀ u, s'.purchased u = if u = f then s.purchased f + δ else s.purchased u)
      ∧ (∀ u, lookupAssoc u R = none → s'.discount u = s.discount u)
      ∧ (∀ u, lookupAssoc u R = none → A.contains u = false →
          s'.granted u = s.granted u) := by
  have hS1p : ∀ u, S1.purchased u = updF s.purchased f (s.purchased f + δ) u := by
    intro u
    rw [hS1]
  have hS1g : ∀ u, S1.granted u = s.granted u := by
    intro u
    rw [hS1]
  have hS1d : ∀ u, S1.discount u = s.discount u := by
    intro u
    rw [hS1]
  have hprev_eq : prevv = effOf R s f := by
    have hc := hacc f dfnf hf
    simp only [cval] at hc
    rw [hpv, hc]
    unfold effOf
    rw [hf]
  have heff_eq : effv = effOf R S1 f := by
    unfold effOf
    rw [hf, hS1g f, hS1p f, updF_self, hev]
  have heffS1 : ∀ v, ¬(v = f) → effOf R S1 v = effOf R s v := by
    intro v hv
    exact effOf_congr R s S1 v (hS1g v) (by rw [hS1p v, updF_ne _ _ _ _ hv])
  have hefft : effOf R s f = min (s.granted f + s.purchased f) dfnf.maxRanks := by
    unfold effOf
    rw [hf]
  have hprev0 : 0 ≤ prevv := by
    rw [hprev_eq]
    exact effOf_nonneg R s f hMax (hgn f) (hpn f)
  have heff0 : 0 ≤ effv := by
    rw [hev]
    refine le_min ?_ (hMax f dfnf hf)
    have h1 := hgn f
    omega
  have hacc1 : CacheAccurate R S1 := by
    intro g dfn' hg
    by_cases hgf : g = f
    · subst hgf
      rw [hf] at hg
      injection hg with hg
      subst hg
      rw [hS1]
      simp [cval, updF_self, hev]
    · rw [hS1]
      simp only [cval, updF_ne _ _ _ _ hgf]
      have hc := hacc g dfn' hg
      simpa [cval] using hc
  have hpn1 : ∀ u, 0 ≤ S1.purchased u := by
    intro u
    rw [hS1p u]
    by_cases hu : u = f
    · rw [hu, updF_self]
      exact hpd
    · rw [updF_ne _ _ _ _ hu]
      exact hpn u
  have hgn1 : ∀ u, 0 ≤ S1.granted u := by
    intro u
    rw [hS1g u]
    exact hgn u
  have hled1 : Ledger R A S1 (gatherPropagation dfnf prevv effv) := by
    intro u
    have key : ∀ (sel : PData → Int) (a : Int), sel ({} : PData) = 0 →
        (∀ x, sel (PData.neg x) = -sel x) →
        a = actSum R sel s u →
        (actSum R sel S1 u
          = actSum R sel s u + (actW R S1 f - actW R s f) * sel (pPayload dfnf u)) →
        a + wsum sel u (gatherPropagation dfnf prevv effv) = actSum R sel S1 u := by
      intro sel a hz hneg hc hAct
      have hG := gather_wsum dfnf prevv effv hprev0 heff0 sel hz hneg u
      have hW1 : actW R S1 f = (if 0 < effv then 1 else 0) := by
        unfold actW
        rw [heff_eq]
      have hW2 : actW R s f = (if 0 < prevv then 1 else 0) := by
        unfold actW
        rw [hprev_eq]
      rw [hG, hAct, hW1, hW2]
      linarith [hc]
    have hActg : actSum R PData.grants S1 u
        = actSum R PData.grants s u
          + (actW R S1 f - actW R s f) * PData.grants (pPayload dfnf u) := by
      unfold actSum
      exact sumPay_update (actW R s) (actW R S1) PData.grants u f dfnf
        (fun v hv => by unfold actW; rw [heffS1 v hv]) R hND (lookupAssoc_mem f dfnf R hf)
    have hActd : actSum R PData.discount S1 u
        = actSum R PData.discount s u
          + (actW R S1 f - actW R s f) * PData.discount (pPayload dfnf u) := by
      unfold actSum
      exact sumPay_update (actW R s) (actW R S1) PData.discount u f dfnf
        (fun v hv => by unfold actW; rw [heffS1 v hv]) R hND (lookupAssoc_mem f dfnf R hf)
    refine ⟨fun hu => ⟨?_, ?_⟩, fun h1 h2 => ?_⟩
    · rw [hS1g u]
      exact key PData.grants (s.granted u) rfl (fun x => rfl)
        ((hcons u).1 hu).1 hActg
    · rw [hS1d u]
      exact key PData.discount (s.discount u) rfl (fun x => rfl)
        ((hcons u).1 hu).2 hActd
    · rw [hS1g u]
      exact key PData.grants (s.granted u) rfl (fun x => rfl)
        ((hcons u).2 h1 h2) hActg
  have hfinish :
      (CacheAccurate R s' ∧ Consistent R A s' ∧ (∀ u, 0 ≤ s'.granted u)
        ∧ s'.purchased = S1.purchased
        ∧ (∀ u, lookupAssoc u R = none → s'.discount u = S1.discount u)
        ∧ (∀ u, lookupAssoc u R = none → A.contains u = false →
            s'.granted u = S1.granted u)) →
      CacheAccurate R s' ∧ Consistent R A s'
        ∧ (∀ u, 0 ≤ s'.granted u)
        ∧ (∀ u, s'.purchased u = if u = f then s.purchased f + δ else s.purchased u)
        ∧ (∀ u, lookupAssoc u R = none → s'.discount u = s.discount u)
        ∧ (∀ u, lookupAssoc u R = none → A.contains u = false →
            s'.granted u = s.granted u) := by
    rintro ⟨hacc', hcons', hg', hpur', houtd', houtg'⟩
    refine ⟨hacc', hcons', hg', ?_, ?_, ?_⟩
    · intro u
      rw [congrFun hpur' u, hS1p u]
      by_cases hu : u = f
      · rw [hu, updF_self, if_pos rfl]
      · rw [updF_ne _ _ _ _ hu, if_neg hu]
    · intro u hu
      exact (houtd' u hu).trans (hS1d u)
    · intro u hu huA
      exact (houtg' u hu huA).trans (hS1g u)
  by_cases hsd : 0 ≤ δ
  · have hmono : prevv ≤ effv := by
      rw [hprev_eq, hefft, hev]
      exact min_le_min (by omega) (le_refl _)
    have hsign1 : WSign true (gatherPropagation dfnf prevv effv) := by
      intro td htd
      rw [if_pos rfl]
      exact hPayE f dfnf hf td (gather_mem_up dfnf prevv effv hprev0 hmono td htd)
    exact hfinish (cascade_conserve R A hND hMax hPay hPayE true fuel _ S1 s' hrun
      hacc1 hled1 hsign1 hpn1 hgn1)
  · have hmono : effv ≤ prevv := by
      rw [hprev_eq, hefft, hev]
      exact min_le_min (by omega) (le_refl _)
    have hsign1 : WSign false (gatherPropagation dfnf prevv effv) := by
      intro td htd
      rw [if_neg (by simp)]
      have hmem := gather_mem_down dfnf prevv effv heff0 hmono td htd
      obtain ⟨kv, hkv, heq⟩ := List.mem_map.mp hmem
      have hkp := hPayE f dfnf hf kv hkv
      rw [← heq]
      constructor
      · show -kv.2.grants ≤ 0
        omega
      · show -kv.2.discount ≤ 0
        omega
    exact hfinish (cascade_conserve R A hND hMax hPay hPayE false fuel _ S1 s' hrun
      hacc1 hled1 hsign1 hpn1 hgn1)

/-- A single `increase`/`decrease` mutation (`purchased_ranks += δ` then
`reconcile()`) preserves cache accuracy and consistency. -/
theorem op_conserve (R : Ruleset) (A : List String)
    (hND : (List.map Prod.fst R).Nodup)
    (hMax : ∀ w dfn, lookupAssoc w R = some dfn → 0 ≤ dfn.maxRanks)
    (hPay : ∀ w dfn, lookupAssoc w R = some dfn →
      ∀ u, 0 ≤ (pPayload dfn u).grants ∧ 0 ≤ (pPayload dfn u).discount)
    (hPayE : ∀ w dfn, lookupAssoc w R = some dfn →
      ∀ kp ∈ activationProps dfn, 0 ≤ kp.2.grants ∧ 0 ≤ kp.2.discount)
    (fuel : Nat) (f : String) (δ : Int) (s s' : CharState)
    (hrun : reconcile R A fuel f
      { s with purchased := updF s.purchased f (s.purchased f + δ) } = some s')
    (hacc : CacheAccurate R s) (hcons : Consistent R A s)
    (hpn : ∀ u, 0 ≤ s.purchased u) (hgn : ∀ u, 0 ≤ s.granted u)
    (hpd : 0 ≤ s.purchased f + δ) :
    CacheAccurate R s' ∧ Consistent R A s'
      ∧ (∀ u, 0 ≤ s'.granted u)
      ∧ (∀ u, s'.purchased u = if u = f then s.purchased f + δ else s.purchased u)
      ∧ (∀ u, lookupAssoc u R = none → s'.discount u = s.discount u)
      ∧ (∀ u, lookupAssoc u R = none → A.contains u = false →
          s'.granted u = s.granted u) := by
  unfold reconcile at hrun
  cases hf : lookupAssoc f R with
  | none =>
    rw [hf] at hrun
    exact absurd hrun (by simp)
  | some dfnf =>
    rw [hf] at hrun
    simp only [cval, updF_self] at hrun
    exact op_core R A hND hMax hPay hPayE fuel f δ dfnf hf s s' _ _ rfl rfl _ rfl hrun
      hacc hcons hpn hgn hpd

/-- A sequence of increases preserves the invariants and accumulates the
purchased ranks of the focal feature. -/
theorem runIncs_conserve (R : Ruleset) (A : List String)
    (hND : (List.map Prod.fst R).Nodup)
    (hMax : ∀ w dfn, lookupAssoc w R = some dfn → 0 ≤ dfn.maxRanks)
    (hPay : ∀ w dfn, lookupAssoc w R = some dfn →
      ∀ u, 0 ≤ (pPayload dfn u).grants ∧ 0 ≤ (pPayload dfn u).discount)
    (hPayE : ∀ w dfn, lookupAssoc w R = some dfn →
      ∀ kp ∈ activationProps dfn, 0 ≤ kp.2.grants ∧ 0 ≤ kp.2.discount)
    (fuel : Nat) (f : String) :
    ∀ (vs : List Int) (s s' : CharState),
      (∀ v ∈ vs, 0 ≤ v) →
      runIncs R A fuel f vs s = some s' →
      CacheAccurate R s → Consistent R A s →
      (∀ u, 0 ≤ s.purchased u) → (∀ u, 0 ≤ s.granted u) →
      CacheAccurate R s' ∧ Consistent R A s'
        ∧ (∀ u, 0 ≤ s'.granted u) ∧ (∀ u, 0 ≤ s'.purchased u)
        ∧ (∀ u, s'.purchased u
            = if u = f then s.purchased f + vs.sum else s.purchased u)
        ∧ (∀ u, lookupAssoc u R = none → s'.discount u = s.discount u)
        ∧ (∀ u, lookupAssoc u R = none → A.contains u = false →
            s'.granted u = s.granted u) := by
  intro vs
  induction vs with
  | nil =>
    intro s s' _ h hacc hcons hpn hgn
    rw [show runIncs R A fuel f [] s = some s from rfl] at h
    injection h with h
    subst h
    refine ⟨hacc, hcons, hgn, hpn, ?_, fun u _ => rfl, fun u _ _ => rfl⟩
    intro u
    by_cases hu : u = f
    · rw [if_pos hu, hu]
      simp
    · rw [if_neg hu]
  | cons v vs ih =>
    intro s s' hv h hacc hcons hpn hgn
    rw [show runIncs R A fuel f (v :: vs) s
        = (match increaseOp R A fuel f v s with
           | none => none
           | some s1 => runIncs R A fuel f vs s1) from rfl] at h
    cases hstep : increaseOp R A fuel f v s with
    | none =>
      rw [hstep] at h
      exact absurd h (by simp)
    | some s1 =>
      rw [hstep] at h
      have hv0 : 0 ≤ v := hv v (List.mem_cons_self _ _)
      obtain ⟨hacc1, hcons1, hgn1, hpur1, houtd1, houtg1⟩ :=
        op_conserve R A hND hMax hPay hPayE fuel f v s s1 hstep hacc hcons hpn hgn
          (by have := hpn f; omega)
      have hpn1 : ∀ u, 0 ≤ s1.purchased u := by
        intro u
        rw [hpur1 u]
        by_cases hu : u = f
        · rw [if_pos hu]
          have := hpn f
          omega
        · rw [if_neg hu]
          exact hpn u
      obtain ⟨hacc2, hcons2, hgn2, hpn2, hpur2, houtd2, houtg2⟩ :=
        ih s1 s' (fun w hw => hv w (List.mem_cons_of_mem _ hw)) h hacc1 hcons1 hpn1 hgn1
      refine ⟨hacc2, hcons2, hgn2, hpn2, ?_, ?_, ?_⟩
      · intro u
        rw [hpur2 u]
        by_cases hu : u = f
        · rw [if_pos hu, if_pos hu, hpur1 f, if_pos rfl, List.sum_cons]
          ring
        · rw [if_neg hu, if_neg hu, hpur1 u, if_neg hu]
      · intro u hu
        exact (houtd2 u hu).trans (houtd1 u hu)
      · intro u hu huA
        exact (houtg2 u hu huA).trans (houtg1 u hu huA)

/-- A sequence of decreases that never overdraws the focal feature's
purchased ranks preserves the invariants and drains exactly its sum. -/
theorem runDecs_conserve (R : Ruleset) (A : List String)
    (hND : (List.map Prod.fst R).Nodup)
    (hMax : ∀ w dfn, lookupAssoc w R = some dfn → 0 ≤ dfn.maxRanks)
    (hPay : ∀ w dfn, lookupAssoc w R = some dfn →
      ∀ u, 0 ≤ (pPayload dfn u).grants ∧ 0 ≤ (pPayload dfn u).discount)
    (hPayE : ∀ w dfn, lookupAssoc w R = some dfn →
      ∀ kp ∈ activationProps dfn, 0 ≤ kp.2.grants ∧ 0 ≤ kp.2.discount)
    (fuel : Nat) (f : String) :
    ∀ (vs : List Int) (s s' : CharState),
      (∀ v ∈ vs, 0 ≤ v) →
      vs.sum ≤ s.purchased f →
      runDecs R A fuel f vs s = some s' →
      CacheAccurate R s → Consistent R A s →
      (∀ u, 0 ≤ s.purchased u) → (∀ u, 0 ≤ s.granted u) →
      CacheAccurate R s' ∧ Consistent R A s'
        ∧ (∀ u, 0 ≤ s'.granted u) ∧ (∀ u, 0 ≤ s'.purchased u)
        ∧ (∀ u, s'.purchased u
            = if u = f then s.purchased f - vs.sum else s.purchased u)
        ∧ (∀ u, lookupAssoc u R = none → s'.discount u = s.discount u)
        ∧ (∀ u, lookupAssoc u R = none → A.contains u = false →
            s'.granted u = s.granted u) := by
  intro vs
  induction vs with
  | nil =>
    intro s s' _ _ h hacc hcons hpn hgn
    rw [show runDecs R A fuel f [] s = some s from rfl] at h
    injection h with h
    subst h
    refine ⟨hacc, hcons, hgn, hpn, ?_, fun u _ => rfl, fun u _ _ => rfl⟩
    intro u
    by_cases hu : u = f
    · rw [if_pos hu, hu]
      simp
    · rw [if_neg hu]
  | cons v vs ih =>
    intro s s' hv hsum h hacc hcons hpn hgn
    rw [show runDecs R A fuel f (v :: vs) s
        = (match decreaseOp R A fuel f v s with
           | none => none
           | some s1 => runDecs R A fuel f vs s1) from rfl] at h
    cases hstep : decreaseOp R A fuel f v s with
    | none =>
      rw [hstep] at h
      exact absurd h (by simp)
    | some s1 =>
      rw [hstep] at h
      have hv0 : 0 ≤ v := hv v (List.mem_cons_self _ _)
      have hvs0 : 0 ≤ vs.sum :=
        List.sum_nonneg (fun w hw => hv w (List.mem_cons_of_mem _ hw))
      rw [List.sum_cons] at hsum
      obtain ⟨hacc1, hcons1, hgn1, hpur1, houtd1, houtg1⟩ :=
        op_conserve R A hND hMax hPay hPayE fuel f (-v) s s1 hstep hacc hcons hpn hgn
          (by omega)
      have hpn1 : ∀ u, 0 ≤ s1.purchased u := by
        intro u
        rw [hpur1 u]
        by_cases hu : u = f
        · rw [if_pos hu]
          omega
        · rw [if_neg hu]
          exact hpn u
      have hsum1 : vs.sum ≤ s1.purchased f := by
        rw [hpur1 f, if_pos rfl]
        omega
      obtain ⟨hacc2, hcons2, hgn2, hpn2, hpur2, houtd2, houtg2⟩ :=
        ih s1 s' (fun w hw => hv w (List.mem_cons_of_mem _ hw)) hsum1 h
          hacc1 hcons1 hpn1 hgn1
      refine ⟨hacc2, hcons2, hgn2, hpn2, ?_, ?_, ?_⟩
      · intro u
        rw [hpur2 u]
        by_cases hu : u = f
        · rw [if_pos hu, if_pos hu, hpur1 f, if_pos rfl, List.sum_cons]
          ring
        · rw [if_neg hu, if_neg hu, hpur1 u, if_neg hu]
      · intro u hu
        exact (houtd2 u hu).trans (houtd1 u hu)
      · intro u hu huA
        exact (houtg2 u hu huA).trans (houtg1 u hu huA)

/-- On a grant DAG, a consistent state is determined by the purchased
ranks: two consistent states with the same purchases agree on every defined
feature's granted ranks and discount. -/
theorem consistent_unique (R : Ruleset) (A : List String) (rank : String → Nat)
    (hDAG : RankedDAG R rank)
    (sa sb : CharState)
    (hpur : ∀ u, sa.purchased u = sb.purchased u)
    (hca : Consistent R A sa) (hcb : Consistent R A sb) :
    ∀ u, (lookupAssoc u R).isSome →
      sa.granted u = sb.granted u ∧ sa.discount u = sb.discount u := by
  have body : ∀ u, (lookupAssoc u R).isSome = true →
      (∀ w, rank w < rank u → (lookupAssoc w R).isSome = true →
        sa.granted w = sb.granted w ∧ sa.discount w = sb.discount w) →
      sa.granted u = sb.granted u ∧ sa.discount u = sb.discount u := by
    intro u hu hsend
    have hsum : ∀ (sel : PData → Int), sel ({} : PData) = 0 →
        actSum R sel sa u = actSum R sel sb u := by
      intro sel hz
      unfold actSum
      refine sumPay_congr (actW R sa) (actW R sb) sel u R ?_
      intro vd hvd
      by_cases hzero : pPayload vd.2 u = ({} : PData)
      · rw [hzero, hz, mul_zero, mul_zero]
      · have hlk : ∃ pd, lookupAssoc u (activationProps vd.2) = some pd := by
          cases hx : lookupAssoc u (activationProps vd.2) with
          | none => exact absurd (by unfold pPayload; rw [hx]; rfl) hzero
          | some pd => exact ⟨pd, rfl⟩
        obtain ⟨pd, hpd⟩ := hlk
        have hrank : rank vd.1 < rank u :=
          hDAG vd hvd (u, pd) (lookupAssoc_mem u pd _ hpd)
        have hvsome : (lookupAssoc vd.1 R).isSome = true :=
          isSome_of_mem vd.1 vd.2 R hvd
        have heq := hsend vd.1 hrank hvsome
        have heff : effOf R sa vd.1 = effOf R sb vd.1 :=
          effOf_congr R sb sa vd.1 heq.1 (hpur vd.1)
        unfold actW
        rw [heff]
    constructor
    · rw [((hca u).1 hu).1, ((hcb u).1 hu).1]
      exact hsum PData.grants rfl
    · rw [((hca u).1 hu).2, ((hcb u).1 hu).2]
      exact hsum PData.discount rfl
  have main : ∀ (n : Nat) (u : String), rank u ≤ n → (lookupAssoc u R).isSome = true →
      sa.granted u = sb.granted u ∧ sa.discount u = sb.discount u := by
    intro n
    induction n with
    | zero =>
      intro u hr hu
      refine body u hu ?_
      intro w hw _
      omega
    | succ n ihn =>
      intro u hr hu
      refine body u hu ?_
      intro w hw hws
      exact ihn w (by omega) hws
  exact fun u hu => main (rank u) u (le_refl _) hu

theorem sumPay_zero (actF : String → Int) (sel : PData → Int) (u : String) :
    ∀ (L : List (String × FeatureDefn)), (∀ vd ∈ L, actF vd.1 = 0) →
      sumPay actF sel u L = 0 := by
  intro L
  induction L with
  | nil => intro _; rfl
  | cons vd rest ih =>
    intro h
    rw [show sumPay actF sel u (vd :: rest)
        = actF vd.1 * sel (pPayload vd.2 u) + sumPay actF sel u rest from rfl]
    rw [h vd (List.mem_cons_self _ _), ih (fun x hx => h x (List.mem_cons_of_mem _ hx)),
      zero_mul, zero_add]

/-- C1: on a well-formed grant DAG, starting from a consistent character,
any sequence of rank increases of a feature followed by the exact inverse
sequence of decreases returns the granted ranks *and* the discount of every
controller — downstream feature targets and attribute-controller targets
included — to their pre-sequence values; and the propagation payload
gathered at a deactivation is the exact negation of the payload gathered at
the matching activation. -/
theorem propagation_conservation
    (R : Ruleset) (A : List String) (rank : String → Nat)
    (hWF : RulesetWF R) (hDAG : RankedDAG R rank)
    (fuel1 fuel2 : Nat) (f : String) (vs : List Int)
    (hv : ∀ v ∈ vs, 0 < v)
    (s0 s1 s2 : CharState)
    (hacc : CacheAccurate R s0) (hcons : Consistent R A s0)
    (hpn : ∀ u, 0 ≤ s0.purchased u) (hgn : ∀ u, 0 ≤ s0.granted u)
    (hup : runIncs R A fuel1 f vs s0 = some s1)
    (hdown : runDecs R A fuel2 f vs.reverse s1 = some s2) :
    (∀ u, s2.granted u = s0.granted u ∧ s2.discount u = s0.discount u)
    ∧ (∀ (dfn : FeatureDefn) (t : Int), 0 < t →
        gatherPropagation dfn t 0
          = (gatherPropagation dfn 0 t).map (fun kv => (kv.1, kv.2.neg))) := by
  constructor
  · obtain ⟨hND, hprops⟩ := hWF
    have hMax : ∀ w dfn, lookupAssoc w R = some dfn → 0 ≤ dfn.maxRanks :=
      fun w dfn h => (hprops (w, dfn) (lookupAssoc_mem w dfn R h)).1
    have hPay : ∀ w dfn, lookupAssoc w R = some dfn →
        ∀ u, 0 ≤ (pPayload dfn u).grants ∧ 0 ≤ (pPayload dfn u).discount :=
      fun w dfn h u => pPayload_nonneg dfn u
        (hprops (w, dfn) (lookupAssoc_mem w dfn R h)).2.1
        (hprops (w, dfn) (lookupAssoc_mem w dfn R h)).2.2
    have hPayE : ∀ w dfn, lookupAssoc w R = some dfn →
        ∀ kp ∈ activationProps dfn, 0 ≤ kp.2.grants ∧ 0 ≤ kp.2.discount :=
      fun w dfn h => activationProps_vals dfn
        (hprops (w, dfn) (lookupAssoc_mem w dfn R h)).2.1
        (hprops (w, dfn) (lookupAssoc_mem w dfn R h)).2.2
    have hv0 : ∀ v ∈ vs, 0 ≤ v := fun v hvv => le_of_lt (hv v hvv)
    obtain ⟨hacc1, hcons1, hgn1, hpn1, hpur1, houtd1, houtg1⟩ :=
      runIncs_conserve R A hND hMax hPay hPayE fuel1 f vs s0 s1 hv0 hup
        hacc hcons hpn hgn
    have hvr0 : ∀ v ∈ vs.reverse, 0 ≤ v := fun v hvv => hv0 v (List.mem_reverse.mp hvv)
    have hsumr : vs.reverse.sum ≤ s1.purchased f := by
      rw [List.sum_reverse, hpur1 f, if_pos rfl]
      have := hpn f
      omega
    obtain ⟨hacc2, hcons2, hgn2, hpn2, hpur2, houtd2, houtg2⟩ :=
      runDecs_conserve R A hND hMax hPay hPayE fuel2 f vs.reverse s1 s2 hvr0 hsumr
        hdown hacc1 hcons1 hpn1 hgn1
    have hpureq : ∀ u, s2.purchased u = s0.purchased u := by
      intro u
      rw [hpur2 u]
      by_cases hu : u = f
      · rw [if_pos hu, hpur1 f, if_pos rfl, List.sum_reverse, hu]
        ring
      · rw [if_neg hu, hpur1 u, if_neg hu]
    have huniq := consistent_unique R A rank hDAG s2 s0 hpureq hcons2 hcons
    intro u
    cases hlu : lookupAssoc u R with
    | some dfnu =>
      exact huniq u (by rw [hlu]; rfl)
    | none =>
      constructor
      · by_cases hcu : A.contains u = true
        · have h2 := (hcons2 u).2 hlu hcu
          have h0 := (hcons u).2 hlu hcu
          rw [h2, h0]
          unfold actSum
          refine sumPay_congr (actW R s2) (actW R s0) PData.grants u R ?_
          intro vd hvd
          have hsome := isSome_of_mem vd.1 vd.2 R hvd
          have heq := huniq vd.1 hsome
          unfold actW
          rw [effOf_congr R s0 s2 vd.1 heq.1 (hpureq vd.1)]
        · have hcu2 : A.contains u = false := by
            cases hx : A.contains u with
            | false => rfl
            | true => exact absurd hx hcu
          exact (houtg2 u hlu hcu2).trans (houtg1 u hlu hcu2)
      · exact (houtd2 u hlu).trans (houtd1 u hlu)
  · intro dfn t ht
    rw [gatherPropagation_deactivation dfn t ht, gatherPropagation_activation dfn t ht]

/-- Witness for `propagation_conservation`: buying 2 then 1 ranks of `f`
(which grants a rank of feature `a` and 2 ranks of the attribute `lp`, and
discounts `b`) on a pristine character, then selling 1 then 2 ranks back,
restores every granted rank and discount — including the attribute
controller's. -/
theorem propagation_conservation_witness :
    RulesetWF c1R ∧ RankedDAG c1R c1Rank
    ∧ (∀ v ∈ ([2, 1] : List Int), 0 < v)
    ∧ CacheAccurate c1R c1S0 ∧ Consistent c1R c1A c1S0
    ∧ (∀ u, 0 ≤ c1S0.purchased u) ∧ (∀ u, 0 ≤ c1S0.granted u)
    ∧ runIncs c1R c1A 10 "f" [2, 1] c1S0 = some c1S1
    ∧ runDecs c1R c1A 10 "f" (List.reverse [2, 1]) c1S1 = some c1S2
    ∧ ((∀ u, c1S2.granted u = c1S0.granted u ∧ c1S2.discount u = c1S0.discount u)
       ∧ (∀ (dfn : FeatureDefn) (t : Int), 0 < t →
           gatherPropagation dfn t 0
             = (gatherPropagation dfn 0 t).map (fun kv => (kv.1, kv.2.neg)))) := by
  have hWF : RulesetWF c1R := by
    unfold RulesetWF
    decide
  have hDAG : RankedDAG c1R c1Rank := by
    unfold RankedDAG
    decide
  have hv : ∀ v ∈ ([2, 1] : List Int), 0 < v := by decide
  have hacc : CacheAccurate c1R c1S0 := by
    intro g dfn hg
    have hmem := lookupAssoc_mem g dfn c1R hg
    have hmax : dfn.maxRanks = 5 := by
      rcases List.mem_cons.mp hmem with h1 | hrest
      · injection h1 with ha hb
        subst hb
        rfl
      · rcases List.mem_cons.mp hrest with h2 | hrest2
        · injection h2 with ha hb
          subst hb
          rfl
        · rcases List.mem_cons.mp hrest2 with h3 | h3
          · injection h3 with ha hb
            subst hb
            rfl
          · exact absurd h3 (List.not_mem_nil _)
    rw [hmax]
    show (0 : Int) = min ((0 : Int) + (0 : Int)) (5 : Int)
    decide
  have hcons : Consistent c1R c1A c1S0 := by
    have hz : ∀ vd ∈ c1R, actW c1R c1S0 vd.1 = 0 := by
      decide
    intro u
    constructor
    · intro hu
      constructor
      · show (0 : Int) = actSum c1R PData.grants c1S0 u
        rw [show actSum c1R PData.grants c1S0 u
            = sumPay (actW c1R c1S0) PData.grants u c1R from rfl,
          sumPay_zero _ _ _ c1R hz]
      · show (0 : Int) = actSum c1R PData.discount c1S0 u
        rw [show actSum c1R PData.discount c1S0 u
            = sumPay (actW c1R c1S0) PData.discount u c1R from rfl,
          sumPay_zero _ _ _ c1R hz]
    · intro h1 h2
      show (0 : Int) = actSum c1R PData.grants c1S0 u
      rw [show actSum c1R PData.grants c1S0 u
          = sumPay (actW c1R c1S0) PData.grants u c1R from rfl,
        sumPay_zero _ _ _ c1R hz]
  have hpn : ∀ u, 0 ≤ c1S0.purchased u := fun _ => le_refl 0
  have hgn : ∀ u, 0 ≤ c1S0.granted u := fun _ => le_refl 0
  have hup : runIncs c1R c1A 10 "f" [2, 1] c1S0 = some c1S1 := rfl
  have hdown : runDecs c1R c1A 10 "f" (List.reverse [2, 1]) c1S1 = some c1S2 := rfl
  exact ⟨hWF, hDAG, hv, hacc, hcons, hpn, hgn, hup, hdown,
    propagation_conservation c1R c1A c1Rank hWF hDAG 10 10 "f" [2, 1] hv c1S0 c1S1 c1S2
      hacc hcons hpn hgn hup hdown⟩

end Camp
